import Mathlib

/-!
# KumuluzEE configuration client for Go: resolution engine

A shallow embedding of package `config` (files `config.go`, `common.go`,
`env_config.go`, `file_config.go`, `consul_config.go`, `etcd_config.go`,
`helper_func_bundle.go`) together with the properties of the source registry, of the
priority sort, of the typed accessors, of the sources, of the watch loops and of the struct
binder.

Conventions of the embedding.

* A Go `string` is a Lean `String`; the Go code is only ever given valid UTF-8 here, and the
  byte-wise scanners of `strconv` are run over the characters (every branch they take on a
  byte of a multi-byte character is the branch taken on that character).
* `int` is the 64-bit signed integer of the usual targets.
* A value of dynamic type `interface{}` is a `RawValue`; the nil interface is `RawValue.nil`.
* A call that can end in a run-time panic returns `Except String _`; `.error` is the panic.
* A struct passed by pointer is the tree of its fields (`Fields`); a `reflect.Value` of a
  field is the path of field indices that leads to it, and `Set` through it is an update of
  the tree at that path.
-/

namespace Config

/-! ## Floating point numbers and machine integers -/

/-- A `float64`: the finite value `(-1)^neg * m * 2^e`, an infinity, or a NaN. Every
`float32` is also a value of this type (the conversion `float64(t)` of a `float32` is exact),
and several pairs `(m, e)` may stand for one number. -/
inductive Float64 where
  | fin (neg : Bool) (m : Nat) (e : Int)
  | inf (neg : Bool)
  | nan
  deriving DecidableEq, Repr

/-- The zero value of `float64`. -/
def Float64.zero : Float64 := .fin false 0 0

def minInt64 : Int := -(2 ^ 63)

def maxInt64 : Int := 2 ^ 63 - 1

/-- Two's complement wrap of an integer into the range of `int64`. -/
def wrapInt64 (z : Int) : Int := (z + 2 ^ 63) % 2 ^ 64 - 2 ^ 63

/-- Number of binary digits of `n`, by halving at most `fuel` times. -/
def bitLenAux : Nat → Nat → Nat
  | 0, _ => 0
  | fuel + 1, n => if n = 0 then 0 else bitLenAux fuel (n / 2) + 1

/-- Number of binary digits of `n`. -/
def bitLen (n : Nat) : Nat := bitLenAux n n

/-- Nearest value with a 53 bit mantissa to the natural number `n`, ties to even: the
mantissa and the binary exponent. A number below `2^53` is kept as it is; of a longer one
the `sh` low bits that do not fit are rounded away. -/
def roundNat53 (n : Nat) : Nat × Nat :=
  if n < 2 ^ 53 then (n, 0)
  else
    let sh := bitLen n - 53
    let q := n / 2 ^ sh
    let r := n % 2 ^ sh
    let half := 2 ^ (sh - 1)
    if r > half ∨ (r = half ∧ q % 2 = 1) then (q + 1, sh) else (q, sh)

/-- The conversion `float64(t)` of an integer `t` of any of the ten integer types. -/
def float64OfInt (v : Int) : Float64 :=
  let (m, e) := roundNat53 v.natAbs
  .fin (decide (v < 0)) m e

/-- The integer part of a finite float (rounding toward zero); `none` for NaN and the
infinities. -/
def Float64.truncate : Float64 → Option Int
  | .fin neg m e =>
    let a : Nat := if 0 ≤ e then m * 2 ^ e.toNat else m / 2 ^ (-e).toNat
    some (if neg then -(a : Int) else (a : Int))
  | .inf _ => none
  | .nan => none

/-- The conversion `int(f)` of a `float64`. The fraction is discarded; when the result does
not fit `int` (or `f` is NaN or infinite) the Go specification leaves the value to the
implementation, which is the parameter `undef` here, wrapped into the range of `int`. -/
def intOfFloat64 (undef : Float64 → Int) (f : Float64) : Int :=
  match f.truncate with
  | some z => if minInt64 ≤ z ∧ z ≤ maxInt64 then z else wrapInt64 (undef f)
  | none => wrapInt64 (undef f)

/-! ## Raw values -/

/-- The ten integer types `assertAsNumber` knows. -/
inductive IntKind where
  | int | int8 | int16 | int32 | int64 | uint | uint8 | uint16 | uint32 | uint64
  deriving DecidableEq, Repr

/-- The least value of an integer type. -/
def IntKind.lo : IntKind → Int
  | .int => -(2 ^ 63) | .int8 => -(2 ^ 7) | .int16 => -(2 ^ 15) | .int32 => -(2 ^ 31)
  | .int64 => -(2 ^ 63)
  | .uint => 0 | .uint8 => 0 | .uint16 => 0 | .uint32 => 0 | .uint64 => 0

/-- The greatest value of an integer type. -/
def IntKind.hi : IntKind → Int
  | .int => 2 ^ 63 - 1 | .int8 => 2 ^ 7 - 1 | .int16 => 2 ^ 15 - 1 | .int32 => 2 ^ 31 - 1
  | .int64 => 2 ^ 63 - 1
  | .uint => 2 ^ 64 - 1 | .uint8 => 2 ^ 8 - 1 | .uint16 => 2 ^ 16 - 1 | .uint32 => 2 ^ 32 - 1
  | .uint64 => 2 ^ 64 - 1

/-- A value of type `interface{}` as the sources hand it out: the nil interface (the key is
absent), a boolean, a string, an integer of one of the ten integer types, a float of one of
the two float types, a nested mapping (`map[string]interface{}`, looked up front to back),
or a sequence (`[]interface{}`). -/
inductive RawValue where
  | nil
  | bool (b : Bool)
  | str (s : String)
  | int (k : IntKind) (v : Int)
  | float32 (f : Float64)
  | float64 (f : Float64)
  | map (m : List (String × RawValue))
  | slice (l : List RawValue)

/-- The test `val == nil` on an interface value. -/
def RawValue.isNil : RawValue → Bool
  | .nil => true
  | _ => false

/-- A raw value of one of the twelve numeric types. -/
def RawValue.isNumeric : RawValue → Bool
  | .int _ _ => true
  | .float32 _ => true
  | .float64 _ => true
  | _ => false

/-- `assertAsNumber` of `common.go`: the value as a `float64` when its dynamic type is one of
the twelve numeric types. -/
def assertAsNumber : RawValue → Float64 × Bool
  | .int _ v => (float64OfInt v, true)
  | .float32 f => (f, true)
  | .float64 f => (f, true)
  | _ => (Float64.zero, false)

/-! ## The parsers of package `strconv`

`GetBool`, `GetInt` and `GetFloat` call `strconv.ParseBool(s)`, `strconv.ParseInt(s, 0, 64)`
and `strconv.ParseFloat(s, 64)` of the Go standard library (Go 1.13 and later). They are
written out here for these arguments, after the library's `atob.go`, `atoi.go` and
`atof.go`. -/

namespace strconv

/-- The two errors of a numeric conversion. -/
inductive NumError where
  | ErrSyntax
  | ErrRange
  deriving DecidableEq, Repr

/-- `lower(c)`: the byte `c | ('x' - 'X')`, as a character code. -/
def lower (c : Char) : Nat := c.toNat ||| 32

/-- `strconv.ParseBool`: the twelve accepted spellings. -/
def ParseBool (str : String) : Bool × Option NumError :=
  if str = "1" ∨ str = "t" ∨ str = "T" ∨ str = "true" ∨ str = "TRUE" ∨ str = "True" then
    (true, none)
  else if str = "0" ∨ str = "f" ∨ str = "F" ∨ str = "false" ∨ str = "FALSE"
      ∨ str = "False" then
    (false, none)
  else
    (false, some .ErrSyntax)

/-- The body of the loop of `underscoreOK`; `saw` is the last kind of character seen. -/
def underscoreOKLoop (hex : Bool) : List Char → Char → Bool
  | [], saw => saw != '_'
  | c :: cs, saw =>
    if ('0' ≤ c ∧ c ≤ '9') ∨ (hex = true ∧ 97 ≤ lower c ∧ lower c ≤ 102) then
      underscoreOKLoop hex cs '0'
    else if c = '_' then
      if saw != '0' then false else underscoreOKLoop hex cs '_'
    else if saw = '_' then false
    else underscoreOKLoop hex cs '!'

/-- `underscoreOK`: underscores stand only between digits, or between a base prefix and a
digit. -/
def underscoreOK (s : List Char) : Bool :=
  let s := match s with
    | '-' :: t => t
    | '+' :: t => t
    | _ => s
  match s with
  | '0' :: c :: t =>
    if lower c = 98 ∨ lower c = 111 ∨ lower c = 120 then
      underscoreOKLoop (lower c = 120) t '0'
    else underscoreOKLoop false s '^'
  | _ => underscoreOKLoop false s '^'

/-- The digit loop of `ParseUint` for bit size 64: `n` is the value so far, `us` records
that an underscore was skipped. The result is the value, the flag, and the error. -/
def parseUintLoop (base : Nat) (base0 : Bool) :
    List Char → Nat → Bool → Nat × Bool × Option NumError
  | [], n, us => (n, us, none)
  | c :: cs, n, us =>
    if c = '_' ∧ base0 = true then parseUintLoop base base0 cs n true
    else
      let d : Option Nat :=
        if '0' ≤ c ∧ c ≤ '9' then some (c.toNat - 48)
        else if 97 ≤ lower c ∧ lower c ≤ 122 then some (lower c - 97 + 10)
        else none
      match d with
      | none => (0, us, some .ErrSyntax)
      | some d =>
        if d ≥ base then (0, us, some .ErrSyntax)
        else if n ≥ (2 ^ 64 - 1) / base + 1 then (2 ^ 64 - 1, us, some .ErrRange)
        else
          let n := n * base
          let n1 := (n + d) % 2 ^ 64
          if n1 < n ∨ n1 > 2 ^ 64 - 1 then (2 ^ 64 - 1, us, some .ErrRange)
          else parseUintLoop base base0 cs n1 us

/-- `strconv.ParseUint(s, 0, 64)`: the base is taken from the prefix of `s`. -/
def ParseUint (s : List Char) : Nat × Option NumError :=
  match s with
  | [] => (0, some .ErrSyntax)
  | c0 :: _ =>
    let (base, digits) : Nat × List Char :=
      if c0 = '0' then
        if s.length ≥ 3 ∧ s.tail.head?.map lower = some 98 then (2, s.drop 2)
        else if s.length ≥ 3 ∧ s.tail.head?.map lower = some 111 then (8, s.drop 2)
        else if s.length ≥ 3 ∧ s.tail.head?.map lower = some 120 then (16, s.drop 2)
        else (8, s.drop 1)
      else (10, s)
    match parseUintLoop base true digits 0 false with
    | (n, _, some e) => (n, some e)
    | (n, us, none) =>
      if us = true ∧ underscoreOK s = false then (0, some .ErrSyntax) else (n, none)

/-- `strconv.ParseInt(s, 0, 64)`. -/
def ParseInt (s : String) : Int × Option NumError :=
  if s = "" then (0, some .ErrSyntax)
  else
    let (neg, rest) : Bool × List Char :=
      match s.toList with
      | '+' :: t => (false, t)
      | '-' :: t => (true, t)
      | l => (false, l)
    let (un, err) := ParseUint rest
    if err = some .ErrSyntax then (0, err)
    else
      let cutoff : Nat := 2 ^ 63
      if neg = false ∧ un ≥ cutoff then (((cutoff - 1 : Nat) : Int), some .ErrRange)
      else if neg = true ∧ un > cutoff then (-(cutoff : Int), some .ErrRange)
      else
        let n := wrapInt64 (un : Int)
        (if neg then wrapInt64 (-n) else n, none)

/-- The `float64` nearest to the non-negative rational `n / d` (`d > 0`), ties to even, as a
mantissa below `2^53` or equal to it and an exponent not below `-1074`; `none` when the
rounded value is `2^1024` or more, that is, has more than 1024 binary digits (overflow). -/
def roundBinary64 (n d : Nat) : Option (Nat × Int) :=
  if n = 0 then some (0, 0)
  else
    let scaled : Int → Nat × Nat := fun e =>
      if 0 ≤ e then (n, d * 2 ^ e.toNat) else (n * 2 ^ (-e).toNat, d)
    let e1 : Int := max ((bitLen n : Int) - (bitLen d : Int) - 53) (-1074)
    let e : Int := if (scaled e1).1 / (scaled e1).2 < 2 ^ 53 then e1 else e1 + 1
    let a := (scaled e).1
    let b := (scaled e).2
    let q := a / b
    let r := a % b
    let m := if 2 * r > b ∨ (2 * r = b ∧ q % 2 = 1) then q + 1 else q
    if (bitLen m : Int) + e > 1024 then none else some (m, e)

/-- `commonPrefixLenIgnoreCase(s, pre)`: length of the common prefix, the case of `s`
ignored; `pre` is in lower case. -/
def commonPrefixLenIgnoreCase : List Char → List Char → Nat
  | c :: s, p :: pre =>
    let code := if 'A' ≤ c ∧ c ≤ 'Z' then c.toNat + 32 else c.toNat
    if code ≠ p.toNat then 0 else commonPrefixLenIgnoreCase s pre + 1
  | _, _ => 0

/-- The infinity case of `special`: `sign` and the number `nsign` of sign characters are
already read. -/
def specialInf (neg : Bool) (nsign : Nat) (s : List Char) : Option (Float64 × Nat) :=
  let n := commonPrefixLenIgnoreCase s "infinity".toList
  let n := if 3 < n ∧ n < 8 then 3 else n
  if n = 3 ∨ n = 8 then some (.inf neg, nsign + n) else none

/-- `special`: a leading, possibly signed, `inf` or `infinity`, or an unsigned `nan`, in any
case; the value and the number of characters it takes. -/
def special (s : List Char) : Option (Float64 × Nat) :=
  match s with
  | [] => none
  | c :: t =>
    if c = '+' ∨ c = '-' then specialInf (c = '-') 1 t
    else if c = 'i' ∨ c = 'I' then specialInf false 0 s
    else if c = 'n' ∨ c = 'N' then
      if commonPrefixLenIgnoreCase s "nan".toList = 3 then some (.nan, 3) else none
    else none

/-- What the mantissa loop of `readFloat` has read: whether a point and a digit were seen,
the digits read as one number in the base (the point ignored), how many of them stand after
the point, and whether an underscore was skipped. The library keeps the first 19 (16)
digits and a flag for the rest and later rounds the exact literal; here the digits are kept
all. -/
structure Mantissa where
  sawdot : Bool
  sawdigits : Bool
  digits : Nat
  frac : Nat
  underscores : Bool

/-- The mantissa loop of `readFloat`; returns the state and the text from the character
that ended the loop. -/
def readMantissa (base : Nat) : List Char → Mantissa → Mantissa × List Char
  | [], st => (st, [])
  | c :: cs, st =>
    if c = '_' then readMantissa base cs { st with underscores := true }
    else if c = '.' then
      if st.sawdot then (st, c :: cs) else readMantissa base cs { st with sawdot := true }
    else if '0' ≤ c ∧ c ≤ '9' then
      readMantissa base cs
        { st with
          sawdigits := true
          digits := st.digits * base + (c.toNat - 48)
          frac := if st.sawdot then st.frac + 1 else st.frac }
    else if base = 16 ∧ 97 ≤ lower c ∧ lower c ≤ 102 then
      readMantissa base cs
        { st with
          sawdigits := true
          digits := st.digits * 16 + (lower c - 97 + 10)
          frac := if st.sawdot then st.frac + 1 else st.frac }
    else (st, c :: cs)

/-- The exponent digit loop of `readFloat`: the exponent stops growing at 10000. -/
def readExpDigits : List Char → Nat → Bool → Nat × Bool × List Char
  | [], e, us => (e, us, [])
  | c :: cs, e, us =>
    if c = '_' then readExpDigits cs e true
    else if '0' ≤ c ∧ c ≤ '9' then
      readExpDigits cs (if e < 10000 then e * 10 + (c.toNat - 48) else e) us
    else (e, us, c :: cs)

/-- A float literal as read: sign, base 16 or 10, the mantissa digits, the number of digits
after the point, the exponent (of 2 for base 16, of 10 otherwise), and the text left over. -/
structure FloatLit where
  neg : Bool
  hex : Bool
  digits : Nat
  frac : Nat
  exp : Int
  rest : List Char

/-- The end of `readFloat`: the underscores of the text read must be well placed. -/
def readFloatEnd (s : List Char) (us : Bool) (l : FloatLit) : Option FloatLit :=
  if us = true ∧ underscoreOK (s.take (s.length - l.rest.length)) = false then none
  else some l

/-- `readFloat`: reads a decimal or hexadecimal float literal at the start of `s`; `none`
when there is none. -/
def readFloat (s : List Char) : Option FloatLit :=
  match s with
  | [] => none
  | c0 :: t0 =>
    let (neg, s1) : Bool × List Char :=
      if c0 = '+' then (false, t0) else if c0 = '-' then (true, t0) else (false, s)
    let (hex, s2) : Bool × List Char :=
      match s1 with
      | '0' :: x :: d :: t => if lower x = 120 then (true, d :: t) else (false, s1)
      | _ => (false, s1)
    let (st, s3) := readMantissa (if hex then 16 else 10) s2 ⟨false, false, 0, 0, false⟩
    if st.sawdigits = false then none
    else
      let noExp : Option FloatLit :=
        if hex then none
        else readFloatEnd s st.underscores ⟨neg, hex, st.digits, st.frac, 0, s3⟩
      match s3 with
      | [] => noExp
      | c :: s4 =>
        if lower c = (if hex then 112 else 101) then
          match s4 with
          | [] => none
          | c2 :: s5 =>
            let (esign, s6) : Int × List Char :=
              if c2 = '+' then (1, s5) else if c2 = '-' then (-1, s5) else (1, s4)
            match s6 with
            | [] => none
            | c3 :: _ =>
              if c3 < '0' ∨ c3 > '9' then none
              else
                let (e, us, s7) := readExpDigits s6 0 st.underscores
                readFloatEnd s us ⟨neg, hex, st.digits, st.frac, (e : Int) * esign, s7⟩
        else noExp

/-- The value of a literal: the `float64` nearest to the exact number (IEEE 754 unbiased
rounding); an infinity and `ErrRange` when that is out of range. -/
def floatOfLit (l : FloatLit) : Float64 × Option NumError :=
  let k : Int := if l.hex then l.exp - 4 * (l.frac : Int) else l.exp - (l.frac : Int)
  let b : Nat := if l.hex then 2 else 10
  let nd : Nat × Nat :=
    if 0 ≤ k then (l.digits * b ^ k.toNat, 1) else (l.digits, b ^ (-k).toNat)
  match roundBinary64 nd.1 nd.2 with
  | some (m, e) => (.fin l.neg m e, none)
  | none => (.inf l.neg, some .ErrRange)

/-- `atof64`: the value, the number of characters read, and the error. -/
def atof64 (s : List Char) : Float64 × Nat × Option NumError :=
  match special s with
  | some (val, n) => (val, n, none)
  | none =>
    match readFloat s with
    | none => (Float64.zero, 0, some .ErrSyntax)
    | some l =>
      let (f, err) := floatOfLit l
      (f, s.length - l.rest.length, err)

/-- `strconv.ParseFloat(s, 64)`: the whole of `s` must be one literal. -/
def ParseFloat (s : String) : Float64 × Option NumError :=
  let (f, n, err) := atof64 s.toList
  if n ≠ s.toList.length ∧ (err = none ∨ err ≠ some .ErrSyntax) then
    (Float64.zero, some .ErrSyntax)
  else (f, err)

end strconv

/-! ## Sources and the registry (`config.go`) -/

/-- One background watch started by `Subscribe`: the arguments of `go c.watch(...)` (the
callback apart) and the name of the source that runs it. -/
structure WatchCall where
  source : String
  key : String
  previousValue : String
  retryDelay : Int
  waitIndex : Nat
  deriving DecidableEq, Repr

/-- The interface `configSource`: the four methods of a source. `Get` returns the nil
interface for an absent key; `Subscribe` is given by the watches it starts. -/
structure ConfigSource where
  Name : String
  ordinal : Int
  Get : String → Except String RawValue
  Subscribe : String → List WatchCall

/-- The struct `Util`: the registry of sources (the logger is left out). -/
structure Util where
  configSources : List ConfigSource

/-- The loop of `Util.Get`: `val` is the variable of that name, assigned from every source
visited; the loop is left at the first value that is not nil. -/
def Util.getLoop (key : String) : List ConfigSource → RawValue → Except String RawValue
  | [], val => .ok val
  | cs :: rest, _ =>
    match cs.Get key with
    | .error e => .error e
    | .ok val => if val.isNil then Util.getLoop key rest val else .ok val

/-- `Util.Get`: the value of a key from the first source that has it. -/
def Util.Get (c : Util) (key : String) : Except String RawValue :=
  Util.getLoop key c.configSources .nil

/-- `Util.GetBool`. The source calls `c.Get(key)` twice, once for the type assertion to
`bool` and once for `rvalue`. -/
def Util.GetBool (c : Util) (key : String) : Except String (Bool × Bool) :=
  match c.Get key with
  | .error e => .error e
  | .ok rvalue =>
    match c.Get key with
    | .error e => .error e
    | .ok (.bool bvalue) => .ok (bvalue, true)
    | .ok _ =>
      match rvalue with
      | .str svalue =>
        match strconv.ParseBool svalue with
        | (bvalue, none) => .ok (bvalue, true)
        | (_, some _) => .ok (false, false)
      | _ => .ok (false, false)

/-- `Util.GetInt`; `undef` is the implementation's choice for a float that does not fit
`int` (see `intOfFloat64`). -/
def Util.GetInt (undef : Float64 → Int) (c : Util) (key : String) :
    Except String (Int × Bool) :=
  match c.Get key with
  | .error e => .error e
  | .ok rvalue =>
    match assertAsNumber rvalue with
    | (nvalue, true) => .ok (intOfFloat64 undef nvalue, true)
    | (_, false) =>
      match rvalue with
      | .str svalue =>
        match strconv.ParseInt svalue with
        | (ivalue64, none) => .ok (ivalue64, true)
        | (_, some _) =>
          match strconv.ParseFloat svalue with
          | (fvalue64, none) => .ok (intOfFloat64 undef fvalue64, true)
          | (_, some _) => .ok (0, false)
      | _ => .ok (0, false)

/-- `Util.GetFloat`. -/
def Util.GetFloat (c : Util) (key : String) : Except String (Float64 × Bool) :=
  match c.Get key with
  | .error e => .error e
  | .ok rvalue =>
    match assertAsNumber rvalue with
    | (nvalue, true) => .ok (nvalue, true)
    | (_, false) =>
      match rvalue with
      | .str svalue =>
        match strconv.ParseFloat svalue with
        | (fvalue64, none) => .ok (fvalue64, true)
        | (_, some _) => .ok (Float64.zero, false)
      | _ => .ok (Float64.zero, false)

/-- `Util.GetString`. -/
def Util.GetString (c : Util) (key : String) : Except String (String × Bool) :=
  match c.Get key with
  | .error e => .error e
  | .ok (.str svalue) => .ok (svalue, true)
  | .ok _ => .ok ("", false)

/-- The inner loop of `sortConfigSources`,
`for k := i; k > 0 && s[k].ordinal() > s[k-1].ordinal(); k--` with the swap of `s[k]` and
`s[k-1]` as its body; the first argument is `k`. -/
def sortInner : Nat → List ConfigSource → List ConfigSource
  | 0, l => l
  | k + 1, l =>
    match l[k + 1]?, l[k]? with
    | some x, some y =>
      if x.ordinal > y.ordinal then sortInner k ((l.set (k + 1) y).set k x) else l
    | _, _ => l

/-- `Util.sortConfigSources`: the insertion sort, `for i := 1; i < len(s); i++` around the
inner loop. The slice is sorted in place and shared with the caller, which sees the result
returned here. -/
def Util.sortConfigSources (c : Util) : Util :=
  ⟨(List.range' 1 (c.configSources.length - 1)).foldl (fun l i => sortInner i l)
    c.configSources⟩

/-! ## What the package reads from outside, and library helpers -/

/-- A Consul client for reading: `KV().Get(path, q)` is an error, no pair (the key does not
exist), or the value of the pair as a string. -/
abbrev ConsulClient := String → Except String (Option String)

/-- An etcd client for reading: `Get(ctx, path, nil)` is an error (also for a missing key)
or the value of the node. -/
abbrev EtcdClient := String → Except String String

/-- Everything outside the package that it reads: the process environment
(`os.LookupEnv`), the case table of package `unicode` beyond ASCII, the configuration file
at a path (`ioutil.ReadFile` followed by `yaml.Unmarshal`: `none` when either fails,
otherwise the map, itself `none` when the document leaves the map nil), and the two client
constructors (`none` when they return an error). -/
structure World where
  lookupEnv : String → Option String
  upperTable : Char → Char
  loadConfig : String → Option (Option (List (String × RawValue)))
  createConsulClient : String → Option ConsulClient
  createEtcdClient : String → Option EtcdClient

namespace unicode

/-- `unicode.ToUpper`: fixed on ASCII, the table `tbl` beyond. -/
def ToUpper (tbl : Char → Char) (r : Char) : Char :=
  if r.toNat ≤ 127 then
    if 'a' ≤ r ∧ r ≤ 'z' then Char.ofNat (r.toNat - 32) else r
  else tbl r

end unicode

namespace strings

/-- `strings.ToUpper`: every character mapped by `unicode.ToUpper`. -/
def ToUpper (tbl : Char → Char) (s : String) : String :=
  String.mk (s.toList.map (unicode.ToUpper tbl))

/-- `strings.Replace(s, old, new, -1)` for a one character `old` and a one character
`new`. -/
def ReplaceChar (s : String) (old new : Char) : String :=
  String.mk (s.toList.map (fun c => if c = old then new else c))

/-- `strings.Replace(s, old, "", -1)` for a one character `old`. -/
def RemoveChar (s : String) (old : Char) : String :=
  String.mk (s.toList.filter (fun c => c ≠ old))

/-- The loop of `Split`: `cur` holds the characters of the current part, last first. -/
def splitLoop (sep : Char) : List Char → List Char → List String
  | [], cur => [String.mk cur.reverse]
  | c :: cs, cur =>
    if c = sep then String.mk cur.reverse :: splitLoop sep cs []
    else splitLoop sep cs (c :: cur)

/-- `strings.Split(s, sep)` for a one character separator: never the empty list. -/
def Split (s : String) (sep : Char) : List String :=
  splitLoop sep s.toList []

/-- `strings.Join(parts, sep)`. -/
def Join (parts : List String) (sep : String) : String :=
  sep.intercalate parts

end strings

namespace path

/-- One path element met by `Clean`; `out` holds the elements kept so far, last first. -/
def cleanStep (rooted : Bool) (out : List String) (elem : String) : List String :=
  if elem = "" ∨ elem = "." then out
  else if elem = ".." then
    match out with
    | [] => if rooted then [] else [".."]
    | top :: rest => if top = ".." then ".." :: out else rest
  else elem :: out

/-- `path.Clean`: slashes collapsed, `.` elements dropped, `..` elements resolved, no
trailing slash; `.` for an empty result. -/
def Clean (p : String) : String :=
  if p = "" then "."
  else
    let rooted := p.toList.head? = some '/'
    let out := ((strings.Split p '/').foldl (cleanStep rooted) []).reverse
    if rooted then "/" ++ strings.Join out "/"
    else if out = [] then "."
    else strings.Join out "/"

/-- `path.Join`: the non-empty elements joined by slashes and cleaned; the empty string
when all are empty. -/
def Join (elem : List String) : String :=
  match elem.filter (fun e => e ≠ "") with
  | [] => ""
  | es => Clean (strings.Join es "/")

end path

/-! ## The environment source (`env_config.go`) -/

/-- `normalizeKey`: every character outside `[a-zA-Z0-9]` replaced by `_`. -/
def normalizeKey (key : String) : String :=
  String.mk (key.toList.map (fun c =>
    if ('a' ≤ c ∧ c ≤ 'z') ∨ ('A' ≤ c ∧ c ≤ 'Z') ∨ ('0' ≤ c ∧ c ≤ '9') then c else '_'))

def normalizeKeyUpper (tbl : Char → Char) (key : String) : String :=
  strings.ToUpper tbl (normalizeKey key)

/-- `parseKeyLegacy1`: the characters `[`, `]`, `-` removed, dots replaced by `_`, upper
case. -/
def parseKeyLegacy1 (tbl : Char → Char) (key : String) : String :=
  strings.ToUpper tbl
    (strings.ReplaceChar
      (strings.RemoveChar (strings.RemoveChar (strings.RemoveChar key '[') ']') '-')
      '.' '_')

/-- `parseKeyLegacy2`: dots replaced by `_`, upper case. -/
def parseKeyLegacy2 (tbl : Char → Char) (key : String) : String :=
  strings.ToUpper tbl (strings.ReplaceChar key '.' '_')

def getPossibleNames (tbl : Char → Char) (key : String) : List String :=
  [key, normalizeKey key, normalizeKeyUpper tbl key, parseKeyLegacy1 tbl key,
    parseKeyLegacy2 tbl key]

/-- `envConfigSource.Get`: the value of the first possible name that is set. -/
def envConfigSource.Get (w : World) (key : String) : RawValue :=
  match (getPossibleNames w.upperTable key).findSome? w.lookupEnv with
  | some value => .str value
  | none => .nil

/-- `newEnvConfigSource`: never nil. -/
def newEnvConfigSource (w : World) : ConfigSource where
  Name := "env"
  ordinal := 300
  Get := fun key => .ok (envConfigSource.Get w key)
  Subscribe := fun _ => []

/-! ## The file source (`file_config.go`) -/

/-- The index expression `val[k]` on a `map[string]interface{}`: the nil interface for a
missing key, and for every key of a nil map. -/
def mapIndex (val : Option (List (String × RawValue))) (k : String) : RawValue :=
  match val with
  | none => .nil
  | some m =>
    match m.lookup k with
    | some v => v
    | none => .nil

/-- The loop of `fileConfigSource.Get` over the parts of the key, followed by the final
index expression. -/
def fileConfigSource.walk :
    List String → Option (List (String × RawValue)) → Except String RawValue
  | [], _ => .error "index out of range"
  | [last], val => .ok (mapIndex val last)
  | part :: rest, val =>
    if val.isNone then .ok .nil
    else
      match mapIndex val part with
      | .map m => fileConfigSource.walk rest (some m)
      | _ => .ok .nil

def fileConfigSource.Get (config : Option (List (String × RawValue))) (key : String) :
    Except String RawValue :=
  fileConfigSource.walk (strings.Split key '.') config

/-- `newFileConfigSource`: `none` is the nil source of an unreadable or unparsable file. -/
def newFileConfigSource (w : World) (configPath : String) : Option ConfigSource :=
  let joinedPath := if configPath = "" then "config.yaml" else configPath
  match w.loadConfig joinedPath with
  | none => none
  | some config =>
    some
      { Name := "file"
        ordinal := 100
        Get := fileConfigSource.Get config
        Subscribe := fun _ => [] }

/-! ## Bootstrap values and the distributed sources -/

/-- `loadServiceConfiguration` of `common.go`. -/
def loadServiceConfiguration (undef : Float64 → Int) (conf : Util) :
    Except String (String × String × String × Int × Int) := do
  let e ← conf.GetString "kumuluzee.env.name"
  let envName := if e.2 then e.1 else "dev"
  let n ← conf.GetString "kumuluzee.name"
  let name := n.1
  let v ← conf.GetString "kumuluzee.version"
  let version := if v.2 then v.1 else "1.0.0"
  let sdl ← conf.GetInt undef "kumuluzee.config.start-retry-delay-ms"
  let startRD := if sdl.2 then sdl.1 else 500
  let mdl ← conf.GetInt undef "kumuluzee.config.max-retry-delay-ms"
  let maxRD := if mdl.2 then mdl.1 else 900000
  return (envName, name, version, startRD, maxRD)

/-- The namespace of a distributed source: the default built from the service
configuration, the key `kumuluzee.config.namespace` when it is a non-empty string, the
argument when it is non-empty. -/
def extensionNamespace (conf : Util) (envName name version nspace : String) :
    Except String String := do
  let dflt := "environments/" ++ envName ++ "/services/" ++ name ++ "/" ++ version ++ "/config"
  let ns ← conf.GetString "kumuluzee.config.namespace"
  let configured := if ns.2 = true ∧ ns.1 ≠ "" then ns.1 else dflt
  return if nspace ≠ "" then nspace else configured

/-- The struct `consulConfigSource`; `client` is `none` for the nil pointer. -/
structure consulConfigSource where
  client : Option ConsulClient
  startRetryDelay : Int
  maxRetryDelay : Int
  nspace : String

/-- `consulConfigSource.Get`. Calling through a nil client panics. -/
def consulConfigSource.Get (c : consulConfigSource) (key : String) :
    Except String RawValue :=
  let key := strings.ReplaceChar key '.' '/'
  match c.client with
  | none => .error "nil pointer dereference"
  | some kv =>
    match kv (path.Join [c.nspace, key]) with
    | .error _ => .ok .nil
    | .ok none => .ok .nil
    | .ok (some value) => .ok (.str value)

def consulConfigSource.Subscribe (c : consulConfigSource) (key : String) :
    List WatchCall :=
  [⟨"consul", key, "", c.startRetryDelay, 0⟩]

/-- `newConsulConfigSource`: a source is returned also when the client could not be
created (its `client` is then nil). -/
def newConsulConfigSource (undef : Float64 → Int) (w : World) (conf : Util)
    (nspace : String) : Except String ConfigSource := do
  let addr ← conf.GetString "kumuluzee.config.consul.hosts"
  let consulAddress := if addr.2 then addr.1 else "http://localhost:8500"
  let client := w.createConsulClient consulAddress
  let (envName, name, version, startRD, maxRD) ← loadServiceConfiguration undef conf
  let ns ← extensionNamespace conf envName name version nspace
  let consulConfig : consulConfigSource := ⟨client, startRD, maxRD, ns⟩
  return { Name := "consul"
           ordinal := 150
           Get := consulConfig.Get
           Subscribe := consulConfig.Subscribe }

/-- The struct `etcdConfigSource`; `client` is `none` for the nil pointer. -/
structure etcdConfigSource where
  client : Option EtcdClient
  startRetryDelay : Int
  maxRetryDelay : Int
  nspace : String

/-- `etcdConfigSource.Get`. Dereferencing a nil client panics. -/
def etcdConfigSource.Get (c : etcdConfigSource) (key : String) : Except String RawValue :=
  let key := strings.ReplaceChar key '.' '/'
  match c.client with
  | none => .error "nil pointer dereference"
  | some kv =>
    match kv (path.Join [c.nspace, key]) with
    | .error _ => .ok .nil
    | .ok value => .ok (.str value)

def etcdConfigSource.Subscribe (c : etcdConfigSource) (key : String) : List WatchCall :=
  [⟨"etcd", key, "", c.startRetryDelay, 0⟩]

/-- `newEtcdConfigSource`: like the Consul one, with its own address key and default. -/
def newEtcdConfigSource (undef : Float64 → Int) (w : World) (conf : Util)
    (nspace : String) : Except String ConfigSource := do
  let addr ← conf.GetString "kumuluzee.config.etcd.hosts"
  let etcdAddress := if addr.2 then addr.1 else "http://localhost:2379"
  let client := w.createEtcdClient etcdAddress
  let (envName, name, version, startRD, maxRD) ← loadServiceConfiguration undef conf
  let ns ← extensionNamespace conf envName name version nspace
  let etcdConfig : etcdConfigSource := ⟨client, startRD, maxRD, ns⟩
  return { Name := "etcd"
           ordinal := 150
           Get := etcdConfig.Get
           Subscribe := etcdConfig.Subscribe }

/-- The struct `Options`. -/
structure Options where
  ConfigPath : String
  Extension : String
  ExtensionNamespace : String
  LogLevel : Int

/-- `NewUtil`: the environment source, the file source when it loaded, the sort, then the
extension source named by `options.Extension` built from the registry so far, and the sort
again. -/
def NewUtil (undef : Float64 → Int) (w : World) (options : Options) : Except String Util := do
  let configs : List ConfigSource := [newEnvConfigSource w]
  let configs :=
    match newFileConfigSource w options.ConfigPath with
    | some fileConfigSource => configs ++ [fileConfigSource]
    | none => configs
  let k := Util.sortConfigSources ⟨configs⟩
  let extConfigSource : Option ConfigSource ←
    if options.Extension = "consul" then
      (newConsulConfigSource undef w k options.ExtensionNamespace).map some
    else if options.Extension = "etcd" then
      (newEtcdConfigSource undef w k options.ExtensionNamespace).map some
    else pure none
  let k : Util :=
    match extConfigSource with
    | some ext => ⟨k.configSources ++ [ext]⟩
    | none => k
  return k.sortConfigSources

/-- `Util.Subscribe`: the call is passed to every source of the registry; the result is
the watches they start. -/
def Util.Subscribe (c : Util) (key : String) : List WatchCall :=
  (c.configSources.map (fun cs => cs.Subscribe key)).flatten

/-! ## The watch loops (`consul_config.go`, `etcd_config.go`) -/

/-- What an iteration of a watch does, in order: the blocking read of a path of the store
from a change index on, a `time.Sleep` of a duration in nanoseconds, a call of the
callback. -/
inductive WatchEffect where
  | query (path : String) (waitIndex : Nat)
  | sleep (d : Int)
  | callback (key : String) (value : String)
  deriving DecidableEq, Repr

/-- What the blocking `KV().Get(path, &q)` of Consul returns: an error, or a pair (`none`
for the nil pair of a key that does not exist) and the query meta data (its `LastIndex`;
`none` for a nil pointer). -/
inductive ConsulOutcome where
  | err
  | ok (pair : Option String) (meta : Option Nat)
  deriving DecidableEq, Repr

/-- What `watcher.Next` of etcd returns: an error, or the value of the node of the
response. -/
inductive EtcdOutcome where
  | err
  | ok (value : String)
  deriving DecidableEq, Repr

/-- One call of `consulConfigSource.watch`, up to its tail call: the effects of the call
in order, and the arguments of the tail call, or the panic that ends the goroutine. The
outcome of the blocking read is the argument `o`. -/
def consulConfigSource.watch (c : consulConfigSource) (a : WatchCall) (o : ConsulOutcome) :
    List WatchEffect × Except String WatchCall :=
  let key := strings.ReplaceChar a.key '.' '/'
  match c.client with
  | none => ([], .error "nil pointer dereference")
  | some _ =>
    let q := WatchEffect.query (path.Join [c.nspace, key]) a.waitIndex
    match o with
    | .err =>
      let newRetryDelay := wrapInt64 (a.retryDelay * 2)
      let newRetryDelay :=
        if newRetryDelay > c.maxRetryDelay then c.maxRetryDelay else newRetryDelay
      ([q, .sleep (wrapInt64 (a.retryDelay * 1000000))],
        .ok ⟨a.source, key, "", newRetryDelay, 0⟩)
    | .ok (some value) meta =>
      let cb := if value ≠ a.previousValue then [WatchEffect.callback key value] else []
      match meta with
      | none => (q :: cb, .error "nil pointer dereference")
      | some lastIndex => (q :: cb, .ok ⟨a.source, key, value, c.startRetryDelay, lastIndex⟩)
    | .ok none meta =>
      let cb := if a.previousValue ≠ "" then [WatchEffect.callback key ""] else []
      let lastIndex := match meta with
        | none => 0
        | some lastIndex => lastIndex
      (q :: cb, .ok ⟨a.source, key, "", c.startRetryDelay, lastIndex⟩)

/-- The goroutine `go c.watch(...)` of Consul over the outcomes of its successive blocking
reads: all effects in order, and the arguments of the call still to come, or the panic. -/
def consulConfigSource.watchLoop (c : consulConfigSource) :
    WatchCall → List ConsulOutcome → List WatchEffect × Except String WatchCall
  | a, [] => ([], .ok a)
  | a, o :: os =>
    match c.watch a o with
    | (eff, .error e) => (eff, .error e)
    | (eff, .ok a') =>
      (eff ++ (consulConfigSource.watchLoop c a' os).1,
        (consulConfigSource.watchLoop c a' os).2)

/-- One call of `etcdConfigSource.watch`, up to its tail call. -/
def etcdConfigSource.watch (c : etcdConfigSource) (a : WatchCall) (o : EtcdOutcome) :
    List WatchEffect × Except String WatchCall :=
  let key := strings.ReplaceChar a.key '.' '/'
  match c.client with
  | none => ([], .error "nil pointer dereference")
  | some _ =>
    let q := WatchEffect.query (path.Join [c.nspace, key]) 0
    match o with
    | .err =>
      let newRetryDelay := wrapInt64 (a.retryDelay * 2)
      let newRetryDelay :=
        if newRetryDelay > c.maxRetryDelay then c.maxRetryDelay else newRetryDelay
      ([q, .sleep (wrapInt64 (a.retryDelay * 1000000))],
        .ok ⟨a.source, key, "", newRetryDelay, 0⟩)
    | .ok value =>
      let cb := if value ≠ a.previousValue then [WatchEffect.callback key value] else []
      (q :: cb, .ok ⟨a.source, key, value, c.startRetryDelay, 0⟩)

/-- The goroutine `go c.watch(...)` of etcd over the outcomes of its successive waits. -/
def etcdConfigSource.watchLoop (c : etcdConfigSource) :
    WatchCall → List EtcdOutcome → List WatchEffect × Except String WatchCall
  | a, [] => ([], .ok a)
  | a, o :: os =>
    match c.watch a o with
    | (eff, .error e) => (eff, .error e)
    | (eff, .ok a') =>
      (eff ++ (etcdConfigSource.watchLoop c a' os).1, (etcdConfigSource.watchLoop c a' os).2)

/-! ## Keys of struct fields (`helper_func_bundle.go`) -/

/-- A `reflect.StructTag` in the conventional format, as its `key:"value"` pairs in
order. -/
abbrev StructTag := List (String × String)

/-- `StructTag.Lookup`: the value of the first pair with the key. -/
def StructTag.Lookup (tag : StructTag) (key : String) : Option String :=
  List.lookup key tag

/-- What `retrieveKey` reads of a `reflect.StructField`: its name and its tag. -/
structure StructField where
  Name : String
  Tag : StructTag

/-- `unicode.ToLower`: fixed on ASCII, the table `tbl` beyond. -/
def unicode.ToLower (tbl : Char → Char) (r : Char) : Char :=
  if r.toNat ≤ 127 then
    if 'A' ≤ r ∧ r ≤ 'Z' then Char.ofNat (r.toNat + 32) else r
  else tbl r

/-- `retrieveKey`; `tbl` is the lower case table of package `unicode` beyond ASCII. The
variable `key` keeps its zero value, the empty string, when the field has a `config` tag
whose first part is empty. Of an empty name `utf8.DecodeRuneInString` returns the
replacement character. -/
def retrieveKey (tbl : Char → Char) (prefixKey : String) (field : StructField)
    (tags : StructTag) : String :=
  match tags.Lookup "config" with
  | some tag =>
    match strings.Split tag ',' with
    | [] => ""
    | tvs0 :: _ => if tvs0 ≠ "" then prefixKey ++ "." ++ tvs0 else ""
  | none =>
    let lkey :=
      match field.Name.toList with
      | [] => String.mk [unicode.ToLower tbl (Char.ofNat 0xFFFD)]
      | r :: rest => String.mk (unicode.ToLower tbl r :: rest)
    prefixKey ++ "." ++ lkey

/-! ## The struct binder (`helper_func_bundle.go`, `NewBundle` of `config.go`) -/

/-- The `reflect.Kind` of a field that is not a struct (for a field of kind `Struct`
`traverseStruct` descends instead of calling the field processor). -/
inductive Kind where
  | Bool | Int | Int8 | Int16 | Int32 | Int64 | Uint | Uint8 | Uint16 | Uint32 | Uint64
  | Uintptr | Float32 | Float64 | Complex64 | Complex128 | Array | Chan | Func | Interface
  | Map | Pointer | Slice | String | UnsafePointer
  deriving DecidableEq, Repr

/-- A field that is not a struct, as its `reflect.Value` shows it: the kind of its type;
whether its type is the predeclared type of that kind (`int32`, say) and not a type defined
from it (`type Level int32`) or a composite type; whether the value can be set (`CanSet`:
the struct was passed by pointer and the field is not reached through an unexported field);
and the value it holds. -/
structure Leaf where
  kind : Kind
  predeclared : Bool
  CanSet : Bool
  cur : RawValue

/-- The fields of a struct value in the order of their declaration, as `val.Field(i)` and
`valType.Field(i)` show them for `i = 0, 1, ...`: no field, or a first field, which is a
leaf or a nested struct with its own fields, and the fields after it. -/
inductive Fields where
  | nil
  | leaf (field : StructField) (value : Leaf) (rest : Fields)
  | struct (field : StructField) (inner : Fields) (rest : Fields)

/-- One call `fieldProcessFunc(key, value, field, tags)`. The `reflect.Value` of the field
is a reference into the struct that was passed: it is given by the indices of the fields
that lead to it from there (`val.Field(i)` of the value at `ref` is `ref ++ [i]`). -/
structure FieldCall where
  key : String
  value : List Nat
  field : StructField
  tags : StructTag

/-- The loop `for i := ...; i < val.NumField(); i++` of `traverseStruct` from index `i` on,
over the fields `val.Field(i), ...` of the struct at `ref`, with the recursive call for a
nested struct unfolded into the loop from 0 over its fields: the calls of a field processor
that is not nil, in order. -/
def traverseStruct.loop (tbl : Char → Char) :
    Fields → List Nat → Nat → String → List FieldCall
  | .nil, _, _, _ => []
  | .leaf field _ rest, ref, i, prefixKey =>
    ⟨retrieveKey tbl prefixKey field field.Tag, ref ++ [i], field, field.Tag⟩ ::
      traverseStruct.loop tbl rest ref (i + 1) prefixKey
  | .struct field inner rest, ref, i, prefixKey =>
    traverseStruct.loop tbl inner (ref ++ [i]) 0 (retrieveKey tbl prefixKey field field.Tag) ++
      traverseStruct.loop tbl rest ref (i + 1) prefixKey

/-- `traverseStruct(s, prefixKey, fieldProcessFunc)` for a pointer `s` to the struct with
the fields `s`, as the code assumes: the calls of the field processor, in order. The loop
reads the types and tags of the fields only, which no call of the processor changes. -/
def traverseStruct (tbl : Char → Char) (s : Fields) (prefixKey : String) : List FieldCall :=
  traverseStruct.loop tbl s [] 0 prefixKey

/-- `value.Set(reflect.ValueOf(val))` for a `val` of the predeclared type of kind `k`
(`bool`, `string`, `int` or `float64`) and a field of a kind that is not `Interface`:
`Set` panics when the value cannot be set, and when `val` is not assignable to the type of
the field, that is, when that type is not the type of `val`. -/
def Leaf.Set (value : Leaf) (k : Kind) (val : RawValue) : Except String Leaf :=
  if value.CanSet = false then
    .error "reflect: reflect.Value.Set using unaddressable value or unexported field"
  else if value.kind = k ∧ value.predeclared = true then .ok { value with cur := val }
  else .error "reflect.Set: value is not assignable to the type of the field"

/-- `setValueWithReflect(key, value, field, bun)`: the field after the call, or the panic.
`field.Type` is the type of `value`, `bun.conf` is `conf`. -/
def setValueWithReflect (undef : Float64 → Int) (conf : Util) (key : String) (value : Leaf) :
    Except String Leaf :=
  match value.kind with
  | .Bool =>
    match conf.GetBool key with
    | .error e => .error e
    | .ok (val, ok) => if ok then value.Set .Bool (.bool val) else .ok value
  | .String =>
    match conf.GetString key with
    | .error e => .error e
    | .ok (val, ok) => if ok then value.Set .String (.str val) else .ok value
  | .Int | .Int8 | .Int16 | .Int32 | .Int64 =>
    match conf.GetInt undef key with
    | .error e => .error e
    | .ok (val, ok) => if ok then value.Set .Int (.int .int val) else .ok value
  | .Float32 | .Float64 =>
    match conf.GetFloat key with
    | .error e => .error e
    | .ok (val, ok) => if ok then value.Set .Float64 (.float64 val) else .ok value
  | _ => .ok value

/-- The field a `reflect.Value` refers to, updated by `f`: `Field` panics for an index
that is out of range and on a value that is not a struct. -/
def Fields.modifyAt (f : Leaf → Except String Leaf) : Fields → List Nat → Except String Fields
  | _, [] => .error "reflect: call of reflect.Value.Set on struct Value"
  | .nil, _ :: _ => .error "reflect: Field index out of range"
  | .leaf field value rest, 0 :: p =>
    match p with
    | [] => (f value).map (fun v => .leaf field v rest)
    | _ :: _ => .error "reflect: call of reflect.Value.Field on a Value that is not a struct"
  | .leaf field value rest, (i + 1) :: p =>
    (Fields.modifyAt f rest (i :: p)).map (fun r => .leaf field value r)
  | .struct field inner rest, 0 :: p =>
    (Fields.modifyAt f inner p).map (fun r => .struct field r rest)
  | .struct field inner rest, (i + 1) :: p =>
    (Fields.modifyAt f rest (i :: p)).map (fun r => .struct field inner r)

/-- The function `NewBundle` passes to `traverseStruct`, at one call on the struct `s`: the
struct after `setValueWithReflect`, and the watches `util.Subscribe` starts when the second
part of the `config` tag is `watch`. -/
def NewBundle.fieldProcess (undef : Float64 → Int) (util : Util) (c : FieldCall) (s : Fields) :
    Except String (Fields × List WatchCall) :=
  match s.modifyAt (setValueWithReflect undef util c.key) c.value with
  | .error e => .error e
  | .ok s' =>
    match c.tags.Lookup "config" with
    | some tag =>
      let tagVals := strings.Split tag ','
      if tagVals.length > 1 ∧ tagVals[1]? = some "watch" then .ok (s', util.Subscribe c.key)
      else .ok (s', [])
    | none => .ok (s', [])

/-- The calls of the field processor of `NewBundle` one after the other: the struct in the
end and all the watches started. -/
def NewBundle.fill (undef : Float64 → Int) (util : Util) :
    List FieldCall → Fields → Except String (Fields × List WatchCall)
  | [], s => .ok (s, [])
  | c :: cs, s =>
    match NewBundle.fieldProcess undef util c s with
    | .error e => .error e
    | .ok (s', ws) =>
      match NewBundle.fill undef util cs s' with
      | .error e => .error e
      | .ok (s'', ws') => .ok (s'', ws ++ ws')

/-- `NewBundle(prefixKey, fields, options)` for a pointer `fields` to a struct: the
registry of the bundle, the struct as filled, and the watches started. `tbl` is the lower
case table of package `unicode` beyond ASCII. -/
def NewBundle (undef : Float64 → Int) (w : World) (tbl : Char → Char) (prefixKey : String)
    (fields : Fields) (options : Options) : Except String (Util × Fields × List WatchCall) :=
  match NewUtil undef w options with
  | .error e => .error e
  | .ok util =>
    match NewBundle.fill undef util (traverseStruct tbl fields prefixKey) fields with
    | .error e => .error e
    | .ok (s, ws) => .ok (util, s, ws)

/-- The callback `NewBundle` subscribes for the field of the call `c`, run on the struct
`s` when the registry answers as `conf`: `setValueWithReflect` once more (the key and the
value the watch passes are not used). -/
def NewBundle.watchCallback (undef : Float64 → Int) (conf : Util) (c : FieldCall)
    (s : Fields) : Except String Fields :=
  s.modifyAt (setValueWithReflect undef conf c.key) c.value

/-! ## Specification-side definitions -/

/-- Insertion of `x` into the part of the slice before it, given last element first: `x`
passes exactly the elements of strictly smaller ordinal that stand next to it. -/
def insertRev (x : ConfigSource) : List ConfigSource → List ConfigSource
  | [] => [x]
  | y :: ys => if x.ordinal > y.ordinal then y :: insertRev x ys else x :: y :: ys

/-- A source that answers `v` for every key (the file source of a document in which every
key looked up holds `v`, for one). -/
def constSource (v : RawValue) : ConfigSource where
  Name := "const"
  ordinal := 100
  Get := fun _ => .ok v
  Subscribe := fun _ => []

/-- The registry of one source that answers `v` for every key. -/
def constUtil (v : RawValue) : Util := ⟨[constSource v]⟩

/-- The decimal rendering of an integer (`strconv.Itoa`): the digits, after a minus sign
for a negative number. -/
def strconv.Itoa : Int → String
  | .ofNat m => Nat.repr m
  | .negSucc m => "-" ++ Nat.repr (m + 1)

/-- Equality of two strings under case-insensitive (ASCII) comparison. -/
def equalFold (a b : String) : Bool :=
  a.toList.map Char.toLower == b.toList.map Char.toLower

/-- A registry none of whose sources panics in `Get`. -/
def Util.Safe (c : Util) : Prop :=
  ∀ cs ∈ c.configSources, ∀ key, ∃ r, cs.Get key = .ok r

/-- The registered form of a Consul source: what `newConsulConfigSource` returns for the
struct `c`. -/
def consulConfigSource.toSource (c : consulConfigSource) : ConfigSource where
  Name := "consul"
  ordinal := 150
  Get := c.Get
  Subscribe := c.Subscribe

/-- The registered form of an etcd source. -/
def etcdConfigSource.toSource (c : etcdConfigSource) : ConfigSource where
  Name := "etcd"
  ordinal := 150
  Get := c.Get
  Subscribe := c.Subscribe

/-- A source that answers from a table of keys, nil for a key not in it. -/
def tableSource (t : List (String × RawValue)) : ConfigSource where
  Name := "table"
  ordinal := 100
  Get := fun key => .ok ((t.lookup key).getD .nil)
  Subscribe := fun _ => []

/-- Following the parts of a key from a mapping: the mapping reached, or `none` when a
part is missing or is bound to something that is not a mapping (or the mapping is nil). -/
def descend : List String → Option (List (String × RawValue)) →
    Option (List (String × RawValue))
  | [], val => val
  | part :: rest, val =>
    match val with
    | none => none
    | some m =>
      match m.lookup part with
      | some (.map sub) => descend rest (some sub)
      | _ => none

/-- The retry delay, in milliseconds, before the retry that follows `k` consecutive
failures: the start value, then twice the previous one as long as that does not exceed
the maximum, then the maximum. -/
def backoffDelay (start max : Int) : Nat → Int
  | 0 => start
  | k + 1 => if 2 * backoffDelay start max k ≤ max then 2 * backoffDelay start max k else max

/-- The closed form of the retry delay after `k` consecutive failures. -/
def cappedDelay (start max : Int) (k : Nat) : Int := min (start * 2 ^ k) max

/-- The durations slept in a trace, in order. -/
def sleepsOf : List WatchEffect → List Int
  | [] => []
  | .sleep d :: rest => d :: sleepsOf rest
  | _ :: rest => sleepsOf rest

/-- The values the callback was called with in a trace, in order. -/
def callbackValues : List WatchEffect → List String
  | [] => []
  | .callback _ v :: rest => v :: callbackValues rest
  | _ :: rest => callbackValues rest

/-- The document of `TestFileConfigDeep`: a scalar six mappings below the top level key
`deep-config`. -/
def deepConfig : List (String × RawValue) :=
  [("integer-value", .float64 (.fin false 36 0)),
    ("deep-config",
      .map [("l1", .map [("l2", .map [("l_3", .map [("l-4", .map [("l 5",
        .map [("6l", .float64 (.fin false 6 0))])])])])])])]

/-- An environment that names hosts no client can be created for (the Consul client
refuses the scheme `ftp`, the etcd client the URL that does not parse), with a working
client for every other address, and no configuration file. -/
def brokenHostsWorld : World where
  lookupEnv := fun name =>
    [("KUMULUZEE_CONFIG_CONSUL_HOSTS", "ftp://consul:8500"),
      ("KUMULUZEE_CONFIG_ETCD_HOSTS", "http://[etcd")].lookup name
  upperTable := fun c => c
  loadConfig := fun _ => none
  createConsulClient := fun address =>
    if address = "ftp://consul:8500" then none else some (fun _ => .ok none)
  createEtcdClient := fun address =>
    if address = "http://[etcd" then none else some (fun _ => .error "key not found")

/-- A process environment given by a table, with nothing else outside: no configuration
file and no client of a store can be had. -/
def envWorld (env : List (String × String)) : World where
  lookupEnv := fun name => env.lookup name
  upperTable := fun c => c
  loadConfig := fun _ => none
  createConsulClient := fun _ => none
  createEtcdClient := fun _ => none

/-- A world with one configuration file, the document `doc` at every path, an empty
environment, and no client of a store to be had. -/
def fileWorld (doc : List (String × RawValue)) : World where
  lookupEnv := fun _ => none
  upperTable := fun c => c
  loadConfig := fun _ => some (some doc)
  createConsulClient := fun _ => none
  createEtcdClient := fun _ => none

/-- A store in which every path holds its own name as the value, reached at every
address, with an empty environment and no configuration file. -/
def echoWorld : World where
  lookupEnv := fun _ => none
  upperTable := fun c => c
  loadConfig := fun _ => none
  createConsulClient := fun _ => some (fun p => .ok (some p))
  createEtcdClient := fun _ => some (fun p => .ok p)

/-- The leaf a path of field indices leads to; `none` when the path leads to a nested
struct, to no field, or through a leaf. -/
def Fields.leafAt : Fields → List Nat → Option Leaf
  | _, [] => none
  | .nil, _ :: _ => none
  | .leaf _ value _, 0 :: p =>
    match p with
    | [] => some value
    | _ :: _ => none
  | .leaf _ _ rest, (i + 1) :: p => Fields.leafAt rest (i :: p)
  | .struct _ inner _, 0 :: p => Fields.leafAt inner p
  | .struct _ _ rest, (i + 1) :: p => Fields.leafAt rest (i :: p)

/-- The `reflect.StructField` of the field, leaf or nested struct, a path leads to. -/
def Fields.fieldAt : Fields → List Nat → Option StructField
  | _, [] => none
  | .nil, _ :: _ => none
  | .leaf field _ _, 0 :: p =>
    match p with
    | [] => some field
    | _ :: _ => none
  | .leaf _ _ rest, (i + 1) :: p => Fields.fieldAt rest (i :: p)
  | .struct field inner _, 0 :: p =>
    match p with
    | [] => some field
    | _ :: _ => Fields.fieldAt inner p
  | .struct _ _ rest, (i + 1) :: p => Fields.fieldAt rest (i :: p)

/-- The key of the field a path leads to: `retrieveKey` of the field, with the prefix
given for a field of the struct itself, and with the key of the nested struct the field
stands in as the prefix otherwise. -/
def Fields.keyAt (tbl : Char → Char) : Fields → String → List Nat → Option String
  | _, _, [] => none
  | .nil, _, _ :: _ => none
  | .leaf field _ _, prefixKey, 0 :: p =>
    match p with
    | [] => some (retrieveKey tbl prefixKey field field.Tag)
    | _ :: _ => none
  | .leaf _ _ rest, prefixKey, (i + 1) :: p => Fields.keyAt tbl rest prefixKey (i :: p)
  | .struct field inner _, prefixKey, 0 :: p =>
    match p with
    | [] => some (retrieveKey tbl prefixKey field field.Tag)
    | _ :: _ => Fields.keyAt tbl inner (retrieveKey tbl prefixKey field field.Tag) p
  | .struct _ _ rest, prefixKey, (i + 1) :: p => Fields.keyAt tbl rest prefixKey (i :: p)

/-- The typed accessor that `setValueWithReflect` selects for a field of kind `k` reports
found false for the key. For a kind outside the eleven of the `switch` no accessor is
selected. -/
def accessorNotFound (undef : Float64 → Int) (conf : Util) (key : String) : Kind → Prop
  | .Bool => ∃ val, conf.GetBool key = .ok (val, false)
  | .String => ∃ val, conf.GetString key = .ok (val, false)
  | .Int | .Int8 | .Int16 | .Int32 | .Int64 => ∃ val, conf.GetInt undef key = .ok (val, false)
  | .Float32 | .Float64 => ∃ val, conf.GetFloat key = .ok (val, false)
  | _ => False

/-- The struct `someConfig` of `TestFileConfigBundle` with the zero value in every field:
`Protocol string`, `Address struct { IP string` tagged `config:"ip"`, `Port int }`,
`Version string`, and `SomeBool bool` tagged `config:"some-boolean,watch"`. -/
def someConfig : Fields :=
  .leaf ⟨"Protocol", []⟩ ⟨.String, true, true, .str ""⟩
    (.struct ⟨"Address", []⟩
      (.leaf ⟨"IP", [("config", "ip")]⟩ ⟨.String, true, true, .str ""⟩
        (.leaf ⟨"Port", []⟩ ⟨.Int, true, true, .int .int 0⟩ .nil))
      (.leaf ⟨"Version", []⟩ ⟨.String, true, true, .str ""⟩
        (.leaf ⟨"SomeBool", [("config", "some-boolean,watch")]⟩
          ⟨.Bool, true, true, .bool false⟩ .nil)))

/-- A configuration document for `someConfig`, without a version. -/
def someConfigDoc : List (String × RawValue) :=
  [("some-config",
    .map [("protocol", .str "tcp"),
      ("address", .map [("ip", .str "127.0.0.2"), ("port", .int .int 3000)]),
      ("some-boolean", .bool true)])]

/-- An environment that sets `some-config.address.ip`, the configuration file
`someConfigDoc`, and a store in which every path holds its own name. -/
def layeredWorld : World where
  lookupEnv := fun name => if name = "SOME_CONFIG_ADDRESS_IP" then some "10.0.0.1" else none
  upperTable := fun c => c
  loadConfig := fun _ => some (some someConfigDoc)
  createConsulClient := fun _ => some (fun p => .ok (some p))
  createEtcdClient := fun _ => some (fun p => .ok p)

/-- A namespace that `path.Join` leaves as it is written: between its slashes stand, after
an optional leading slash (a rooted namespace), proper elements only (not empty, not `.`,
not `..`), one at least; or, without a leading slash, `..` elements followed by proper
elements. -/
def cleanNamespace (ns : String) : Prop :=
  ∃ ups props : List String, (∀ e ∈ ups, e = "..") ∧
    (∀ e ∈ props, e ≠ "" ∧ e ≠ "." ∧ e ≠ "..") ∧
    (strings.Split ns '/' = ups ++ props ∨
      (props ≠ [] ∧ strings.Split ns '/' = "" :: props))

/-! ## Lemmas: `Util.Get` -/

theorem RawValue.isNil_eq_true {v : RawValue} : v.isNil = true ↔ v = .nil := by
  cases v <;> simp [RawValue.isNil]

theorem RawValue.isNil_eq_false {v : RawValue} : v.isNil = false ↔ v ≠ .nil := by
  cases v <;> simp [RawValue.isNil]

/-- The loop of `Util.Get` started with `val = nil`: the first value that is not nil, with
all sources before it answering nil, or nil when all sources answer nil. -/
theorem Util.getLoop_ok_iff (key : String) (l : List ConfigSource) (v : RawValue) :
    Util.getLoop key l .nil = .ok v ↔
      (v = .nil ∧ ∀ cs ∈ l, cs.Get key = .ok .nil) ∨
      (v ≠ .nil ∧ ∃ pre cs post, l = pre ++ cs :: post ∧ cs.Get key = .ok v ∧
        ∀ p ∈ pre, p.Get key = .ok .nil) := by
  induction l with
  | nil =>
    simp only [Util.getLoop, Except.ok.injEq, List.not_mem_nil, false_implies, implies_true,
      and_true]
    constructor
    · intro h
      exact Or.inl h.symm
    · rintro (h | ⟨_, pre, cs, post, h, _⟩)
      · exact h.symm
      · simp at h
  | cons a l ih =>
    cases hget : a.Get key with
    | error e =>
      simp only [Util.getLoop, hget]
      refine ⟨fun h => (nomatch h), ?_⟩
      rintro (⟨_, h⟩ | ⟨_, pre, cs, post, h, hcs, hpre⟩)
      · have := h a (List.mem_cons_self _ _)
        rw [hget] at this
        cases this
      · cases pre with
        | nil =>
          simp only [List.nil_append, List.cons.injEq] at h
          rw [← h.1, hget] at hcs
          cases hcs
        | cons p pre =>
          simp only [List.cons_append, List.cons.injEq] at h
          have := hpre p (List.mem_cons_self _ _)
          rw [← h.1, hget] at this
          cases this
    | ok val =>
      by_cases hnil : val.isNil = true
      · have hval : val = .nil := RawValue.isNil_eq_true.mp hnil
        subst hval
        simp only [Util.getLoop, hget, RawValue.isNil, if_true]
        rw [ih]
        constructor
        · rintro (⟨hv, h⟩ | ⟨hv, pre, cs, post, h, hcs, hpre⟩)
          · refine Or.inl ⟨hv, ?_⟩
            intro cs hmem
            rcases List.mem_cons.mp hmem with rfl | hmem
            · exact hget
            · exact h cs hmem
          · refine Or.inr ⟨hv, a :: pre, cs, post, by simp [h], hcs, ?_⟩
            intro p hmem
            rcases List.mem_cons.mp hmem with rfl | hmem
            · exact hget
            · exact hpre p hmem
        · rintro (⟨hv, h⟩ | ⟨hv, pre, cs, post, h, hcs, hpre⟩)
          · exact Or.inl ⟨hv, fun cs hmem => h cs (List.mem_cons_of_mem _ hmem)⟩
          · cases pre with
            | nil =>
              simp only [List.nil_append, List.cons.injEq] at h
              rw [← h.1, hget] at hcs
              exact absurd (Except.ok.inj hcs).symm hv
            | cons p pre =>
              simp only [List.cons_append, List.cons.injEq] at h
              exact Or.inr ⟨hv, pre, cs, post, h.2, hcs,
                fun q hq => hpre q (List.mem_cons_of_mem _ hq)⟩
      · have hne : val ≠ .nil := fun h => hnil (RawValue.isNil_eq_true.mpr h)
        simp only [Util.getLoop, hget, hnil, Bool.false_eq_true, if_false, Except.ok.injEq]
        constructor
        · intro h
          subst h
          exact Or.inr ⟨hne, [], a, l, rfl, hget, by simp⟩
        · rintro (⟨hv, h⟩ | ⟨hv, pre, cs, post, h, hcs, hpre⟩)
          · have := h a (List.mem_cons_self _ _)
            rw [hget] at this
            exact absurd (Except.ok.inj this) hne
          · cases pre with
            | nil =>
              simp only [List.nil_append, List.cons.injEq] at h
              rw [← h.1, hget] at hcs
              exact Except.ok.inj hcs
            | cons p pre =>
              simp only [List.cons_append, List.cons.injEq] at h
              have := hpre p (List.mem_cons_self _ _)
              rw [← h.1, hget] at this
              exact absurd (Except.ok.inj this) hne

/-- The loop of `Util.Get` returns whenever every source does. -/
theorem Util.getLoop_total (key : String) (l : List ConfigSource) (val : RawValue)
    (h : ∀ cs ∈ l, ∃ r, cs.Get key = .ok r) : ∃ v, Util.getLoop key l val = .ok v := by
  induction l generalizing val with
  | nil => exact ⟨val, rfl⟩
  | cons a l ih =>
    obtain ⟨r, hr⟩ := h a (List.mem_cons_self _ _)
    simp only [Util.getLoop, hr]
    split
    · exact ih r (fun cs hmem => h cs (List.mem_cons_of_mem _ hmem))
    · exact ⟨r, rfl⟩

/-! ## Lemmas: the insertion sort -/

theorem insertRev_length (x : ConfigSource) (ys : List ConfigSource) :
    (insertRev x ys).length = ys.length + 1 := by
  induction ys with
  | nil => rfl
  | cons y ys ih =>
    simp only [insertRev]
    split <;> simp [ih]

theorem insertRev_perm (x : ConfigSource) (ys : List ConfigSource) :
    (insertRev x ys).Perm (x :: ys) := by
  induction ys with
  | nil => exact List.Perm.refl _
  | cons y ys ih =>
    simp only [insertRev]
    split
    · exact (List.Perm.cons y ih).trans (List.Perm.swap x y ys)
    · exact List.Perm.refl _

theorem insertRev_pairwise (x : ConfigSource) (ys : List ConfigSource)
    (h : ys.Pairwise (fun a b => a.ordinal ≤ b.ordinal)) :
    (insertRev x ys).Pairwise (fun a b => a.ordinal ≤ b.ordinal) := by
  induction ys with
  | nil => simp [insertRev]
  | cons y ys ih =>
    rw [List.pairwise_cons] at h
    simp only [insertRev]
    split
    · rename_i hxy
      rw [List.pairwise_cons]
      refine ⟨?_, ih h.2⟩
      intro b hb
      rcases List.mem_cons.mp ((insertRev_perm x ys).mem_iff.mp hb) with rfl | hb
      · exact le_of_lt hxy
      · exact h.1 b hb
    · rename_i hxy
      have hle : x.ordinal ≤ y.ordinal := not_lt.mp hxy
      rw [List.pairwise_cons, List.pairwise_cons]
      refine ⟨?_, h.1, h.2⟩
      intro b hb
      rcases List.mem_cons.mp hb with rfl | hb
      · exact hle
      · exact le_trans hle (h.1 b hb)

theorem insertRev_filter (o : Int) (x : ConfigSource) (ys : List ConfigSource) :
    (insertRev x ys).filter (fun s => decide (s.ordinal = o)) =
      (x :: ys).filter (fun s => decide (s.ordinal = o)) := by
  induction ys with
  | nil => rfl
  | cons y ys ih =>
    simp only [insertRev]
    split
    · rename_i hxy
      by_cases hy : y.ordinal = o
      · have hx : x.ordinal ≠ o := by omega
        simp only [List.filter_cons, hy, hx, decide_True, decide_False, if_true,
          Bool.false_eq_true, if_false] at ih ⊢
        rw [ih]
      · by_cases hx : x.ordinal = o
        · simp only [List.filter_cons, hy, hx, decide_True, decide_False, if_true,
            Bool.false_eq_true, if_false] at ih ⊢
          exact ih
        · simp only [List.filter_cons, hy, hx, decide_False, Bool.false_eq_true,
            if_false] at ih ⊢
          exact ih
    · rfl

/-- The inner loop started at the element `x` that follows the part `rp.reverse`: it
inserts `x` into that part and leaves the rest alone. -/
theorem sortInner_spec (rp : List ConfigSource) (x : ConfigSource) (post : List ConfigSource) :
    sortInner rp.length (rp.reverse ++ x :: post) = (insertRev x rp).reverse ++ post := by
  induction rp generalizing post with
  | nil => simp [sortInner, insertRev]
  | cons y ys ih =>
    have h1 : (ys.reverse ++ y :: x :: post)[ys.length + 1]? = some x := by
      rw [List.getElem?_append_right (by simp)]
      simp
    have h0 : (ys.reverse ++ y :: x :: post)[ys.length]? = some y := by
      rw [List.getElem?_append_right (by simp)]
      simp
    have hset : ((ys.reverse ++ y :: x :: post).set (ys.length + 1) y).set ys.length x
        = ys.reverse ++ x :: y :: post := by
      rw [List.set_append_right _ _ (by simp), List.set_append_right _ _ (by simp)]
      simp
    simp only [List.length_cons, List.reverse_cons, List.append_assoc, List.singleton_append,
      sortInner, h1, h0, insertRev]
    split
    · rw [hset, ih]
      simp
    · simp

theorem sortOuter_spec (post rp : List ConfigSource) :
    (List.range' rp.length post.length).foldl (fun l i => sortInner i l) (rp.reverse ++ post)
      = (post.foldl (fun acc x => insertRev x acc) rp).reverse := by
  induction post generalizing rp with
  | nil => simp
  | cons x post ih =>
    simp only [List.length_cons, List.range'_succ, List.foldl_cons, sortInner_spec]
    have := ih (insertRev x rp)
    rw [insertRev_length] at this
    exact this

/-- The sort computes the left-to-right insertion of every element. -/
theorem sortConfigSources_eq (l : List ConfigSource) :
    (Util.sortConfigSources ⟨l⟩).configSources
      = (l.foldl (fun acc x => insertRev x acc) []).reverse := by
  cases l with
  | nil => simp [Util.sortConfigSources]
  | cons a l =>
    have := sortOuter_spec l [a]
    simpa [Util.sortConfigSources, insertRev] using this

theorem foldl_insertRev_perm (l acc : List ConfigSource) :
    (l.foldl (fun acc x => insertRev x acc) acc).Perm (l.reverse ++ acc) := by
  induction l generalizing acc with
  | nil => simp
  | cons x l ih =>
    simp only [List.foldl_cons, List.reverse_cons, List.append_assoc, List.singleton_append]
    exact (ih _).trans (List.Perm.append_left _ (insertRev_perm x acc))

theorem foldl_insertRev_pairwise (l acc : List ConfigSource)
    (h : acc.Pairwise (fun a b => a.ordinal ≤ b.ordinal)) :
    (l.foldl (fun acc x => insertRev x acc) acc).Pairwise
      (fun a b => a.ordinal ≤ b.ordinal) := by
  induction l generalizing acc with
  | nil => simpa using h
  | cons x l ih => exact ih _ (insertRev_pairwise x acc h)

theorem foldl_insertRev_filter (o : Int) (l acc : List ConfigSource) :
    (l.foldl (fun acc x => insertRev x acc) acc).filter (fun s => decide (s.ordinal = o))
      = (l.reverse ++ acc).filter (fun s => decide (s.ordinal = o)) := by
  induction l generalizing acc with
  | nil => simp
  | cons x l ih =>
    simp only [List.foldl_cons, List.reverse_cons, List.append_assoc, List.singleton_append]
    rw [ih, List.filter_append, List.filter_append, insertRev_filter]

/-! ## Lemmas: calls that cannot panic -/

theorem Util.Get_total {c : Util} (h : c.Safe) (key : String) : ∃ v, c.Get key = .ok v :=
  Util.getLoop_total key c.configSources .nil (fun cs hcs => h cs hcs key)

theorem Util.GetString_total {c : Util} (h : c.Safe) (key : String) :
    ∃ r, c.GetString key = .ok r := by
  obtain ⟨v, hv⟩ := Util.Get_total h key
  cases v <;> simp [Util.GetString, hv]

theorem Util.GetInt_total (undef : Float64 → Int) {c : Util} (h : c.Safe) (key : String) :
    ∃ r, c.GetInt undef key = .ok r := by
  obtain ⟨v, hv⟩ := Util.Get_total h key
  simp only [Util.GetInt, hv]
  split
  · exact ⟨_, rfl⟩
  · split
    · split
      · exact ⟨_, rfl⟩
      · split <;> exact ⟨_, rfl⟩
    · exact ⟨_, rfl⟩

theorem loadServiceConfiguration_total (undef : Float64 → Int) {c : Util} (h : c.Safe) :
    ∃ r, loadServiceConfiguration undef c = .ok r := by
  obtain ⟨e, he⟩ := Util.GetString_total h "kumuluzee.env.name"
  obtain ⟨n, hn⟩ := Util.GetString_total h "kumuluzee.name"
  obtain ⟨v, hv⟩ := Util.GetString_total h "kumuluzee.version"
  obtain ⟨sdl, hsdl⟩ := Util.GetInt_total undef h "kumuluzee.config.start-retry-delay-ms"
  obtain ⟨mdl, hmdl⟩ := Util.GetInt_total undef h "kumuluzee.config.max-retry-delay-ms"
  simp only [loadServiceConfiguration, he, hn, hv, hsdl, hmdl, bind, Except.bind, pure,
    Except.pure]
  exact ⟨_, rfl⟩

theorem extensionNamespace_total {c : Util} (h : c.Safe) (envName name version nspace : String) :
    ∃ r, extensionNamespace c envName name version nspace = .ok r := by
  obtain ⟨ns, hns⟩ := Util.GetString_total h "kumuluzee.config.namespace"
  simp only [extensionNamespace, hns, bind, Except.bind, pure, Except.pure]
  exact ⟨_, rfl⟩

theorem newConsulConfigSource_total (undef : Float64 → Int) (w : World) {c : Util}
    (h : c.Safe) (nspace : String) :
    ∃ r, newConsulConfigSource undef w c nspace = .ok r ∧ r.ordinal = 150 := by
  obtain ⟨addr, haddr⟩ := Util.GetString_total h "kumuluzee.config.consul.hosts"
  obtain ⟨⟨envName, name, version, startRD, maxRD⟩, hl⟩ :=
    loadServiceConfiguration_total undef h
  obtain ⟨ns, hns⟩ := extensionNamespace_total h envName name version nspace
  simp only [newConsulConfigSource, haddr, hl, hns, bind, Except.bind, pure, Except.pure]
  exact ⟨_, rfl, rfl⟩

theorem newEtcdConfigSource_total (undef : Float64 → Int) (w : World) {c : Util}
    (h : c.Safe) (nspace : String) :
    ∃ r, newEtcdConfigSource undef w c nspace = .ok r ∧ r.ordinal = 150 := by
  obtain ⟨addr, haddr⟩ := Util.GetString_total h "kumuluzee.config.etcd.hosts"
  obtain ⟨⟨envName, name, version, startRD, maxRD⟩, hl⟩ :=
    loadServiceConfiguration_total undef h
  obtain ⟨ns, hns⟩ := extensionNamespace_total h envName name version nspace
  simp only [newEtcdConfigSource, haddr, hl, hns, bind, Except.bind, pure, Except.pure]
  exact ⟨_, rfl, rfl⟩

theorem strings.splitLoop_ne_nil (sep : Char) (cs cur : List Char) :
    strings.splitLoop sep cs cur ≠ [] := by
  induction cs generalizing cur with
  | nil => simp [strings.splitLoop]
  | cons c cs ih =>
    simp only [strings.splitLoop]
    split
    · simp
    · exact ih _

theorem fileConfigSource.walk_total (tree : List String) (h : tree ≠ [])
    (val : Option (List (String × RawValue))) :
    ∃ r, fileConfigSource.walk tree val = .ok r := by
  induction tree generalizing val with
  | nil => exact absurd rfl h
  | cons part rest ih =>
    cases rest with
    | nil => exact ⟨_, rfl⟩
    | cons p2 rest =>
      simp only [fileConfigSource.walk]
      split
      · exact ⟨_, rfl⟩
      · split
        · exact ih (by simp) _
        · exact ⟨_, rfl⟩

theorem fileConfigSource.Get_returns (config : Option (List (String × RawValue)))
    (key : String) : ∃ r, fileConfigSource.Get config key = .ok r :=
  fileConfigSource.walk_total _ (strings.splitLoop_ne_nil _ _ _) _

theorem newFileConfigSource_spec (w : World) (configPath : String) (f : ConfigSource)
    (h : newFileConfigSource w configPath = some f) :
    f.ordinal = 100 ∧ ∀ key, ∃ r, f.Get key = .ok r := by
  simp only [newFileConfigSource] at h
  split at h
  · cases h
  · rename_i config _
    cases h
    exact ⟨rfl, fun key => fileConfigSource.Get_returns config key⟩

/-! ## Lemmas: the registry built by `NewUtil` -/

theorem newEnvConfigSource_safe (w : World) (key : String) :
    ∃ r, (newEnvConfigSource w).Get key = .ok r := ⟨_, rfl⟩

theorem sort_env (e : ConfigSource) : (Util.sortConfigSources ⟨[e]⟩).configSources = [e] := by
  simp [sortConfigSources_eq, insertRev]

theorem sort_env_file (e f : ConfigSource) (he : e.ordinal = 300) (hf : f.ordinal = 100) :
    (Util.sortConfigSources ⟨[e, f]⟩).configSources = [e, f] := by
  simp [sortConfigSources_eq, insertRev, he, hf]

theorem sort_env_ext (e x : ConfigSource) (he : e.ordinal = 300) (hx : x.ordinal = 150) :
    (Util.sortConfigSources ⟨[e, x]⟩).configSources = [e, x] := by
  simp [sortConfigSources_eq, insertRev, he, hx]

theorem sort_env_file_ext (e f x : ConfigSource) (he : e.ordinal = 300)
    (hf : f.ordinal = 100) (hx : x.ordinal = 150) :
    (Util.sortConfigSources ⟨[e, f, x]⟩).configSources = [e, x, f] := by
  simp [sortConfigSources_eq, insertRev, he, hf, hx]

/-- The registry before the extension source is built: the environment source, then the
file source when it loaded; none of them panics. -/
theorem bootstrap_registry (w : World) (configPath : String) :
    let k := Util.sortConfigSources
      ⟨match newFileConfigSource w configPath with
        | some f => [newEnvConfigSource w] ++ [f]
        | none => [newEnvConfigSource w]⟩
    k.configSources = newEnvConfigSource w :: (newFileConfigSource w configPath).toList
      ∧ k.Safe := by
  intro k
  cases hf : newFileConfigSource w configPath with
  | none =>
    have hk : k.configSources = [newEnvConfigSource w] := by
      simp only [k, hf]
      exact sort_env _
    refine ⟨by simpa using hk, ?_⟩
    intro cs hcs key
    rw [hk] at hcs
    rcases List.mem_singleton.mp hcs with rfl
    exact newEnvConfigSource_safe w key
  | some f =>
    obtain ⟨hord, hsafe⟩ := newFileConfigSource_spec w configPath f hf
    have hk : k.configSources = [newEnvConfigSource w, f] := by
      simp only [k, hf]
      exact sort_env_file _ _ rfl hord
    refine ⟨by simpa using hk, ?_⟩
    intro cs hcs key
    rw [hk] at hcs
    simp only [List.mem_cons, List.mem_singleton, List.not_mem_nil, or_false] at hcs
    rcases hcs with rfl | rfl
    · exact newEnvConfigSource_safe w key
    · exact hsafe key

theorem Util.eq_of_configSources {a b : Util} (h : a.configSources = b.configSources) :
    a = b := by
  cases a
  cases b
  simp_all

/-- The shape of the registry `NewUtil` returns, and that it returns one: the environment
source, then the extension source when `Extension` names one, then the file source when it
loaded. -/
theorem NewUtil_shape (undef : Float64 → Int) (w : World) (options : Options) :
    ∃ (u : Util) (ext : Option ConfigSource),
      NewUtil undef w options = .ok u ∧
      (ext.isSome = true ↔ options.Extension = "consul" ∨ options.Extension = "etcd") ∧
      (∀ x ∈ ext, x.ordinal = 150) ∧
      u.configSources = newEnvConfigSource w ::
        (ext.toList ++ (newFileConfigSource w options.ConfigPath).toList) := by
  obtain ⟨hk, hsafe⟩ := bootstrap_registry w options.ConfigPath
  have hsort : ∀ x : ConfigSource, x.ordinal = 150 →
      (Util.sortConfigSources
        ⟨(newEnvConfigSource w :: (newFileConfigSource w options.ConfigPath).toList) ++ [x]⟩
        ).configSources
      = newEnvConfigSource w :: ([x] ++ (newFileConfigSource w options.ConfigPath).toList) := by
    intro x hx
    cases hf : newFileConfigSource w options.ConfigPath with
    | none => simpa using sort_env_ext _ _ rfl hx
    | some f =>
      have hord := (newFileConfigSource_spec w options.ConfigPath f hf).1
      simpa using sort_env_file_ext _ _ _ rfl hord hx
  have hsort0 : (Util.sortConfigSources
        ⟨newEnvConfigSource w :: (newFileConfigSource w options.ConfigPath).toList⟩
        ).configSources
      = newEnvConfigSource w :: (newFileConfigSource w options.ConfigPath).toList := by
    cases hf : newFileConfigSource w options.ConfigPath with
    | none => simpa using sort_env _
    | some f =>
      have hord := (newFileConfigSource_spec w options.ConfigPath f hf).1
      simpa using sort_env_file _ _ rfl hord
  have hk2 := Util.eq_of_configSources
    (b := ⟨newEnvConfigSource w :: (newFileConfigSource w options.ConfigPath).toList⟩) hk
  by_cases hc : options.Extension = "consul"
  · obtain ⟨x, hx, hord⟩ := newConsulConfigSource_total undef w hsafe options.ExtensionNamespace
    refine ⟨_, some x, ?_, by simp [hc], by simp [hord], rfl⟩
    simp only [NewUtil, bind, Except.bind, pure, Except.pure, Except.map]
    rw [if_pos hc, hx, hk2]
    exact congrArg Except.ok (Util.eq_of_configSources (by simpa using hsort x hord))
  · by_cases he : options.Extension = "etcd"
    · obtain ⟨x, hx, hord⟩ := newEtcdConfigSource_total undef w hsafe options.ExtensionNamespace
      refine ⟨_, some x, ?_, by simp [he], by simp [hord], rfl⟩
      simp only [NewUtil, bind, Except.bind, pure, Except.pure, Except.map]
      rw [if_neg hc, if_pos he, hx, hk2]
      exact congrArg Except.ok (Util.eq_of_configSources (by simpa using hsort x hord))
    · refine ⟨_, none, ?_, by simp [hc, he], by simp, rfl⟩
      simp only [NewUtil, bind, Except.bind, pure, Except.pure, Except.map]
      rw [if_neg hc, if_neg he, hk2]
      exact congrArg Except.ok (Util.eq_of_configSources (by simpa using hsort0))

/-- The Consul constructor returns on a registry that cannot panic, and what it returns is
the registered form of a `consulConfigSource`. -/
theorem newConsulConfigSource_returns (undef : Float64 → Int) (w : World) {c : Util}
    (h : c.Safe) (nspace : String) :
    ∃ s : consulConfigSource, newConsulConfigSource undef w c nspace = .ok s.toSource := by
  obtain ⟨addr, haddr⟩ := Util.GetString_total h "kumuluzee.config.consul.hosts"
  obtain ⟨⟨envName, name, version, startRD, maxRD⟩, hl⟩ :=
    loadServiceConfiguration_total undef h
  obtain ⟨ns, hns⟩ := extensionNamespace_total h envName name version nspace
  simp only [newConsulConfigSource, haddr, hl, hns, bind, Except.bind, pure, Except.pure]
  exact ⟨⟨_, _, _, _⟩, rfl⟩

/-- The etcd constructor returns on a registry that cannot panic, and what it returns is
the registered form of an `etcdConfigSource`. -/
theorem newEtcdConfigSource_returns (undef : Float64 → Int) (w : World) {c : Util}
    (h : c.Safe) (nspace : String) :
    ∃ s : etcdConfigSource, newEtcdConfigSource undef w c nspace = .ok s.toSource := by
  obtain ⟨addr, haddr⟩ := Util.GetString_total h "kumuluzee.config.etcd.hosts"
  obtain ⟨⟨envName, name, version, startRD, maxRD⟩, hl⟩ :=
    loadServiceConfiguration_total undef h
  obtain ⟨ns, hns⟩ := extensionNamespace_total h envName name version nspace
  simp only [newEtcdConfigSource, haddr, hl, hns, bind, Except.bind, pure, Except.pure]
  exact ⟨⟨_, _, _, _⟩, rfl⟩

/-- The registry `NewUtil` returns, with the extension source named: it is what the
constructor chosen by `Extension` returns for the registry of the environment source and
the file source, and there is none for any other `Extension`. -/
theorem NewUtil_registry (undef : Float64 → Int) (w : World) (options : Options) :
    ∃ (u : Util) (ext : Option ConfigSource),
      NewUtil undef w options = .ok u ∧
      u.configSources = newEnvConfigSource w ::
        (ext.toList ++ (newFileConfigSource w options.ConfigPath).toList) ∧
      (options.Extension = "consul" → ∃ s : consulConfigSource, ext = some s.toSource ∧
        newConsulConfigSource undef w
          ⟨newEnvConfigSource w :: (newFileConfigSource w options.ConfigPath).toList⟩
          options.ExtensionNamespace = .ok s.toSource) ∧
      (options.Extension = "etcd" → ∃ s : etcdConfigSource, ext = some s.toSource ∧
        newEtcdConfigSource undef w
          ⟨newEnvConfigSource w :: (newFileConfigSource w options.ConfigPath).toList⟩
          options.ExtensionNamespace = .ok s.toSource) ∧
      (options.Extension ≠ "consul" → options.Extension ≠ "etcd" → ext = none) := by
  obtain ⟨hk, hsafe⟩ := bootstrap_registry w options.ConfigPath
  have hsort : ∀ x : ConfigSource, x.ordinal = 150 →
      (Util.sortConfigSources
        ⟨(newEnvConfigSource w :: (newFileConfigSource w options.ConfigPath).toList) ++ [x]⟩
        ).configSources
      = newEnvConfigSource w :: ([x] ++ (newFileConfigSource w options.ConfigPath).toList) := by
    intro x hx
    cases hf : newFileConfigSource w options.ConfigPath with
    | none => simpa using sort_env_ext _ _ rfl hx
    | some f =>
      have hord := (newFileConfigSource_spec w options.ConfigPath f hf).1
      simpa using sort_env_file_ext _ _ _ rfl hord hx
  have hsort0 : (Util.sortConfigSources
        ⟨newEnvConfigSource w :: (newFileConfigSource w options.ConfigPath).toList⟩
        ).configSources
      = newEnvConfigSource w :: (newFileConfigSource w options.ConfigPath).toList := by
    cases hf : newFileConfigSource w options.ConfigPath with
    | none => simpa using sort_env _
    | some f =>
      have hord := (newFileConfigSource_spec w options.ConfigPath f hf).1
      simpa using sort_env_file _ _ rfl hord
  have hk2 := Util.eq_of_configSources
    (b := ⟨newEnvConfigSource w :: (newFileConfigSource w options.ConfigPath).toList⟩) hk
  rw [hk2] at hsafe
  by_cases hc : options.Extension = "consul"
  · obtain ⟨s, hs⟩ := newConsulConfigSource_returns undef w hsafe options.ExtensionNamespace
    have hne : options.Extension ≠ "etcd" := by
      rw [hc]
      decide
    refine ⟨_, some s.toSource, ?_, rfl, fun _ => ⟨s, rfl, hs⟩, fun h => absurd h hne,
      fun h => absurd hc h⟩
    simp only [NewUtil, bind, Except.bind, pure, Except.pure, Except.map]
    rw [if_pos hc, hk2, hs]
    exact congrArg Except.ok (Util.eq_of_configSources (by simpa using hsort s.toSource rfl))
  · by_cases he : options.Extension = "etcd"
    · obtain ⟨s, hs⟩ := newEtcdConfigSource_returns undef w hsafe options.ExtensionNamespace
      refine ⟨_, some s.toSource, ?_, rfl, fun h => absurd h hc, fun _ => ⟨s, rfl, hs⟩,
        fun _ h => absurd he h⟩
      simp only [NewUtil, bind, Except.bind, pure, Except.pure, Except.map]
      rw [if_neg hc, if_pos he, hk2, hs]
      exact congrArg Except.ok (Util.eq_of_configSources (by simpa using hsort s.toSource rfl))
    · refine ⟨_, none, ?_, rfl, fun h => absurd h hc, fun h => absurd h he, fun _ _ => rfl⟩
      simp only [NewUtil, bind, Except.bind, pure, Except.pure, Except.map]
      rw [if_neg hc, if_neg he, hk2]
      exact congrArg Except.ok (Util.eq_of_configSources (by simpa using hsort0))

/-! ## The registry: resolution order and the sort -/

/-- C1: for every registry and key, `Util.Get` returns `v` exactly when either `v` is nil
and every source answers nil, or `v` is not nil and is the answer of a source all of whose
predecessors in the list answer nil (so the result is the whole value of one source, the
first that has the key); and `Util.Get` returns whenever every source returns. -/
theorem Util_Get_first_non_nil (c : Util) (key : String) :
    (∀ v, c.Get key = .ok v ↔
      (v = .nil ∧ ∀ cs ∈ c.configSources, cs.Get key = .ok .nil) ∨
      (v ≠ .nil ∧ ∃ pre cs post, c.configSources = pre ++ cs :: post ∧
        cs.Get key = .ok v ∧ ∀ p ∈ pre, p.Get key = .ok .nil)) ∧
    ((∀ cs ∈ c.configSources, ∃ r, cs.Get key = .ok r) → ∃ v, c.Get key = .ok v) :=
  ⟨fun v => Util.getLoop_ok_iff key c.configSources v,
    fun h => Util.getLoop_total key c.configSources .nil h⟩

/-- C2: `NewUtil` always returns a registry, and it is the environment source (ordinal
300), then the extension source (ordinal 150), then the file source (ordinal 100) when it
loaded; the extension source is the source the Consul constructor returns when `Extension`
is `consul`, the one the etcd constructor returns when it is `etcd`, and there is none
otherwise. Hence a key the environment source has resolves to the environment value
(whatever the store and the file hold), and a key the environment source lacks and the
extension source has resolves to the extension value (whatever the file holds). With an
environment, a file and a store that all answer, `some-config.address.ip` is read from
the environment and `some-config.protocol` from the store, from the file only when no
extension is named. -/
theorem NewUtil_priority_order (undef : Float64 → Int) (w : World) (options : Options) :
    (∃ (u : Util) (ext : Option ConfigSource),
      NewUtil undef w options = .ok u ∧
      u.configSources = newEnvConfigSource w ::
        (ext.toList ++ (newFileConfigSource w options.ConfigPath).toList) ∧
      (options.Extension = "consul" → ∃ s : consulConfigSource, ext = some s.toSource ∧
        newConsulConfigSource undef w
          ⟨newEnvConfigSource w :: (newFileConfigSource w options.ConfigPath).toList⟩
          options.ExtensionNamespace = .ok s.toSource) ∧
      (options.Extension = "etcd" → ∃ s : etcdConfigSource, ext = some s.toSource ∧
        newEtcdConfigSource undef w
          ⟨newEnvConfigSource w :: (newFileConfigSource w options.ConfigPath).toList⟩
          options.ExtensionNamespace = .ok s.toSource) ∧
      (options.Extension ≠ "consul" → options.Extension ≠ "etcd" → ext = none) ∧
      (newEnvConfigSource w).ordinal = 300 ∧
      (∀ x ∈ ext, x.ordinal = 150) ∧
      (∀ f ∈ newFileConfigSource w options.ConfigPath, f.ordinal = 100) ∧
      (∀ key v, v ≠ .nil → (newEnvConfigSource w).Get key = .ok v → u.Get key = .ok v) ∧
      (∀ x ∈ ext, ∀ key v, v ≠ .nil → (newEnvConfigSource w).Get key = .ok .nil →
        x.Get key = .ok v → u.Get key = .ok v)) ∧
    (NewUtil undef layeredWorld ⟨"", "consul", "ns", 0⟩).bind
        (fun u => u.Get "some-config.address.ip") = .ok (.str "10.0.0.1") ∧
    (NewUtil undef layeredWorld ⟨"", "consul", "ns", 0⟩).bind
        (fun u => u.Get "some-config.protocol") = .ok (.str "ns/some-config/protocol") ∧
    (NewUtil undef layeredWorld ⟨"", "etcd", "ns", 0⟩).bind
        (fun u => u.Get "some-config.address.ip") = .ok (.str "10.0.0.1") ∧
    (NewUtil undef layeredWorld ⟨"", "etcd", "ns", 0⟩).bind
        (fun u => u.Get "some-config.protocol") = .ok (.str "ns/some-config/protocol") ∧
    (NewUtil undef layeredWorld ⟨"", "", "ns", 0⟩).bind
        (fun u => u.Get "some-config.address.ip") = .ok (.str "10.0.0.1") ∧
    (NewUtil undef layeredWorld ⟨"", "", "ns", 0⟩).bind
        (fun u => u.Get "some-config.protocol") = .ok (.str "tcp") := by
  refine ⟨?_, rfl, rfl, rfl, rfl, rfl, rfl⟩
  obtain ⟨u, ext, hu, hshape, hconsul, hetcd, hnone⟩ := NewUtil_registry undef w options
  have hord : ∀ x ∈ ext, x.ordinal = 150 := by
    intro x hx
    have hx' : ext = some x := hx
    by_cases hc : options.Extension = "consul"
    · obtain ⟨s, hs, _⟩ := hconsul hc
      rw [hs] at hx'
      cases hx'
      rfl
    · by_cases he : options.Extension = "etcd"
      · obtain ⟨s, hs, _⟩ := hetcd he
        rw [hs] at hx'
        cases hx'
        rfl
      · rw [hnone hc he] at hx'
        cases hx'
  refine ⟨u, ext, hu, hshape, hconsul, hetcd, hnone, rfl, hord, ?_, ?_, ?_⟩
  · intro f hf
    exact (newFileConfigSource_spec w options.ConfigPath f hf).1
  · intro key v hv henv
    exact (Util.getLoop_ok_iff key u.configSources v).mpr
      (Or.inr ⟨hv, [], _, _, hshape, henv, by simp⟩)
  · intro x hx key v hv henv hxget
    have hx' : ext = some x := hx
    refine (Util.getLoop_ok_iff key u.configSources v).mpr
      (Or.inr ⟨hv, [newEnvConfigSource w], x,
        (newFileConfigSource w options.ConfigPath).toList, ?_, hxget, ?_⟩)
    · rw [hshape, hx']
      rfl
    · intro p hp
      rcases List.mem_singleton.mp hp with rfl
      exact henv

/-- C3: for every list of sources, `sortConfigSources` leaves a permutation of the list,
ordered by non-increasing ordinal, in which the sources of every one ordinal stand in the
order they had before (the sort is stable). -/
theorem sortConfigSources_sorted_stable (c : Util) :
    c.sortConfigSources.configSources.Perm c.configSources ∧
    c.sortConfigSources.configSources.Pairwise (fun a b => a.ordinal ≥ b.ordinal) ∧
    ∀ o : Int,
      c.sortConfigSources.configSources.filter (fun s => decide (s.ordinal = o)) =
        c.configSources.filter (fun s => decide (s.ordinal = o)) := by
  obtain ⟨l⟩ := c
  rw [sortConfigSources_eq]
  refine ⟨?_, ?_, ?_⟩
  · have h := foldl_insertRev_perm l []
    rw [List.append_nil] at h
    exact (List.reverse_perm _).trans (h.trans (List.reverse_perm l))
  · rw [List.pairwise_reverse]
    exact foldl_insertRev_pairwise l [] List.Pairwise.nil
  · intro o
    have h := foldl_insertRev_filter o l []
    rw [List.append_nil] at h
    rw [← List.reverse_reverse (List.filter _ l), ← List.filter_reverse, ← h,
      List.filter_reverse]

/-! ## The typed accessors -/

theorem constUtil_Get (v : RawValue) (key : String) : (constUtil v).Get key = .ok v := by
  cases v <;> rfl

theorem roundNat53_of_le (n : Nat) (h : n ≤ 2 ^ 53) :
    (roundNat53 n).1 * 2 ^ (roundNat53 n).2 = n := by
  rcases Nat.lt_or_ge n (2 ^ 53) with hlt | hge
  · have hr : roundNat53 n = (n, 0) := if_pos hlt
    simp [hr]
  · have hn : n = 2 ^ 53 := le_antisymm h hge
    subst hn
    decide

/-- An integer of absolute value at most `2^53` survives the conversion to `float64` and
back to an integer. -/
theorem truncate_float64OfInt (v : Int) (h : |v| ≤ 2 ^ 53) :
    (float64OfInt v).truncate = some v := by
  have hn : v.natAbs ≤ 2 ^ 53 := by
    have : (v.natAbs : Int) ≤ 2 ^ 53 := by rw [Int.natCast_natAbs]; exact h
    exact_mod_cast this
  have hr := roundNat53_of_le v.natAbs hn
  simp only [float64OfInt, Float64.truncate, Int.natCast_nonneg, if_true, Int.toNat_ofNat, hr]
  by_cases hv : v < 0
  · simp only [hv, decide_True, if_true]
    rw [Int.natCast_natAbs, abs_of_neg hv]
    simp
  · simp only [hv, decide_False, Bool.false_eq_true, if_false]
    rw [Int.natCast_natAbs, abs_of_nonneg (not_lt.mp hv)]

theorem wrapInt64_range (z : Int) : minInt64 ≤ wrapInt64 z ∧ wrapInt64 z ≤ maxInt64 := by
  simp only [minInt64, maxInt64, wrapInt64]
  omega

theorem intOfFloat64_range (undef : Float64 → Int) (f : Float64) :
    minInt64 ≤ intOfFloat64 undef f ∧ intOfFloat64 undef f ≤ maxInt64 := by
  simp only [intOfFloat64]
  split
  · split
    · assumption
    · exact wrapInt64_range _
  · exact wrapInt64_range _

theorem intOfFloat64_of_truncate (undef : Float64 → Int) (f : Float64) (t : Int)
    (h : f.truncate = some t) (hlo : minInt64 ≤ t) (hhi : t ≤ maxInt64) :
    intOfFloat64 undef f = t := by
  simp [intOfFloat64, h, hlo, hhi]

theorem GetInt_of_numeric (undef : Float64 → Int) (c : Util) (key : String) (x : RawValue)
    (hget : c.Get key = .ok x) (hnum : x.isNumeric = true) :
    c.GetInt undef key = .ok (intOfFloat64 undef (assertAsNumber x).1, true) := by
  cases x <;> simp_all [RawValue.isNumeric, Util.GetInt, assertAsNumber]

/-- C4 (as amended): on a raw value `x` of any of the twelve numeric types `GetInt` reports
found, and its value is `float64(x)` truncated toward zero whenever that integer fits
`int`: for a float `x` this is `x` truncated toward zero, and for an integer `x` of
absolute value at most `2^53` it is `x`. -/
theorem GetInt_numeric (undef : Float64 → Int) (c : Util) (key : String) (x : RawValue)
    (hget : c.Get key = .ok x) (hnum : x.isNumeric = true) :
    ∃ n, c.GetInt undef key = .ok (n, true) ∧
      (∀ f t, x = .float32 f ∨ x = .float64 f → f.truncate = some t →
        minInt64 ≤ t → t ≤ maxInt64 → n = t) ∧
      (∀ k v t, x = .int k v → (float64OfInt v).truncate = some t →
        minInt64 ≤ t → t ≤ maxInt64 → n = t) ∧
      (∀ k v, x = .int k v → |v| ≤ 2 ^ 53 → n = v) := by
  refine ⟨_, GetInt_of_numeric undef c key x hget hnum, ?_, ?_, ?_⟩
  · rintro f t (rfl | rfl) ht hlo hhi <;>
      exact intOfFloat64_of_truncate undef f t ht hlo hhi
  · rintro k v t rfl ht hlo hhi
    exact intOfFloat64_of_truncate undef _ t ht hlo hhi
  · rintro k v rfl hv
    refine intOfFloat64_of_truncate undef _ v (truncate_float64OfInt v hv) ?_ ?_
    · have := (abs_le.mp hv).1
      simp only [minInt64]
      omega
    · have := (abs_le.mp hv).2
      simp only [maxInt64]
      omega

/-- C4, at concrete inputs: the `float64` nearest to 11.65425 is read as 11, the one
nearest to -0.411 as 0, and the integer -4 as -4. -/
theorem GetInt_numeric_witness :
    Util.GetInt (fun _ => 0) (constUtil (.float64 (.fin false 6560759494660325 (-49))))
        "float-value" = .ok (11, true) ∧
    Util.GetInt (fun _ => 0) (constUtil (.float64 (.fin true 7403917787397095 (-54))))
        "negative-float-value" = .ok (0, true) ∧
    Util.GetInt (fun _ => 0) (constUtil (.int .int (-4)))
        "negative-integer-value" = .ok (-4, true) := by
  refine ⟨?_, ?_, ?_⟩
  · obtain ⟨n, h, hf, _, _⟩ := GetInt_numeric (fun _ => 0)
      (constUtil (.float64 (.fin false 6560759494660325 (-49)))) "float-value" _
      (constUtil_Get _ _) rfl
    rw [h, hf _ 11 (Or.inr rfl) (by decide) (by decide) (by decide)]
  · obtain ⟨n, h, hf, _, _⟩ := GetInt_numeric (fun _ => 0)
      (constUtil (.float64 (.fin true 7403917787397095 (-54)))) "negative-float-value" _
      (constUtil_Get _ _) rfl
    rw [h, hf _ 0 (Or.inr rfl) (by decide) (by decide) (by decide)]
  · obtain ⟨n, h, _, _, hi⟩ := GetInt_numeric (fun _ => 0)
      (constUtil (.int .int (-4))) "negative-integer-value" _ (constUtil_Get _ _) rfl
    rw [h, hi _ _ rfl (by decide)]

/-- C4 as stated fails: the `float64` value `2^63` (the YAML number 9223372036854775808)
truncates to `2^63`, which no implementation can return as an `int`; and the `int64`
value `2^53 + 1` is rounded to the float `2^53` before it is truncated, so `GetInt`
returns `2^53`. -/
theorem GetInt_numeric_counterexample :
    (Float64.fin false 1 63).truncate = some (2 ^ 63) ∧
    (∀ undef, Util.GetInt undef (constUtil (.float64 (.fin false 1 63))) "k"
      ≠ .ok (2 ^ 63, true)) ∧
    (IntKind.lo .int64 ≤ 2 ^ 53 + 1 ∧ 2 ^ 53 + 1 ≤ IntKind.hi .int64) ∧
    (∀ undef, Util.GetInt undef (constUtil (.int .int64 (2 ^ 53 + 1))) "k"
      = .ok (2 ^ 53, true)) := by
  refine ⟨by decide, ?_, by decide, ?_⟩
  · intro undef h
    rw [GetInt_of_numeric undef _ "k" (.float64 (.fin false 1 63)) (constUtil_Get _ _)
      rfl] at h
    have hr := (intOfFloat64_range undef (assertAsNumber (.float64 (.fin false 1 63))).1).2
    have heq := congrArg Prod.fst (Except.ok.inj h)
    simp only at heq
    rw [heq] at hr
    simp only [maxInt64] at hr
    omega
  · intro undef
    rw [GetInt_of_numeric undef _ "k" (.int .int64 (2 ^ 53 + 1)) (constUtil_Get _ _) rfl]
    have ht : (assertAsNumber (.int .int64 (2 ^ 53 + 1))).1.truncate = some (2 ^ 53) := by
      decide
    rw [intOfFloat64_of_truncate undef _ _ ht (by decide) (by decide)]

/-! ### `ParseInt` reads back the decimal rendering -/

theorem digitChar_spec (d : Nat) (h : d < 10) :
    '0' ≤ Nat.digitChar d ∧ Nat.digitChar d ≤ '9' ∧ (Nat.digitChar d).toNat - 48 = d ∧
      Nat.digitChar d ≠ '_' ∧ Nat.digitChar d ≠ '+' ∧ Nat.digitChar d ≠ '-' ∧
      (Nat.digitChar d = '0' → d = 0) := by
  interval_cases d <;> decide

theorem strconv.parseUintLoop_digit (d n : Nat) (cs : List Char) (us : Bool) (hd : d < 10)
    (hn : n * 10 + d < 2 ^ 64) :
    strconv.parseUintLoop 10 true (Nat.digitChar d :: cs) n us
      = strconv.parseUintLoop 10 true cs (n * 10 + d) us := by
  obtain ⟨h0, h9, hval, hus, _, _, _⟩ := digitChar_spec d hd
  have hcut : ¬ n ≥ (2 ^ 64 - 1) / 10 + 1 := by omega
  have hmod : (n * 10 + d) % 2 ^ 64 = n * 10 + d := Nat.mod_eq_of_lt hn
  have hwrap : ¬ ((n * 10 + d) % 2 ^ 64 < n * 10 ∨ (n * 10 + d) % 2 ^ 64 > 2 ^ 64 - 1) := by
    rw [hmod]
    omega
  have hbase : ¬ d ≥ 10 := by omega
  rw [hmod] at hwrap
  rw [strconv.parseUintLoop]
  simp only [hus, false_and, if_false, h0, h9, and_self, if_true, hval, hbase, hcut, hwrap,
    hmod]

theorem strconv.parseUintLoop_toDigitsCore (fuel n : Nat) (ds : List Char) (us : Bool)
    (hf : n < fuel) (hn : n < 2 ^ 64) :
    strconv.parseUintLoop 10 true (Nat.toDigitsCore 10 fuel n ds) 0 us
      = strconv.parseUintLoop 10 true ds n us := by
  induction fuel generalizing n ds with
  | zero => omega
  | succ fuel ih =>
    have hd : n % 10 < 10 := Nat.mod_lt _ (by decide)
    simp only [Nat.toDigitsCore]
    split
    · rename_i h0
      rw [strconv.parseUintLoop_digit _ _ _ _ hd (by omega)]
      congr 1
      omega
    · rename_i h0
      rw [ih (n / 10) _ (by omega) (by omega),
        strconv.parseUintLoop_digit _ _ _ _ hd (by omega)]
      congr 1
      omega

theorem toDigitsCore_head (fuel n : Nat) (ds : List Char) (hf : n < fuel) (hn : 0 < n) :
    ∃ c rest, Nat.toDigitsCore 10 fuel n ds = c :: rest ∧ c ≠ '0' ∧ c ≠ '+' ∧ c ≠ '-' := by
  induction fuel generalizing n ds with
  | zero => omega
  | succ fuel ih =>
    have hd : n % 10 < 10 := Nat.mod_lt _ (by decide)
    obtain ⟨_, _, _, _, hp, hm, hz⟩ := digitChar_spec (n % 10) hd
    simp only [Nat.toDigitsCore]
    split
    · rename_i h0
      refine ⟨_, _, rfl, ?_, hp, hm⟩
      intro h
      have := hz h
      omega
    · rename_i h0
      exact ih (n / 10) _ (by omega) (by omega)

/-- `ParseUint` reads the decimal digits of `n < 2^64` back as `n`. -/
theorem strconv.ParseUint_toDigits (n : Nat) (hn : n < 2 ^ 64) :
    strconv.ParseUint (Nat.toDigits 10 n) = (n, none) := by
  rcases Nat.eq_zero_or_pos n with rfl | hpos
  · decide
  · obtain ⟨c, rest, hcr, hc0, _, _⟩ := toDigitsCore_head (n + 1) n [] (by omega) hpos
    have hloop := strconv.parseUintLoop_toDigitsCore (n + 1) n [] false (by omega) hn
    simp only [Nat.toDigits] at hcr hloop ⊢
    rw [hcr] at hloop ⊢
    simp only [strconv.ParseUint, hc0, if_false, hloop, strconv.parseUintLoop]
    simp

theorem strconv.ParseInt_unsigned (s : String) (c : Char) (rest : List Char) (un : Nat)
    (hs : s.toList = c :: rest) (hp : c ≠ '+') (hm : c ≠ '-')
    (hu : strconv.ParseUint (c :: rest) = (un, none)) (hlt : un < 2 ^ 63) :
    strconv.ParseInt s = ((un : Int), none) := by
  have hne : s ≠ "" := by
    intro h
    rw [h] at hs
    cases hs
  have hcut : ¬ un ≥ 2 ^ 63 := by omega
  have hw : wrapInt64 (un : Int) = (un : Int) := by
    simp only [wrapInt64]
    omega
  unfold strconv.ParseInt
  rw [if_neg hne, hs]
  split
  rename_i heq
  split at heq
  · rename_i h
    simp only [List.cons.injEq] at h
    exact absurd h.1 hp
  · rename_i h
    simp only [List.cons.injEq] at h
    exact absurd h.1 hm
  · cases heq
    have hlt' : un < 9223372036854775808 := by omega
    simp only [hu]
    simp [hw, hlt']

theorem strconv.ParseInt_minus (s : String) (rest : List Char) (un : Nat)
    (hs : s.toList = '-' :: rest)
    (hu : strconv.ParseUint rest = (un, none)) (hle : un ≤ 2 ^ 63) :
    strconv.ParseInt s = (-(un : Int), none) := by
  have hne : s ≠ "" := by
    intro h
    rw [h] at hs
    cases hs
  have hcut : ¬ un > 2 ^ 63 := by omega
  have hw : wrapInt64 (-wrapInt64 (un : Int)) = -(un : Int) := by
    simp only [wrapInt64]
    omega
  have hle' : un ≤ 9223372036854775808 := by omega
  unfold strconv.ParseInt
  rw [if_neg hne, hs]
  simp only [hu]
  simp [hw, hle']

/-- The decimal rendering of every `int` parses back to it. -/
theorem strconv.ParseInt_Itoa (i : Int) (hlo : minInt64 ≤ i) (hhi : i ≤ maxInt64) :
    strconv.ParseInt (strconv.Itoa i) = (i, none) := by
  simp only [minInt64, maxInt64] at hlo hhi
  cases i with
  | ofNat m =>
    have hm : m < 2 ^ 63 := by
      have : (m : Int) ≤ 2 ^ 63 - 1 := hhi
      omega
    obtain ⟨c, rest, hcr, hp, hmi⟩ : ∃ c rest, Nat.toDigits 10 m = c :: rest
        ∧ c ≠ '+' ∧ c ≠ '-' := by
      rcases Nat.eq_zero_or_pos m with rfl | hpos
      · exact ⟨'0', [], by decide, by decide, by decide⟩
      · obtain ⟨c, rest, h, _, hp, hmi⟩ := toDigitsCore_head (m + 1) m [] (by omega) hpos
        exact ⟨c, rest, h, hp, hmi⟩
    have hu := strconv.ParseUint_toDigits m (by omega)
    rw [hcr] at hu
    exact strconv.ParseInt_unsigned _ c rest m (by simp [strconv.Itoa, Nat.repr, hcr, List.asString]) hp hmi hu hm
  | negSucc m =>
    have hm : m + 1 ≤ 2 ^ 63 := by
      have : -(2 ^ 63 : Int) ≤ Int.negSucc m := hlo
      rw [Int.negSucc_eq] at this
      omega
    have hu := strconv.ParseUint_toDigits (m + 1) (by omega)
    have := strconv.ParseInt_minus (strconv.Itoa (Int.negSucc m)) _ (m + 1)
      (by simp [strconv.Itoa, Nat.repr, List.asString]) hu hm
    rw [this, Int.negSucc_eq]
    simp

/-- `GetInt` on a string: the two parsers in turn. -/
theorem GetInt_of_str (undef : Float64 → Int) (c : Util) (key s : String)
    (hget : c.Get key = .ok (.str s)) :
    c.GetInt undef key =
      match strconv.ParseInt s with
      | (ivalue64, none) => .ok (ivalue64, true)
      | (_, some _) =>
        match strconv.ParseFloat s with
        | (fvalue64, none) => .ok (intOfFloat64 undef fvalue64, true)
        | (_, some _) => .ok (0, false) := by
  simp only [Util.GetInt, hget, assertAsNumber]

/-- C5 (as amended): on a raw value that is the string `s`, `GetInt` returns `(n, true)`
when `strconv.ParseInt(s, 0, 64)` accepts `s` with value `n`, which it does for the decimal
rendering of every `int` `n`; otherwise, when `strconv.ParseFloat(s, 64)` accepts `s` with
value `f`, it reports found, with `f` truncated toward zero as the value whenever that
integer fits `int`; and when both parsers reject `s` it returns `(0, false)`. -/
theorem GetInt_string (undef : Float64 → Int) (c : Util) (key s : String)
    (hget : c.Get key = .ok (.str s)) :
    (∀ n, strconv.ParseInt s = (n, none) → c.GetInt undef key = .ok (n, true)) ∧
    (∀ n : Int, minInt64 ≤ n → n ≤ maxInt64 → s = strconv.Itoa n →
      c.GetInt undef key = .ok (n, true)) ∧
    (∀ f t, (strconv.ParseInt s).2 ≠ none → strconv.ParseFloat s = (f, none) →
      f.truncate = some t → minInt64 ≤ t → t ≤ maxInt64 →
      c.GetInt undef key = .ok (t, true)) ∧
    (∀ f, (strconv.ParseInt s).2 ≠ none → strconv.ParseFloat s = (f, none) →
      ∃ n, c.GetInt undef key = .ok (n, true)) ∧
    ((strconv.ParseInt s).2 ≠ none → (strconv.ParseFloat s).2 ≠ none →
      c.GetInt undef key = .ok (0, false)) := by
  have hcode := GetInt_of_str undef c key s hget
  refine ⟨?_, ?_, ?_, ?_, ?_⟩
  · intro n hn
    rw [hcode, hn]
  · intro n hlo hhi hs
    rw [hcode, hs, strconv.ParseInt_Itoa n hlo hhi]
  · intro f t hi hf ht hlo hhi
    rw [hcode, hf]
    rcases hp : strconv.ParseInt s with ⟨i, _ | e⟩
    · rw [hp] at hi
      exact absurd rfl hi
    · simp only [intOfFloat64_of_truncate undef f t ht hlo hhi]
  · intro f hi hf
    rw [hcode, hf]
    rcases hp : strconv.ParseInt s with ⟨i, _ | e⟩
    · rw [hp] at hi
      exact absurd rfl hi
    · exact ⟨_, rfl⟩
  · intro hi hf
    rw [hcode]
    rcases hp : strconv.ParseInt s with ⟨i, _ | e⟩
    · rw [hp] at hi
      exact absurd rfl hi
    · rcases hq : strconv.ParseFloat s with ⟨f, _ | e'⟩
      · rw [hq] at hf
        exact absurd rfl hf
      · rfl

/-- C5, at concrete inputs: the strings `36` and `-4` are read as integers, `11.65425` is
read as a float and truncated to 11, the rendering of the least `int` is read back, and
`hey ho` is not a number. -/
theorem GetInt_string_witness :
    Util.GetInt (fun _ => 0) (constUtil (.str "36")) "integer-value" = .ok (36, true) ∧
    Util.GetInt (fun _ => 0) (constUtil (.str "11.65425")) "float-value" = .ok (11, true) ∧
    Util.GetInt (fun _ => 0) (constUtil (.str (strconv.Itoa minInt64))) "k"
      = .ok (minInt64, true) ∧
    Util.GetInt (fun _ => 0) (constUtil (.str "hey ho")) "string-value" = .ok (0, false) :=
  ⟨(GetInt_string (fun _ => 0) (constUtil (.str "36")) "integer-value" "36"
      (constUtil_Get _ _)).1 36 (by decide),
    (GetInt_string (fun _ => 0) (constUtil (.str "11.65425")) "float-value" "11.65425"
      (constUtil_Get _ _)).2.2.1 (.fin false 6560759494660325 (-49)) 11 (by decide)
      (by decide) (by decide) (by decide) (by decide),
    (GetInt_string (fun _ => 0) (constUtil (.str (strconv.Itoa minInt64))) "k" _
      (constUtil_Get _ _)).2.1 minInt64 (by decide) (by decide) rfl,
    (GetInt_string (fun _ => 0) (constUtil (.str "hey ho")) "string-value" "hey ho"
      (constUtil_Get _ _)).2.2.2.2 (by decide) (by decide)⟩

/-- C5 as stated fails: `1e19` is a float numeral whose value truncates to `10^19`, and
`9223372036854775808` is an integer numeral denoting `2^63` (`ParseInt` rejects it as out
of range and `ParseFloat` reads it as `2^63`); neither number is an `int`, so `GetInt`
returns neither, whatever the implementation does with a float that does not fit. -/
theorem GetInt_string_counterexample :
    (strconv.ParseInt "1e19").2 = some .ErrSyntax ∧
    strconv.ParseFloat "1e19" = (.fin false 4882812500000000 11, none) ∧
    (Float64.fin false 4882812500000000 11).truncate = some (10 ^ 19) ∧
    (∀ undef, Util.GetInt undef (constUtil (.str "1e19")) "k" ≠ .ok (10 ^ 19, true)) ∧
    (strconv.ParseInt "9223372036854775808").2 = some .ErrRange ∧
    (∀ undef, Util.GetInt undef (constUtil (.str "9223372036854775808")) "k"
      ≠ .ok (2 ^ 63, true)) := by
  have hrange : ∀ (undef : Float64 → Int) (s : String) (e : strconv.NumError) (i n : Int)
      (f : Float64), strconv.ParseInt s = (i, some e) → strconv.ParseFloat s = (f, none) →
      2 ^ 63 ≤ n → Util.GetInt undef (constUtil (.str s)) "k" ≠ .ok (n, true) := by
    intro undef s e i n f hi hf hn h
    rw [GetInt_of_str undef _ "k" s (constUtil_Get _ _), hi, hf] at h
    have hr := (intOfFloat64_range undef f).2
    have heq := congrArg Prod.fst (Except.ok.inj h)
    simp only at heq
    rw [heq] at hr
    simp only [maxInt64] at hr
    omega
  exact ⟨by decide, by decide, by decide,
    fun undef => hrange undef "1e19" .ErrSyntax 0 _ (.fin false 4882812500000000 11)
      (by decide) (by decide) (by decide),
    by decide,
    fun undef => hrange undef "9223372036854775808" .ErrRange (2 ^ 63 - 1) _
      (.fin false 4503599627370496 11) (by decide) (by decide) (by decide)⟩

/-- `GetFloat` on a string: the float parser. -/
theorem GetFloat_of_str (c : Util) (key s : String) (hget : c.Get key = .ok (.str s)) :
    c.GetFloat key =
      match strconv.ParseFloat s with
      | (fvalue64, none) => .ok (fvalue64, true)
      | (_, some _) => .ok (Float64.zero, false) := by
  simp only [Util.GetFloat, hget, assertAsNumber]

/-- `GetBool` on a string: the boolean parser. -/
theorem GetBool_of_str (c : Util) (key s : String) (hget : c.Get key = .ok (.str s)) :
    c.GetBool key =
      match strconv.ParseBool s with
      | (bvalue, none) => .ok (bvalue, true)
      | (_, some _) => .ok (false, false) := by
  simp only [Util.GetBool, hget]

/-- On a raw value that is natively the string `s` the numeric and boolean accessors parse
`s`, and they return the zero value with found false exactly when the parse fails:
`GetInt` when both `ParseInt` and `ParseFloat` reject `s`, `GetFloat` when `ParseFloat`
rejects `s`, `GetBool` when `ParseBool` rejects `s`. -/
theorem typed_accessors_on_string (undef : Float64 → Int) (c : Util) (key s : String)
    (hget : c.Get key = .ok (.str s)) :
    (c.GetInt undef key = .ok (0, false) ↔
      (strconv.ParseInt s).2 ≠ none ∧ (strconv.ParseFloat s).2 ≠ none) ∧
    (c.GetFloat key = .ok (Float64.zero, false) ↔ (strconv.ParseFloat s).2 ≠ none) ∧
    (c.GetBool key = .ok (false, false) ↔ (strconv.ParseBool s).2 ≠ none) := by
  rw [GetInt_of_str undef c key s hget, GetFloat_of_str c key s hget,
    GetBool_of_str c key s hget]
  refine ⟨?_, ?_, ?_⟩
  · rcases strconv.ParseInt s with ⟨i, _ | e⟩
    · simp
    · rcases strconv.ParseFloat s with ⟨f, _ | e'⟩ <;> simp
  · rcases strconv.ParseFloat s with ⟨f, _ | e'⟩ <;> simp
  · rcases strconv.ParseBool s with ⟨b, _ | e⟩ <;> simp

/-- C6, the code at the inputs of `file_config_test.go`: a raw value that is natively the
string `36` (a quoted YAML integer) is coerced by `GetInt` to `(36, true)`, the string
`11.65425` by `GetFloat` to the float of that value, and the string `true` by `GetBool` to
`(true, true)`; none of the three returns the zero value with found false. -/
theorem typed_accessors_coerce_strings :
    (∀ undef, Util.GetInt undef (constUtil (.str "36")) "not-integer-value"
      = .ok (36, true)) ∧
    Util.GetFloat (constUtil (.str "11.65425")) "not-float-value"
      = .ok (.fin false 6560759494660325 (-49), true) ∧
    Util.GetBool (constUtil (.str "true")) "not-boolean-value" = .ok (true, true) := by
  refine ⟨fun undef => ?_, ?_, ?_⟩
  · rw [GetInt_of_str undef _ _ "36" (constUtil_Get _ _)]
    rfl
  · rw [GetFloat_of_str _ _ "11.65425" (constUtil_Get _ _)]
    rfl
  · rw [GetBool_of_str _ _ "true" (constUtil_Get _ _)]
    rfl

/-- `ParseBool` accepts exactly twelve spellings. -/
theorem strconv.ParseBool_spec (s : String) :
    (strconv.ParseBool s = (true, none) ↔ s ∈ ["1", "t", "T", "TRUE", "true", "True"]) ∧
    (strconv.ParseBool s = (false, none) ↔ s ∈ ["0", "f", "F", "FALSE", "false", "False"]) ∧
    (s ∉ ["1", "t", "T", "TRUE", "true", "True", "0", "f", "F", "FALSE", "false", "False"] →
      strconv.ParseBool s = (false, some .ErrSyntax)) := by
  simp only [strconv.ParseBool, List.mem_cons, List.mem_singleton, List.not_mem_nil, or_false]
  refine ⟨?_, ?_, ?_⟩
  · constructor
    · intro h
      split at h
      · rename_i h1
        tauto
      · split at h <;> simp at h
    · intro h
      rw [if_pos (by tauto)]
  · constructor
    · intro h
      split at h
      · simp at h
      · split at h
        · rename_i h1
          tauto
        · simp at h
    · intro h
      have hne : ¬ (s = "1" ∨ s = "t" ∨ s = "T" ∨ s = "true" ∨ s = "TRUE" ∨ s = "True") := by
        rcases h with rfl | rfl | rfl | rfl | rfl | rfl <;> decide
      rw [if_neg hne, if_pos (by tauto)]
  · intro h
    rw [if_neg (by tauto), if_neg (by tauto)]

/-- C7 (as amended): on a raw value that is the string `s`, `GetBool` returns
`(true, true)` exactly when `s` is one of `1`, `t`, `T`, `TRUE`, `true`, `True`, returns
`(false, true)` exactly when `s` is one of `0`, `f`, `F`, `FALSE`, `false`, `False`, and
returns `(false, false)` for every other string; on a raw value that is natively the
boolean `b` it returns `(b, true)`. -/
theorem GetBool_string_or_bool (c : Util) (key : String) (x : RawValue)
    (hget : c.Get key = .ok x) :
    (∀ s, x = .str s →
      (c.GetBool key = .ok (true, true) ↔ s ∈ ["1", "t", "T", "TRUE", "true", "True"]) ∧
      (c.GetBool key = .ok (false, true) ↔
        s ∈ ["0", "f", "F", "FALSE", "false", "False"]) ∧
      (s ∉ ["1", "t", "T", "TRUE", "true", "True", "0", "f", "F", "FALSE", "false", "False"]
        → c.GetBool key = .ok (false, false))) ∧
    (∀ b, x = .bool b → c.GetBool key = .ok (b, true)) := by
  constructor
  · rintro s rfl
    obtain ⟨ht, hf, hn⟩ := strconv.ParseBool_spec s
    rw [GetBool_of_str c key s hget]
    refine ⟨?_, ?_, ?_⟩
    · rw [← ht]
      rcases strconv.ParseBool s with ⟨b, _ | e⟩ <;> simp
    · rw [← hf]
      rcases strconv.ParseBool s with ⟨b, _ | e⟩ <;> simp
    · intro h
      rw [hn h]
  · rintro b rfl
    simp only [Util.GetBool, hget]

/-- C7, at concrete inputs: the string `TRUE`, the string `f`, the string `yes`, and the
native boolean `false`. -/
theorem GetBool_string_or_bool_witness :
    Util.GetBool (constUtil (.str "TRUE")) "boolean-value-1" = .ok (true, true) ∧
    Util.GetBool (constUtil (.str "f")) "boolean-value-2" = .ok (false, true) ∧
    Util.GetBool (constUtil (.str "yes")) "boolean-value-3" = .ok (false, false) ∧
    Util.GetBool (constUtil (.bool false)) "boolean-value-4" = .ok (false, true) :=
  ⟨((GetBool_string_or_bool (constUtil (.str "TRUE")) "boolean-value-1" _
      (constUtil_Get _ _)).1 "TRUE" rfl).1.mpr (by decide),
    ((GetBool_string_or_bool (constUtil (.str "f")) "boolean-value-2" _
      (constUtil_Get _ _)).1 "f" rfl).2.1.mpr (by decide),
    ((GetBool_string_or_bool (constUtil (.str "yes")) "boolean-value-3" _
      (constUtil_Get _ _)).1 "yes" rfl).2.2 (by decide),
    (GetBool_string_or_bool (constUtil (.bool false)) "boolean-value-4" _
      (constUtil_Get _ _)).2 false rfl⟩

/-- C7 as stated fails in both directions: `GetBool` succeeds on the string `1`, which is
neither `true` nor `false` in any case, and it fails on the string `tRUE`, which equals
`true` under case-insensitive comparison. -/
theorem GetBool_string_counterexample :
    Util.GetBool (constUtil (.str "1")) "k" = .ok (true, true) ∧
    equalFold "1" "true" = false ∧ equalFold "1" "false" = false ∧
    Util.GetBool (constUtil (.str "tRUE")) "k" = .ok (false, false) ∧
    equalFold "tRUE" "true" = true := by
  refine ⟨?_, by decide, by decide, ?_, by decide⟩
  · rw [GetBool_of_str _ _ "1" (constUtil_Get _ _)]
    rfl
  · rw [GetBool_of_str _ _ "tRUE" (constUtil_Get _ _)]
    rfl

/-- C8: on a raw value of any of the twelve numeric types (whatever the number, 1
included) `GetBool` returns `(false, false)`. -/
theorem GetBool_numeric (c : Util) (key : String) (x : RawValue)
    (hget : c.Get key = .ok x) (hnum : x.isNumeric = true) :
    c.GetBool key = .ok (false, false) := by
  cases x <;> simp_all [RawValue.isNumeric, Util.GetBool]

/-- C8, at concrete inputs: the integer 1, the `float64` 1, and the `uint8` 255. -/
theorem GetBool_numeric_witness :
    Util.GetBool (constUtil (.int .int 1)) "not-boolean-value-2" = .ok (false, false) ∧
    Util.GetBool (constUtil (.float64 (.fin false 1 0))) "not-boolean-value-2"
      = .ok (false, false) ∧
    Util.GetBool (constUtil (.int .uint8 255)) "not-boolean-value-2" = .ok (false, false) :=
  ⟨GetBool_numeric _ _ (.int .int 1) (constUtil_Get _ _) rfl,
    GetBool_numeric _ _ (.float64 (.fin false 1 0)) (constUtil_Get _ _) rfl,
    GetBool_numeric _ _ (.int .uint8 255) (constUtil_Get _ _) rfl⟩

/-- C9: `GetString` returns `(s, true)` if and only if the resolved raw value is natively
the string `s`, and `("", false)` for every raw value that is not a string (absent,
boolean, numeric, nested mapping, sequence). -/
theorem GetString_iff (c : Util) (key : String) (x : RawValue)
    (hget : c.Get key = .ok x) :
    (∀ s, c.GetString key = .ok (s, true) ↔ x = .str s) ∧
    ((∀ s, x ≠ .str s) → c.GetString key = .ok ("", false)) := by
  cases x <;> simp_all [Util.GetString]

/-- C9, at concrete inputs: the empty string is found, a float is not a string. -/
theorem GetString_iff_witness :
    Util.GetString (constUtil (.str "")) "empty-string-value" = .ok ("", true) ∧
    Util.GetString (constUtil (.float64 (.fin false 6560759494660325 (-49)))) "float-value"
      = .ok ("", false) :=
  ⟨((GetString_iff (constUtil (.str "")) "empty-string-value" _ (constUtil_Get _ _)).1
      "").mpr rfl,
    (GetString_iff (constUtil (.float64 (.fin false 6560759494660325 (-49)))) "float-value"
      _ (constUtil_Get _ _)).2 (fun s h => by cases h)⟩

/-- Once `Util.Get` has returned, each typed accessor returns. -/
theorem accessors_return (undef : Float64 → Int) (c : Util) (key : String) (x : RawValue)
    (hget : c.Get key = .ok x) :
    (∃ r, c.GetBool key = .ok r) ∧ (∃ r, c.GetInt undef key = .ok r) ∧
    (∃ r, c.GetFloat key = .ok r) ∧ (∃ r, c.GetString key = .ok r) := by
  refine ⟨?_, ?_, ?_, ?_⟩
  · simp only [Util.GetBool, hget]
    repeat' split
    all_goals first | exact ⟨_, rfl⟩ | simp_all
  · simp only [Util.GetInt, hget]
    repeat' split
    all_goals exact ⟨_, rfl⟩
  · simp only [Util.GetFloat, hget]
    repeat' split
    all_goals exact ⟨_, rfl⟩
  · simp only [Util.GetString, hget]
    repeat' split
    all_goals first | exact ⟨_, rfl⟩ | simp_all

/-- C10: for an absent key each of the four accessors returns the zero value of its type
with found false; each returns the same for a nested mapping (and for a sequence); and for
whatever raw value, each accessor returns a result, and when that result reports found
false it is that same pair. -/
theorem accessor_failure_is_absence (undef : Float64 → Int) (c : Util) (key : String)
    (x : RawValue) (hget : c.Get key = .ok x) :
    ((x = .nil ∨ (∃ m, x = .map m) ∨ (∃ l, x = .slice l)) →
      c.GetBool key = .ok (false, false) ∧ c.GetInt undef key = .ok (0, false) ∧
      c.GetFloat key = .ok (Float64.zero, false) ∧ c.GetString key = .ok ("", false)) ∧
    (∃ r, c.GetBool key = .ok r ∧ (r.2 = false → r = (false, false))) ∧
    (∃ r, c.GetInt undef key = .ok r ∧ (r.2 = false → r = (0, false))) ∧
    (∃ r, c.GetFloat key = .ok r ∧ (r.2 = false → r = (Float64.zero, false))) ∧
    (∃ r, c.GetString key = .ok r ∧ (r.2 = false → r = ("", false))) := by
  obtain ⟨⟨rb, hb⟩, ⟨ri, hi⟩, ⟨rf, hf⟩, ⟨rs, hs⟩⟩ := accessors_return undef c key x hget
  refine ⟨?_, ⟨rb, hb, ?_⟩, ⟨ri, hi, ?_⟩, ⟨rf, hf, ?_⟩, ⟨rs, hs, ?_⟩⟩
  · rintro (rfl | ⟨m, rfl⟩ | ⟨l, rfl⟩) <;>
      simp [Util.GetBool, Util.GetInt, Util.GetFloat, Util.GetString, hget, assertAsNumber]
  · intro hfalse
    have hr := hb
    simp only [Util.GetBool, hget] at hr
    split at hr
    · cases hr
    · cases hr
      simp at hfalse
    · split at hr
      · split at hr
        · cases hr
          simp at hfalse
        · cases hr
          rfl
      · cases hr
        rfl
  · intro hfalse
    have hr := hi
    simp only [Util.GetInt, hget] at hr
    split at hr
    · cases hr
      simp at hfalse
    · split at hr
      · split at hr
        · cases hr
          simp at hfalse
        · split at hr
          · cases hr
            simp at hfalse
          · cases hr
            rfl
      · cases hr
        rfl
  · intro hfalse
    have hr := hf
    simp only [Util.GetFloat, hget] at hr
    split at hr
    · cases hr
      simp at hfalse
    · split at hr
      · split at hr
        · cases hr
          simp at hfalse
        · cases hr
          rfl
      · cases hr
        rfl
  · intro hfalse
    have hr := hs
    simp only [Util.GetString, hget] at hr
    split at hr
    · cases hr
    · cases hr
      simp at hfalse
    · cases hr
      rfl

/-- C10, at concrete inputs: a nested mapping under the key, and a string that is no
number, give what the absent key gives. -/
theorem accessor_failure_is_absence_witness :
    Util.GetInt (fun _ => 0) (constUtil (.map [("ip", .str "127.0.0.2")])) "some-config"
      = Util.GetInt (fun _ => 0) (constUtil .nil) "some-config" ∧
    Util.GetString (constUtil (.map [("ip", .str "127.0.0.2")])) "some-config"
      = Util.GetString (constUtil .nil) "some-config" ∧
    Util.GetBool (constUtil (.map [("ip", .str "127.0.0.2")])) "some-config"
      = Util.GetBool (constUtil .nil) "some-config" ∧
    Util.GetFloat (constUtil (.map [("ip", .str "127.0.0.2")])) "some-config"
      = Util.GetFloat (constUtil .nil) "some-config" := by
  have hm := (accessor_failure_is_absence (fun _ => 0)
    (constUtil (.map [("ip", .str "127.0.0.2")])) "some-config" _ (constUtil_Get _ _)).1
    (Or.inr (Or.inl ⟨_, rfl⟩))
  have hn := (accessor_failure_is_absence (fun _ => 0)
    (constUtil .nil) "some-config" _ (constUtil_Get _ _)).1 (Or.inl rfl)
  exact ⟨hm.2.1.trans hn.2.1.symm, hm.2.2.2.trans hn.2.2.2.symm, hm.1.trans hn.1.symm,
    hm.2.2.1.trans hn.2.2.1.symm⟩

/-! ## The environment source -/

theorem alnum_iff (c : Char) :
    (('a' ≤ c ∧ c ≤ 'z') ∨ ('A' ≤ c ∧ c ≤ 'Z') ∨ ('0' ≤ c ∧ c ≤ '9')) ↔
      c.isAlphanum = true := by
  simp only [Char.isAlphanum, Char.isAlpha, Char.isUpper, Char.isLower, Char.isDigit,
    Bool.or_eq_true, Bool.and_eq_true, decide_eq_true_eq, Char.le_def, UInt32.le_def,
    ge_iff_le]
  constructor
  · rintro (h | h | h)
    · exact Or.inl (Or.inr h)
    · exact Or.inl (Or.inl h)
    · exact Or.inr h
  · rintro ((h | h) | h)
    · exact Or.inr (Or.inl h)
    · exact Or.inl h
    · exact Or.inr (Or.inr h)

theorem char_le_iff (c d : Char) : c ≤ d ↔ c.toNat ≤ d.toNat := by
  simp only [Char.le_def, UInt32.le_def, Char.toNat, UInt32.toNat]
  exact Iff.rfl

theorem toList_mk (l : List Char) : (String.mk l).toList = l := rfl

theorem normalizeKey_eq (key : String) :
    normalizeKey key = String.mk (key.toList.map (fun c => if c.isAlphanum then c else '_')) := by
  simp only [normalizeKey, alnum_iff]

/-- On a letter or digit `unicode.ToUpper` is the ASCII upper case, whatever the table. -/
theorem unicode.ToUpper_alnum (tbl : Char → Char) (c : Char) (h : c.isAlphanum = true) :
    unicode.ToUpper tbl c = c.toUpper := by
  have hr := (alnum_iff c).mpr h
  simp only [char_le_iff] at hr
  have h97 : 'a'.toNat = 97 := rfl
  have h122 : 'z'.toNat = 122 := rfl
  have h65 : 'A'.toNat = 65 := rfl
  have h90 : 'Z'.toNat = 90 := rfl
  have h48 : '0'.toNat = 48 := rfl
  have h57 : '9'.toNat = 57 := rfl
  rw [h97, h122, h65, h90, h48, h57] at hr
  have hle : c.toNat ≤ 127 := by omega
  simp only [unicode.ToUpper, hle, if_true, char_le_iff, h97, h122, Char.toUpper, ge_iff_le]

theorem normalizeKeyUpper_eq (tbl : Char → Char) (key : String) :
    normalizeKeyUpper tbl key
      = String.mk (key.toList.map (fun c => if c.isAlphanum then c.toUpper else '_')) := by
  simp only [normalizeKeyUpper, strings.ToUpper, normalizeKey_eq, toList_mk, List.map_map]
  congr 1
  apply List.map_congr_left
  intro c _
  simp only [Function.comp]
  by_cases h : c.isAlphanum = true
  · simp only [h, if_true, unicode.ToUpper_alnum tbl c h]
  · simp only [h, Bool.false_eq_true, if_false]
    rfl

theorem parseKeyLegacy1_eq (tbl : Char → Char) (key : String) :
    parseKeyLegacy1 tbl key
      = strings.ToUpper tbl (String.mk ((key.toList.filter
          (fun c => c ≠ '[' ∧ c ≠ ']' ∧ c ≠ '-')).map (fun c => if c = '.' then '_' else c))) := by
  simp only [parseKeyLegacy1, strings.RemoveChar, strings.ReplaceChar, toList_mk,
    List.filter_filter]
  congr 3
  apply List.filter_congr
  intro c _
  by_cases h1 : c = '[' <;> by_cases h2 : c = ']' <;> by_cases h3 : c = '-' <;> simp [h1, h2, h3]

/-- C11: for every key `getPossibleNames` returns five names, in this order: the key; the
key with every character that is not an ASCII letter or digit replaced by `_` (one `_` for
one character, multi-byte or not); that in upper case; the upper case of the key without
its `[`, `]`, `-` and with `_` for every `.`; the upper case of the key with `_` for every
`.`. For `lev1.lev2[5].LEV3` and for `v€ry-c00l` they are the names of `TestEnvKey`. -/
theorem getPossibleNames_five (tbl : Char → Char) (key : String) :
    getPossibleNames tbl key =
      [key,
        String.mk (key.toList.map (fun c => if c.isAlphanum then c else '_')),
        String.mk (key.toList.map (fun c => if c.isAlphanum then c.toUpper else '_')),
        strings.ToUpper tbl (String.mk ((key.toList.filter
          (fun c => c ≠ '[' ∧ c ≠ ']' ∧ c ≠ '-')).map (fun c => if c = '.' then '_' else c))),
        strings.ToUpper tbl (String.mk (key.toList.map (fun c => if c = '.' then '_' else c)))]
    ∧ getPossibleNames tbl "lev1.lev2[5].LEV3" =
      ["lev1.lev2[5].LEV3", "lev1_lev2_5__LEV3", "LEV1_LEV2_5__LEV3", "LEV1_LEV25_LEV3",
        "LEV1_LEV2[5]_LEV3"]
    ∧ (getPossibleNames tbl "v€ry-c00l").take 3 = ["v€ry-c00l", "v_ry_c00l", "V_RY_C00L"] := by
  refine ⟨?_, rfl, rfl⟩
  simp only [getPossibleNames, normalizeKey_eq, normalizeKeyUpper_eq, parseKeyLegacy1_eq,
    parseKeyLegacy2, strings.ReplaceChar]

/-- C12: for every environment and key, the environment source returns the value of the
first of the five possible names, in their order, that is set in the environment, and nil
exactly when none of the five is set; a variable named by the raw key itself wins. -/
theorem envConfigSource_Get_first_present (w : World) (key : String) :
    (∀ v, envConfigSource.Get w key = .str v ↔
      ∃ pre name post, getPossibleNames w.upperTable key = pre ++ name :: post ∧
        w.lookupEnv name = some v ∧ ∀ n ∈ pre, w.lookupEnv n = none) ∧
    (envConfigSource.Get w key = .nil ↔
      ∀ n ∈ getPossibleNames w.upperTable key, w.lookupEnv n = none) ∧
    (∀ v, w.lookupEnv key = some v → envConfigSource.Get w key = .str v) ∧
    (∀ r, (newEnvConfigSource w).Get key = .ok r ↔ r = envConfigSource.Get w key) := by
  refine ⟨?_, ?_, ?_, ?_⟩
  · intro v
    rw [← List.findSome?_eq_some_iff]
    simp only [envConfigSource.Get]
    cases (getPossibleNames w.upperTable key).findSome? w.lookupEnv <;> simp
  · rw [← List.findSome?_eq_none_iff]
    simp only [envConfigSource.Get]
    cases (getPossibleNames w.upperTable key).findSome? w.lookupEnv <;> simp
  · intro v hv
    simp [envConfigSource.Get, getPossibleNames, List.findSome?_cons, hv]
  · intro r
    simp only [newEnvConfigSource, Except.ok.injEq]
    exact eq_comm

/-! ## The file source -/

theorem strings.splitLoop_intercalate (sep : Char) (cs cur : List Char) :
    List.intercalate [sep] ((strings.splitLoop sep cs cur).map String.toList)
      = cur.reverse ++ cs := by
  induction cs generalizing cur with
  | nil => simp [strings.splitLoop, List.intercalate, toList_mk]
  | cons c cs ih =>
    simp only [strings.splitLoop]
    split
    · rename_i hc
      have ih' := ih []
      obtain ⟨x, xs, hx⟩ : ∃ x xs, strings.splitLoop sep cs [] = x :: xs := by
        cases h : strings.splitLoop sep cs [] with
        | nil => exact absurd h (strings.splitLoop_ne_nil _ _ _)
        | cons x xs => exact ⟨x, xs, rfl⟩
      rw [hx] at ih' ⊢
      simp only [List.intercalate, List.map_cons, List.intersperse, toList_mk,
        List.flatten_cons, List.reverse_nil, List.nil_append] at ih' ⊢
      rw [ih', hc]
      simp
    · rw [ih]
      simp

theorem strings.splitLoop_no_sep (sep : Char) (cs cur : List Char) (hcur : sep ∉ cur) :
    ∀ seg ∈ strings.splitLoop sep cs cur, sep ∉ seg.toList := by
  induction cs generalizing cur with
  | nil =>
    intro seg hseg
    simp only [strings.splitLoop, List.mem_singleton] at hseg
    subst hseg
    simpa [toList_mk] using hcur
  | cons c cs ih =>
    intro seg hseg
    simp only [strings.splitLoop] at hseg
    split at hseg
    · rcases List.mem_cons.mp hseg with rfl | hseg
      · simpa [toList_mk] using hcur
      · exact ih [] (by simp) seg hseg
    · rename_i hc
      refine ih (c :: cur) ?_ seg hseg
      intro hmem
      rcases List.mem_cons.mp hmem with rfl | hmem
      · exact hc rfl
      · exact hcur hmem

/-- `strings.Split` cuts at the separators: the parts joined by the separator give the
string back, and no part holds a separator. -/
theorem strings.Split_spec (s : String) (sep : Char) :
    List.intercalate [sep] ((strings.Split s sep).map String.toList) = s.toList ∧
    ∀ seg ∈ strings.Split s sep, sep ∉ seg.toList :=
  ⟨by simpa using strings.splitLoop_intercalate sep s.toList [],
    strings.splitLoop_no_sep sep s.toList [] (by simp)⟩

/-- The walk of `fileConfigSource.Get` over the parts `init ++ [last]`. -/
theorem fileConfigSource.walk_eq (init : List String) (last : String)
    (val : Option (List (String × RawValue))) :
    fileConfigSource.walk (init ++ [last]) val =
      .ok (match descend init val with
        | some m => mapIndex (some m) last
        | none => .nil) := by
  induction init generalizing val with
  | nil =>
    cases val <;> simp [fileConfigSource.walk, descend, mapIndex]
  | cons part rest ih =>
    obtain ⟨r, rs, hr⟩ : ∃ r rs, rest ++ [last] = r :: rs := by
      cases rest with
      | nil => exact ⟨last, [], rfl⟩
      | cons r rs => exact ⟨r, rs ++ [last], rfl⟩
    rw [List.cons_append, hr, fileConfigSource.walk]
    · cases val with
      | none => simp [descend]
      | some m =>
        simp only [Option.isNone_some, Bool.false_eq_true, if_false, mapIndex, descend]
        cases hl : m.lookup part with
        | none => simp
        | some v =>
          cases v
          all_goals simp only []
          rw [← hr, ih]
          rfl
    · intro h
      cases h

theorem descend_append (pre rest : List String) (val : Option (List (String × RawValue))) :
    descend (pre ++ rest) val =
      match descend pre val with
      | some m => descend rest (some m)
      | none => none := by
  induction pre generalizing val with
  | nil => cases val <;> cases rest <;> simp [descend]
  | cons part pre ih =>
    cases val with
    | none => simp [descend]
    | some m =>
      simp only [List.cons_append, descend]
      cases hl : m.lookup part with
      | none => simp
      | some v =>
        cases v
        all_goals try rfl
        exact ih _

/-- C13: for every parsed mapping and key, the file source splits the key at its dots into
parts `init ++ [last]` (which joined by dots give the key back, none holding a dot) and
returns the entry of `last` in the mapping reached by following `init` from the root; it
returns nil when a part of `init` is missing or is bound to something that is not a
mapping. Against the six level deep mapping of `TestFileConfigDeep` the key
`deep-config.l1.l2.l_3.l-4.l 5.6l` gives the scalar. -/
theorem fileConfigSource_Get_follows_parts (config : Option (List (String × RawValue)))
    (key : String) :
    ∃ init last, strings.Split key '.' = init ++ [last] ∧
      List.intercalate ['.'] ((init ++ [last]).map String.toList) = key.toList ∧
      (∀ seg ∈ init ++ [last], '.' ∉ seg.toList) ∧
      fileConfigSource.Get config key =
        .ok (match descend init config with
          | some m => mapIndex (some m) last
          | none => .nil) ∧
      (∀ pre part post m, init = pre ++ part :: post → descend pre config = some m →
        (∀ sub, m.lookup part ≠ some (.map sub)) →
        fileConfigSource.Get config key = .ok .nil) ∧
      fileConfigSource.Get (some deepConfig) "deep-config.l1.l2.l_3.l-4.l 5.6l"
        = .ok (.float64 (.fin false 6 0)) := by
  obtain ⟨init, last, hsplit⟩ : ∃ init last, strings.Split key '.' = init ++ [last] := by
    have hne : strings.Split key '.' ≠ [] := strings.splitLoop_ne_nil _ _ _
    exact ⟨_, _, (List.dropLast_append_getLast hne).symm⟩
  have hspec := strings.Split_spec key '.'
  rw [hsplit] at hspec
  have hget : fileConfigSource.Get config key =
      .ok (match descend init config with
        | some m => mapIndex (some m) last
        | none => .nil) := by
    rw [fileConfigSource.Get, hsplit, fileConfigSource.walk_eq]
  refine ⟨init, last, hsplit, hspec.1, hspec.2, hget, ?_, rfl⟩
  intro pre part post m hinit hpre hpart
  have hnone : descend init config = none := by
    rw [hinit, descend_append, hpre]
    cases hl : m.lookup part with
    | none => simp [descend, hl]
    | some v =>
      cases v
      all_goals try simp [descend, hl]
      exact absurd hl (hpart _)
  rw [hget, hnone]

/-! ## The watch loops -/

theorem wrapInt64_of_range (x : Int) (hlo : minInt64 ≤ x) (hhi : x ≤ maxInt64) :
    wrapInt64 x = x := by
  simp only [minInt64, maxInt64] at hlo hhi
  simp only [wrapInt64]
  omega

/-- The arithmetic of a failed iteration when nothing overflows. -/
theorem retry_step (d max : Int) (h0 : 0 ≤ d) (hd : d ≤ max) (hmax : max ≤ 9223372036854) :
    (if wrapInt64 (d * 2) > max then max else wrapInt64 (d * 2))
      = (if 2 * d ≤ max then 2 * d else max) ∧
    wrapInt64 (d * 1000000) = d * 1000000 := by
  have h2 : wrapInt64 (d * 2) = d * 2 :=
    wrapInt64_of_range _ (by simp only [minInt64]; omega) (by simp only [maxInt64]; omega)
  have hm : wrapInt64 (d * 1000000) = d * 1000000 :=
    wrapInt64_of_range _ (by simp only [minInt64]; omega) (by simp only [maxInt64]; omega)
  refine ⟨?_, hm⟩
  rw [h2]
  by_cases h : 2 * d ≤ max
  · rw [if_pos h, if_neg (by omega)]
    omega
  · rw [if_neg h, if_pos (by omega)]

theorem backoffDelay_bounds (start max : Int) (h0 : 0 ≤ start) (hsm : start ≤ max) (k : Nat) :
    start ≤ backoffDelay start max k ∧ backoffDelay start max k ≤ max := by
  induction k with
  | zero => exact ⟨le_refl _, hsm⟩
  | succ k ih =>
    simp only [backoffDelay]
    split
    · constructor <;> omega
    · exact ⟨hsm, le_refl _⟩

theorem sleepsOf_append (e₁ e₂ : List WatchEffect) :
    sleepsOf (e₁ ++ e₂) = sleepsOf e₁ ++ sleepsOf e₂ := by
  induction e₁ with
  | nil => rfl
  | cons e rest ih =>
    cases e <;> simp [sleepsOf, ih]

theorem callbackValues_append (e₁ e₂ : List WatchEffect) :
    callbackValues (e₁ ++ e₂) = callbackValues e₁ ++ callbackValues e₂ := by
  induction e₁ with
  | nil => rfl
  | cons e rest ih =>
    cases e <;> simp [callbackValues, ih]

/-- A failed iteration of the Consul watch. -/
theorem consul_watch_err (c : consulConfigSource) (cl : ConsulClient)
    (hc : c.client = some cl) (a : WatchCall) :
    c.watch a .err =
      ([.query (path.Join [c.nspace, strings.ReplaceChar a.key '.' '/']) a.waitIndex,
          .sleep (wrapInt64 (a.retryDelay * 1000000))],
        .ok ⟨a.source, strings.ReplaceChar a.key '.' '/', "",
          if wrapInt64 (a.retryDelay * 2) > c.maxRetryDelay then c.maxRetryDelay
          else wrapInt64 (a.retryDelay * 2), 0⟩) := by
  simp only [consulConfigSource.watch, hc]

/-- A successful iteration of the Consul watch whose meta data is not nil when a pair is
returned. -/
theorem consul_watch_ok (c : consulConfigSource) (cl : ConsulClient)
    (hc : c.client = some cl) (a : WatchCall) (pair : Option String) (meta : Option Nat)
    (hmeta : pair ≠ none → meta ≠ none) :
    c.watch a (.ok pair meta) =
      (.query (path.Join [c.nspace, strings.ReplaceChar a.key '.' '/']) a.waitIndex ::
          (if pair.getD "" ≠ a.previousValue then
            [.callback (strings.ReplaceChar a.key '.' '/') (pair.getD "")] else []),
        .ok ⟨a.source, strings.ReplaceChar a.key '.' '/', pair.getD "", c.startRetryDelay,
          meta.getD 0⟩) := by
  cases pair with
  | none =>
    cases meta <;> simp [consulConfigSource.watch, hc, eq_comm]
  | some v =>
    cases meta with
    | none => exact absurd rfl (hmeta (by simp))
    | some li => simp [consulConfigSource.watch, hc]

/-- A failed iteration of the etcd watch. -/
theorem etcd_watch_err (c : etcdConfigSource) (cl : EtcdClient)
    (hc : c.client = some cl) (a : WatchCall) :
    c.watch a .err =
      ([.query (path.Join [c.nspace, strings.ReplaceChar a.key '.' '/']) 0,
          .sleep (wrapInt64 (a.retryDelay * 1000000))],
        .ok ⟨a.source, strings.ReplaceChar a.key '.' '/', "",
          if wrapInt64 (a.retryDelay * 2) > c.maxRetryDelay then c.maxRetryDelay
          else wrapInt64 (a.retryDelay * 2), 0⟩) := by
  simp only [etcdConfigSource.watch, hc]

/-- A successful iteration of the etcd watch. -/
theorem etcd_watch_ok (c : etcdConfigSource) (cl : EtcdClient)
    (hc : c.client = some cl) (a : WatchCall) (value : String) :
    c.watch a (.ok value) =
      (.query (path.Join [c.nspace, strings.ReplaceChar a.key '.' '/']) 0 ::
          (if value ≠ a.previousValue then
            [.callback (strings.ReplaceChar a.key '.' '/') value] else []),
        .ok ⟨a.source, strings.ReplaceChar a.key '.' '/', value, c.startRetryDelay, 0⟩) := by
  simp only [etcdConfigSource.watch, hc]

theorem sleepsOf_query_callback (path : String) (i : Nat) (p : Prop) [Decidable p]
    (key value : String) :
    sleepsOf (.query path i :: (if p then [.callback key value] else [])) = [] := by
  split <;> rfl

/-- No iteration of the Consul watch that is not a failure sleeps. -/
theorem consul_watch_ok_sleeps (c : consulConfigSource) (a : WatchCall)
    (pair : Option String) (meta : Option Nat) :
    sleepsOf (c.watch a (.ok pair meta)).1 = [] := by
  cases hc : c.client with
  | none => simp [consulConfigSource.watch, hc, sleepsOf]
  | some cl =>
    cases pair <;> cases meta <;>
      simp only [consulConfigSource.watch, hc, sleepsOf_query_callback]

/-- After an iteration of the Consul watch that is not a failure the retry delay is the
start delay. -/
theorem consul_watch_ok_delay (c : consulConfigSource) (a a' : WatchCall)
    (pair : Option String) (meta : Option Nat) (h : (c.watch a (.ok pair meta)).2 = .ok a') :
    a'.retryDelay = c.startRetryDelay := by
  cases hc : c.client with
  | none => simp [consulConfigSource.watch, hc] at h
  | some cl =>
    cases pair <;> cases meta <;> simp only [consulConfigSource.watch, hc] at h
    all_goals first | (cases h; rfl) | (cases h)

theorem consul_failures_backoff (c : consulConfigSource) (cl : ConsulClient)
    (hc : c.client = some cl) (h0 : 0 ≤ c.startRetryDelay)
    (hsm : c.startRetryDelay ≤ c.maxRetryDelay) (hmax : c.maxRetryDelay ≤ 9223372036854)
    (k j : Nat) (a : WatchCall)
    (ha : a.retryDelay = backoffDelay c.startRetryDelay c.maxRetryDelay j) :
    sleepsOf (c.watchLoop a (List.replicate k .err)).1 =
      (List.range k).map
        (fun i => backoffDelay c.startRetryDelay c.maxRetryDelay (j + i) * 1000000) ∧
    ∃ a', (c.watchLoop a (List.replicate k .err)).2 = .ok a' ∧
      a'.retryDelay = backoffDelay c.startRetryDelay c.maxRetryDelay (j + k) := by
  induction k generalizing j a with
  | zero => exact ⟨rfl, a, rfl, ha⟩
  | succ k ih =>
    obtain ⟨hlo, hhi⟩ := backoffDelay_bounds _ _ h0 hsm j
    rw [← ha] at hlo hhi
    obtain ⟨hnext, hsleep⟩ := retry_step a.retryDelay c.maxRetryDelay (by omega) hhi hmax
    have hstep := consul_watch_err c cl hc a
    rw [hnext, hsleep] at hstep
    have hnext' : (if 2 * a.retryDelay ≤ c.maxRetryDelay then 2 * a.retryDelay
        else c.maxRetryDelay) = backoffDelay c.startRetryDelay c.maxRetryDelay (j + 1) := by
      simp only [backoffDelay, ha]
    obtain ⟨ihs, a', iha, ihd⟩ := ih (j + 1)
      ⟨a.source, strings.ReplaceChar a.key '.' '/', "",
        if 2 * a.retryDelay ≤ c.maxRetryDelay then 2 * a.retryDelay else c.maxRetryDelay, 0⟩
      hnext'
    simp only [List.replicate_succ, consulConfigSource.watchLoop, hstep, sleepsOf_append]
    refine ⟨?_, a', iha, by rw [ihd]; congr 1; omega⟩
    rw [ihs, List.range_succ_eq_map, List.map_cons, List.map_map]
    simp only [sleepsOf, ha, Nat.add_zero, List.singleton_append, List.cons.injEq, true_and]
    apply List.map_congr_left
    intro i _
    simp only [Function.comp]
    congr 2
    omega

theorem consul_sleeps_within (c : consulConfigSource) (cl : ConsulClient)
    (hc : c.client = some cl) (h0 : 0 ≤ c.startRetryDelay)
    (hsm : c.startRetryDelay ≤ c.maxRetryDelay) (hmax : c.maxRetryDelay ≤ 9223372036854)
    (os : List ConsulOutcome) (a : WatchCall)
    (hlo : c.startRetryDelay ≤ a.retryDelay) (hhi : a.retryDelay ≤ c.maxRetryDelay) :
    ∀ d ∈ sleepsOf (c.watchLoop a os).1,
      c.startRetryDelay * 1000000 ≤ d ∧ d ≤ c.maxRetryDelay * 1000000 := by
  induction os generalizing a with
  | nil => simp [consulConfigSource.watchLoop, sleepsOf]
  | cons o os ih =>
    cases o with
    | err =>
      obtain ⟨hnext, hsleep⟩ := retry_step a.retryDelay c.maxRetryDelay (by omega) hhi hmax
      have hstep := consul_watch_err c cl hc a
      rw [hnext, hsleep] at hstep
      simp only [consulConfigSource.watchLoop, hstep, sleepsOf_append]
      intro d hd
      rcases List.mem_append.mp hd with hd | hd
      · simp only [sleepsOf, List.mem_singleton] at hd
        subst hd
        constructor <;> omega
      · refine ih _ ?_ ?_ d hd
        · show c.startRetryDelay ≤ (if 2 * a.retryDelay ≤ c.maxRetryDelay then
            2 * a.retryDelay else c.maxRetryDelay)
          split <;> omega
        · show (if 2 * a.retryDelay ≤ c.maxRetryDelay then
            2 * a.retryDelay else c.maxRetryDelay) ≤ c.maxRetryDelay
          split <;> omega
    | ok pair meta =>
      have hs := consul_watch_ok_sleeps c a pair meta
      simp only [consulConfigSource.watchLoop]
      cases hw : c.watch a (.ok pair meta) with
      | mk eff r =>
        rw [hw] at hs
        cases r with
        | error e =>
          simp only [hs]
          intro d hd
          cases hd
        | ok a' =>
          have hd' := consul_watch_ok_delay c a a' pair meta (by rw [hw])
          simp only [sleepsOf_append, hs, List.nil_append]
          exact ih a' (by omega) (by omega)

/-- No iteration of the etcd watch that is not a failure sleeps. -/
theorem etcd_watch_ok_sleeps (c : etcdConfigSource) (a : WatchCall)
    (value : String) :
    sleepsOf (c.watch a (.ok value)).1 = [] := by
  cases hc : c.client with
  | none => simp [etcdConfigSource.watch, hc, sleepsOf]
  | some cl =>
    simp only [etcdConfigSource.watch, hc, sleepsOf_query_callback]

/-- After an iteration of the etcd watch that is not a failure the retry delay is the
start delay. -/
theorem etcd_watch_ok_delay (c : etcdConfigSource) (a a' : WatchCall)
    (value : String) (h : (c.watch a (.ok value)).2 = .ok a') :
    a'.retryDelay = c.startRetryDelay := by
  cases hc : c.client with
  | none => simp [etcdConfigSource.watch, hc] at h
  | some cl =>
    simp only [etcdConfigSource.watch, hc] at h
    cases h
    rfl

theorem etcd_failures_backoff (c : etcdConfigSource) (cl : EtcdClient)
    (hc : c.client = some cl) (h0 : 0 ≤ c.startRetryDelay)
    (hsm : c.startRetryDelay ≤ c.maxRetryDelay) (hmax : c.maxRetryDelay ≤ 9223372036854)
    (k j : Nat) (a : WatchCall)
    (ha : a.retryDelay = backoffDelay c.startRetryDelay c.maxRetryDelay j) :
    sleepsOf (c.watchLoop a (List.replicate k .err)).1 =
      (List.range k).map
        (fun i => backoffDelay c.startRetryDelay c.maxRetryDelay (j + i) * 1000000) ∧
    ∃ a', (c.watchLoop a (List.replicate k .err)).2 = .ok a' ∧
      a'.retryDelay = backoffDelay c.startRetryDelay c.maxRetryDelay (j + k) := by
  induction k generalizing j a with
  | zero => exact ⟨rfl, a, rfl, ha⟩
  | succ k ih =>
    obtain ⟨hlo, hhi⟩ := backoffDelay_bounds _ _ h0 hsm j
    rw [← ha] at hlo hhi
    obtain ⟨hnext, hsleep⟩ := retry_step a.retryDelay c.maxRetryDelay (by omega) hhi hmax
    have hstep := etcd_watch_err c cl hc a
    rw [hnext, hsleep] at hstep
    have hnext' : (if 2 * a.retryDelay ≤ c.maxRetryDelay then 2 * a.retryDelay
        else c.maxRetryDelay) = backoffDelay c.startRetryDelay c.maxRetryDelay (j + 1) := by
      simp only [backoffDelay, ha]
    obtain ⟨ihs, a', iha, ihd⟩ := ih (j + 1)
      ⟨a.source, strings.ReplaceChar a.key '.' '/', "",
        if 2 * a.retryDelay ≤ c.maxRetryDelay then 2 * a.retryDelay else c.maxRetryDelay, 0⟩
      hnext'
    simp only [List.replicate_succ, etcdConfigSource.watchLoop, hstep, sleepsOf_append]
    refine ⟨?_, a', iha, by rw [ihd]; congr 1; omega⟩
    rw [ihs, List.range_succ_eq_map, List.map_cons, List.map_map]
    simp only [sleepsOf, ha, Nat.add_zero, List.singleton_append, List.cons.injEq, true_and]
    apply List.map_congr_left
    intro i _
    simp only [Function.comp]
    congr 2
    omega

theorem etcd_sleeps_within (c : etcdConfigSource) (cl : EtcdClient)
    (hc : c.client = some cl) (h0 : 0 ≤ c.startRetryDelay)
    (hsm : c.startRetryDelay ≤ c.maxRetryDelay) (hmax : c.maxRetryDelay ≤ 9223372036854)
    (os : List EtcdOutcome) (a : WatchCall)
    (hlo : c.startRetryDelay ≤ a.retryDelay) (hhi : a.retryDelay ≤ c.maxRetryDelay) :
    ∀ d ∈ sleepsOf (c.watchLoop a os).1,
      c.startRetryDelay * 1000000 ≤ d ∧ d ≤ c.maxRetryDelay * 1000000 := by
  induction os generalizing a with
  | nil => simp [etcdConfigSource.watchLoop, sleepsOf]
  | cons o os ih =>
    cases o with
    | err =>
      obtain ⟨hnext, hsleep⟩ := retry_step a.retryDelay c.maxRetryDelay (by omega) hhi hmax
      have hstep := etcd_watch_err c cl hc a
      rw [hnext, hsleep] at hstep
      simp only [etcdConfigSource.watchLoop, hstep, sleepsOf_append]
      intro d hd
      rcases List.mem_append.mp hd with hd | hd
      · simp only [sleepsOf, List.mem_singleton] at hd
        subst hd
        constructor <;> omega
      · refine ih _ ?_ ?_ d hd
        · show c.startRetryDelay ≤ (if 2 * a.retryDelay ≤ c.maxRetryDelay then
            2 * a.retryDelay else c.maxRetryDelay)
          split <;> omega
        · show (if 2 * a.retryDelay ≤ c.maxRetryDelay then
            2 * a.retryDelay else c.maxRetryDelay) ≤ c.maxRetryDelay
          split <;> omega
    | ok value =>
      have hs := etcd_watch_ok_sleeps c a value
      simp only [etcdConfigSource.watchLoop]
      cases hw : c.watch a (.ok value) with
      | mk eff r =>
        rw [hw] at hs
        cases r with
        | error e =>
          simp only [hs]
          intro d hd
          cases hd
        | ok a' =>
          have hd' := etcd_watch_ok_delay c a a' value (by rw [hw])
          simp only [sleepsOf_append, hs, List.nil_append]
          exact ih a' (by omega) (by omega)

/-- C14 (as amended): for every configured start and maximum retry delay with
`0 ≤ start ≤ max ≤ 9223372036854` milliseconds (so that neither the doubling nor the
conversion to nanoseconds overflows), in both watch loops: `Subscribe` starts the watch
with the start delay; `k` consecutive failures from a call with the start delay sleep
`backoffDelay 0, ..., backoffDelay (k - 1)` milliseconds, that is the start value, then
twice the previous delay as long as that does not exceed the maximum, then the maximum;
every delay lies between start and maximum, over any sequence of outcomes; and after every
iteration that is not a failure the delay is the start value again. -/
theorem retry_delay_doubles_to_max (start max : Int) (h0 : 0 ≤ start) (hsm : start ≤ max)
    (hmax : max ≤ 9223372036854) :
    (∀ k, start ≤ backoffDelay start max k ∧ backoffDelay start max k ≤ max) ∧
    (∀ (cl : ConsulClient) (ns : String),
      (∀ key, ((⟨some cl, start, max, ns⟩ : consulConfigSource).Subscribe key).map
        (fun a => a.retryDelay) = [start]) ∧
      (∀ a k, a.retryDelay = start →
        sleepsOf ((⟨some cl, start, max, ns⟩ : consulConfigSource).watchLoop a
          (List.replicate k .err)).1
          = (List.range k).map (fun i => backoffDelay start max i * 1000000)) ∧
      (∀ a a' pair meta,
        ((⟨some cl, start, max, ns⟩ : consulConfigSource).watch a (.ok pair meta)).2 = .ok a' →
        a'.retryDelay = start) ∧
      (∀ key os, ∀ a ∈ (⟨some cl, start, max, ns⟩ : consulConfigSource).Subscribe key,
        ∀ d ∈ sleepsOf ((⟨some cl, start, max, ns⟩ : consulConfigSource).watchLoop a os).1,
          start * 1000000 ≤ d ∧ d ≤ max * 1000000)) ∧
    (∀ (cl : EtcdClient) (ns : String),
      (∀ key, ((⟨some cl, start, max, ns⟩ : etcdConfigSource).Subscribe key).map
        (fun a => a.retryDelay) = [start]) ∧
      (∀ a k, a.retryDelay = start →
        sleepsOf ((⟨some cl, start, max, ns⟩ : etcdConfigSource).watchLoop a
          (List.replicate k .err)).1
          = (List.range k).map (fun i => backoffDelay start max i * 1000000)) ∧
      (∀ a a' value,
        ((⟨some cl, start, max, ns⟩ : etcdConfigSource).watch a (.ok value)).2 = .ok a' →
        a'.retryDelay = start) ∧
      (∀ key os, ∀ a ∈ (⟨some cl, start, max, ns⟩ : etcdConfigSource).Subscribe key,
        ∀ d ∈ sleepsOf ((⟨some cl, start, max, ns⟩ : etcdConfigSource).watchLoop a os).1,
          start * 1000000 ≤ d ∧ d ≤ max * 1000000)) := by
  refine ⟨backoffDelay_bounds start max h0 hsm, ?_, ?_⟩
  · intro cl ns
    refine ⟨fun key => rfl, ?_, ?_, ?_⟩
    · intro a k ha
      have h := (consul_failures_backoff ⟨some cl, start, max, ns⟩ cl rfl h0 hsm hmax k 0 a
        ha).1
      simpa using h
    · intro a a' pair meta h
      exact consul_watch_ok_delay ⟨some cl, start, max, ns⟩ a a' pair meta h
    · intro key os a ha
      simp only [consulConfigSource.Subscribe, List.mem_singleton] at ha
      subst ha
      exact consul_sleeps_within ⟨some cl, start, max, ns⟩ cl rfl h0 hsm hmax os _
        (le_refl _) hsm
  · intro cl ns
    refine ⟨fun key => rfl, ?_, ?_, ?_⟩
    · intro a k ha
      have h := (etcd_failures_backoff ⟨some cl, start, max, ns⟩ cl rfl h0 hsm hmax k 0 a
        ha).1
      simpa using h
    · intro a a' value h
      exact etcd_watch_ok_delay ⟨some cl, start, max, ns⟩ a a' value h
    · intro key os a ha
      simp only [etcdConfigSource.Subscribe, List.mem_singleton] at ha
      subst ha
      exact etcd_sleeps_within ⟨some cl, start, max, ns⟩ cl rfl h0 hsm hmax os _
        (le_refl _) hsm

/-- C14, at the default delays (500 ms and 900000 ms): twelve failures in a row sleep
500 ms, 1 s, 2 s, ..., 512 s, and then 900 s, the maximum. -/
theorem retry_delay_doubles_to_max_witness :
    sleepsOf ((⟨some (fun _ => .ok none), 500, 900000, "ns"⟩ : consulConfigSource).watchLoop
      ⟨"consul", "k", "", 500, 0⟩ (List.replicate 12 .err)).1
      = [500000000, 1000000000, 2000000000, 4000000000, 8000000000, 16000000000,
          32000000000, 64000000000, 128000000000, 256000000000, 512000000000,
          900000000000] :=
  (((retry_delay_doubles_to_max 500 900000 (by decide) (by decide) (by decide)).2.1
    (fun _ => .ok none) "ns").2.1 ⟨"consul", "k", "", 500, 0⟩ 12 rfl).trans (by decide)

/-- C14 as stated fails for a start delay above the maximum: with start 1000 ms and
maximum 500 ms the first delay slept is 1000 ms; and for a start delay whose double
overflows: with start `2^62` and maximum `2^63 - 1` the delay after one failure is
`-2^63`. -/
theorem retry_delay_counterexample :
    ((⟨some (fun _ => .ok none), 1000, 500, "ns"⟩ : consulConfigSource).Subscribe "k").map
      (fun a => sleepsOf ((⟨some (fun _ => .ok none), 1000, 500, "ns"⟩ :
        consulConfigSource).watchLoop a [.err, .err]).1)
      = [[1000 * 1000000, 500 * 1000000]] ∧
    ((⟨some (fun _ => .ok ""), 2 ^ 62, 2 ^ 63 - 1, "ns"⟩ : etcdConfigSource).Subscribe "k").map
      (fun a => ((⟨some (fun _ => .ok ""), 2 ^ 62, 2 ^ 63 - 1, "ns"⟩ :
        etcdConfigSource).watch a .err).2.map (fun a' => a'.retryDelay))
      = [.ok (-(2 ^ 63))] := by
  constructor <;> rfl

/-- C15 (as amended): in a successful iteration of the Consul watch (client present, meta
data present when a pair is), let `v` be the value observed, the empty string standing for
a key that does not exist. The callback is invoked, once and with `v`, if and only if `v`
differs from the previous value as a string; and the loop continues with `v` as the
previous value, the change index of the meta data (0 without meta data) and the start
retry delay. -/
theorem consul_watch_success_step (c : consulConfigSource) (cl : ConsulClient)
    (hc : c.client = some cl) (a : WatchCall) (pair : Option String) (meta : Option Nat)
    (hmeta : pair ≠ none → meta ≠ none) :
    (pair.getD "" ≠ a.previousValue →
      (c.watch a (.ok pair meta)).1 =
        [.query (path.Join [c.nspace, strings.ReplaceChar a.key '.' '/']) a.waitIndex,
          .callback (strings.ReplaceChar a.key '.' '/') (pair.getD "")]) ∧
    (pair.getD "" = a.previousValue →
      (c.watch a (.ok pair meta)).1 =
        [.query (path.Join [c.nspace, strings.ReplaceChar a.key '.' '/']) a.waitIndex]) ∧
    (c.watch a (.ok pair meta)).2 =
      .ok ⟨a.source, strings.ReplaceChar a.key '.' '/', pair.getD "", c.startRetryDelay,
        meta.getD 0⟩ := by
  rw [consul_watch_ok c cl hc a pair meta hmeta]
  refine ⟨fun h => by simp [h], fun h => by simp [h], rfl⟩

/-- C15, at concrete inputs: from `a` to `b` the callback fires with `b`; from `b` to a
missing key it fires with the empty string; from `b` to `b` it does not fire. -/
theorem consul_watch_success_step_witness :
    (consulConfigSource.watch ⟨some (fun _ => .ok none), 500, 900000, "ns"⟩
      ⟨"consul", "some-config.port", "a", 500, 4⟩ (.ok (some "b") (some 5)))
      = ([.query "ns/some-config/port" 4, .callback "some-config/port" "b"],
        .ok ⟨"consul", "some-config/port", "b", 500, 5⟩) ∧
    (consulConfigSource.watch ⟨some (fun _ => .ok none), 500, 900000, "ns"⟩
      ⟨"consul", "some-config/port", "b", 500, 5⟩ (.ok none (some 6))).1
      = [.query "ns/some-config/port" 5, .callback "some-config/port" ""] ∧
    (consulConfigSource.watch ⟨some (fun _ => .ok none), 500, 900000, "ns"⟩
      ⟨"consul", "some-config/port", "b", 500, 5⟩ (.ok (some "b") (some 6))).1
      = [.query "ns/some-config/port" 5] := by
  have h1 := consul_watch_success_step ⟨some (fun _ => .ok none), 500, 900000, "ns"⟩
    (fun _ => .ok none) rfl ⟨"consul", "some-config.port", "a", 500, 4⟩ (some "b") (some 5)
    (by simp)
  have h2 := consul_watch_success_step ⟨some (fun _ => .ok none), 500, 900000, "ns"⟩
    (fun _ => .ok none) rfl ⟨"consul", "some-config/port", "b", 500, 5⟩ none (some 6)
    (by simp)
  have h3 := consul_watch_success_step ⟨some (fun _ => .ok none), 500, 900000, "ns"⟩
    (fun _ => .ok none) rfl ⟨"consul", "some-config/port", "b", 500, 5⟩ (some "b") (some 6)
    (by simp)
  exact ⟨Prod.ext (h1.1 (by decide)) h1.2.2, h2.1 (by decide), h3.2.1 rfl⟩

/-- C15 as stated fails: the previous value is a string in which a key never seen and a
key with an empty value are both the empty string. Right after `Subscribe` (the key was
absent so far) a pair with the empty value does not fire the callback, and neither does
the removal of that key afterwards. -/
theorem consul_watch_absent_counterexample :
    ((⟨some (fun _ => .ok none), 500, 900000, "ns"⟩ : consulConfigSource).Subscribe "k").map
      (fun a => (consulConfigSource.watchLoop ⟨some (fun _ => .ok none), 500, 900000, "ns"⟩ a
        [.ok (some "") (some 7), .ok none (some 8)]).1)
      = [[.query "ns/k" 0, .query "ns/k" 7]] := by
  rfl

/-- The callbacks of a run of the Consul watch without a failure: each value differs from
the one before, the first from the previous value of the call. -/
theorem consul_callbacks_chain (c : consulConfigSource) (os : List ConsulOutcome)
    (a : WatchCall) (hos : ∀ o ∈ os, o ≠ .err) :
    List.Chain (fun x y => x ≠ y) a.previousValue (callbackValues (c.watchLoop a os).1) := by
  induction os generalizing a with
  | nil => exact List.Chain.nil
  | cons o os ih =>
    have hos' : ∀ o ∈ os, o ≠ .err := fun o ho => hos o (List.mem_cons_of_mem _ ho)
    cases o with
    | err => exact absurd rfl (hos _ (List.mem_cons_self _ _))
    | ok pair meta =>
      cases hc : c.client with
      | none =>
        simp only [consulConfigSource.watchLoop, consulConfigSource.watch, hc, callbackValues]
        exact List.Chain.nil
      | some cl =>
        cases pair with
        | none =>
          cases meta with
          | none =>
            have := ih ⟨a.source, strings.ReplaceChar a.key '.' '/', "", c.startRetryDelay,
              0⟩ hos'
            by_cases hp : a.previousValue = ""
            · simpa [consulConfigSource.watchLoop, consulConfigSource.watch, hc, hp,
                callbackValues, callbackValues_append] using this
            · simp only [consulConfigSource.watchLoop, consulConfigSource.watch, hc, hp,
                callbackValues, callbackValues_append, ne_eq, not_false_eq_true, if_true,
                List.cons_append, List.nil_append]
              exact List.Chain.cons hp this
          | some li =>
            have := ih ⟨a.source, strings.ReplaceChar a.key '.' '/', "", c.startRetryDelay,
              li⟩ hos'
            by_cases hp : a.previousValue = ""
            · simpa [consulConfigSource.watchLoop, consulConfigSource.watch, hc, hp,
                callbackValues, callbackValues_append] using this
            · simp only [consulConfigSource.watchLoop, consulConfigSource.watch, hc, hp,
                callbackValues, callbackValues_append, ne_eq, not_false_eq_true, if_true,
                List.cons_append, List.nil_append]
              exact List.Chain.cons hp this
        | some v =>
          cases meta with
          | none =>
            by_cases hp : v = a.previousValue
            · simp only [consulConfigSource.watchLoop, consulConfigSource.watch, hc, hp,
                callbackValues, ne_eq, not_true_eq_false, if_false]
              exact List.Chain.nil
            · simp only [consulConfigSource.watchLoop, consulConfigSource.watch, hc, hp,
                callbackValues, ne_eq, not_false_eq_true, if_true]
              exact List.Chain.cons (Ne.symm hp) List.Chain.nil
          | some li =>
            have := ih ⟨a.source, strings.ReplaceChar a.key '.' '/', v, c.startRetryDelay,
              li⟩ hos'
            by_cases hp : v = a.previousValue
            · simp only [consulConfigSource.watchLoop, consulConfigSource.watch, hc, hp,
                callbackValues, callbackValues_append, ne_eq, not_true_eq_false, if_false,
                List.cons_append, List.nil_append]
              rw [hp] at this
              exact this
            · simp only [consulConfigSource.watchLoop, consulConfigSource.watch, hc, hp,
                callbackValues, callbackValues_append, ne_eq, not_false_eq_true, if_true,
                List.cons_append, List.nil_append]
              exact List.Chain.cons (Ne.symm hp) this

/-- The callbacks of a run of the etcd watch without a failure. -/
theorem etcd_callbacks_chain (c : etcdConfigSource) (os : List EtcdOutcome)
    (a : WatchCall) (hos : ∀ o ∈ os, o ≠ .err) :
    List.Chain (fun x y => x ≠ y) a.previousValue (callbackValues (c.watchLoop a os).1) := by
  induction os generalizing a with
  | nil => exact List.Chain.nil
  | cons o os ih =>
    have hos' : ∀ o ∈ os, o ≠ .err := fun o ho => hos o (List.mem_cons_of_mem _ ho)
    cases o with
    | err => exact absurd rfl (hos _ (List.mem_cons_self _ _))
    | ok v =>
      cases hc : c.client with
      | none =>
        simp only [etcdConfigSource.watchLoop, etcdConfigSource.watch, hc, callbackValues]
        exact List.Chain.nil
      | some cl =>
        have := ih ⟨a.source, strings.ReplaceChar a.key '.' '/', v, c.startRetryDelay, 0⟩ hos'
        by_cases hp : v = a.previousValue
        · simp only [etcdConfigSource.watchLoop, etcdConfigSource.watch, hc, hp,
            callbackValues, callbackValues_append, ne_eq, not_true_eq_false, if_false,
            List.cons_append, List.nil_append]
          rw [hp] at this
          exact this
        · simp only [etcdConfigSource.watchLoop, etcdConfigSource.watch, hc, hp,
            callbackValues, callbackValues_append, ne_eq, not_false_eq_true, if_true,
            List.cons_append, List.nil_append]
          exact List.Chain.cons (Ne.symm hp) this

/-- C16 (as amended): for every sequence of watch outcomes without a failure among them,
in both watch loops, the callback is invoked only with a value that differs from the value
observed before it (the previous value of the call at first, a key that does not exist
counting as the empty string), so no two consecutive callback invocations carry the same
value. -/
theorem callbacks_deduplicated (cc : consulConfigSource) (ec : etcdConfigSource)
    (a : WatchCall) (cos : List ConsulOutcome) (eos : List EtcdOutcome)
    (hcos : ∀ o ∈ cos, o ≠ .err) (heos : ∀ o ∈ eos, o ≠ .err) :
    List.Chain (fun x y => x ≠ y) a.previousValue (callbackValues (cc.watchLoop a cos).1) ∧
    List.Chain' (fun x y => x ≠ y) (callbackValues (cc.watchLoop a cos).1) ∧
    List.Chain (fun x y => x ≠ y) a.previousValue (callbackValues (ec.watchLoop a eos).1) ∧
    List.Chain' (fun x y => x ≠ y) (callbackValues (ec.watchLoop a eos).1) :=
  ⟨consul_callbacks_chain cc cos a hcos,
    List.Chain'.tail (l := a.previousValue :: _) (consul_callbacks_chain cc cos a hcos),
    etcd_callbacks_chain ec eos a heos,
    List.Chain'.tail (l := a.previousValue :: _) (etcd_callbacks_chain ec eos a heos)⟩

/-- C16, at concrete inputs: the observations `x`, `x`, `y`, missing, `y` of Consul and
`x`, `x`, `y`, empty, `y` of etcd after `Subscribe` call back with `x`, `y`, the empty
string, `y`. -/
theorem callbacks_deduplicated_witness :
    List.Chain' (fun x y => x ≠ y) ["x", "y", "", "y"] ∧
    callbackValues (consulConfigSource.watchLoop ⟨some (fun _ => .ok none), 500, 900000, "ns"⟩
      ⟨"consul", "k", "", 500, 0⟩
      [.ok (some "x") (some 1), .ok (some "x") (some 1), .ok (some "y") (some 2),
        .ok none (some 3), .ok (some "y") (some 4)]).1 = ["x", "y", "", "y"] ∧
    callbackValues (etcdConfigSource.watchLoop ⟨some (fun _ => .ok ""), 500, 900000, "ns"⟩
      ⟨"etcd", "k", "", 500, 0⟩ [.ok "x", .ok "x", .ok "y", .ok "", .ok "y"]).1
      = ["x", "y", "", "y"] := by
  have h := callbacks_deduplicated ⟨some (fun _ => .ok none), 500, 900000, "ns"⟩
    ⟨some (fun _ => .ok ""), 500, 900000, "ns"⟩ ⟨"consul", "k", "", 500, 0⟩
    [.ok (some "x") (some 1), .ok (some "x") (some 1), .ok (some "y") (some 2),
      .ok none (some 3), .ok (some "y") (some 4)]
    [.ok "x", .ok "x", .ok "y", .ok "", .ok "y"] (by decide) (by decide)
  exact ⟨h.2.1, rfl, rfl⟩

/-- C16 as stated fails across a failure: the failed iteration forgets the previous value,
so the unchanged value `x` is delivered again after it, in both watch loops. -/
theorem callbacks_repeat_counterexample :
    callbackValues (consulConfigSource.watchLoop ⟨some (fun _ => .ok none), 500, 900000, "ns"⟩
      ⟨"consul", "k", "", 500, 0⟩
      [.ok (some "x") (some 1), .err, .ok (some "x") (some 1)]).1 = ["x", "x"] ∧
    callbackValues (etcdConfigSource.watchLoop ⟨some (fun _ => .ok ""), 500, 900000, "ns"⟩
      ⟨"etcd", "k", "", 500, 0⟩ [.ok "x", .err, .ok "x"]).1 = ["x", "x"] := by
  constructor <;> rfl

/-! ## Bootstrap of the distributed sources -/

theorem tableSource_safe (t : List (String × RawValue)) : Util.Safe ⟨[tableSource t]⟩ := by
  intro cs hcs key
  simp only [List.mem_singleton] at hcs
  subst hcs
  exact ⟨_, rfl⟩

/-- C17: for every bootstrap registry whose lookups return, and every namespace argument,
both constructors give the distributed source the namespace `N` that is the argument when
it is not empty, otherwise the value of `kumuluzee.config.namespace` when that is found as
a non-empty string, otherwise `environments/{env}/services/{name}/{version}/config` built
from the service configuration. -/
theorem extension_namespace_priority (undef : Float64 → Int) (w : World) (conf : Util)
    (nspace envName name version : String) (startRD maxRD : Int)
    (ns caddr eaddr : String × Bool)
    (hl : loadServiceConfiguration undef conf = .ok (envName, name, version, startRD, maxRD))
    (hns : conf.GetString "kumuluzee.config.namespace" = .ok ns)
    (hcaddr : conf.GetString "kumuluzee.config.consul.hosts" = .ok caddr)
    (headdr : conf.GetString "kumuluzee.config.etcd.hosts" = .ok eaddr) :
    ∃ N,
      newConsulConfigSource undef w conf nspace = .ok (consulConfigSource.toSource
        ⟨w.createConsulClient (if caddr.2 then caddr.1 else "http://localhost:8500"),
          startRD, maxRD, N⟩) ∧
      newEtcdConfigSource undef w conf nspace = .ok (etcdConfigSource.toSource
        ⟨w.createEtcdClient (if eaddr.2 then eaddr.1 else "http://localhost:2379"),
          startRD, maxRD, N⟩) ∧
      (nspace ≠ "" → N = nspace) ∧
      (nspace = "" → ns.2 = true → ns.1 ≠ "" → N = ns.1) ∧
      (nspace = "" → (ns.2 = false ∨ ns.1 = "") →
        N = "environments/" ++ envName ++ "/services/" ++ name ++ "/" ++ version
          ++ "/config") := by
  refine ⟨if nspace ≠ "" then nspace
    else if ns.2 = true ∧ ns.1 ≠ "" then ns.1
    else "environments/" ++ envName ++ "/services/" ++ name ++ "/" ++ version ++ "/config",
    ?_, ?_, ?_, ?_, ?_⟩
  · simp only [newConsulConfigSource, hcaddr, hl, extensionNamespace, hns, bind, Except.bind,
      pure, Except.pure]
    rfl
  · simp only [newEtcdConfigSource, headdr, hl, extensionNamespace, hns, bind, Except.bind,
      pure, Except.pure]
    rfl
  · intro h
    rw [if_pos h]
  · intro h h2 h1
    rw [if_neg (by simp [h]), if_pos ⟨h2, h1⟩]
  · intro h h2
    rw [if_neg (by simp [h]), if_neg]
    rintro ⟨h3, h4⟩
    rcases h2 with h2 | h2
    · rw [h2] at h3
      cases h3
    · exact h4 h2

/-- C17, at concrete inputs: with service name `svc` and nothing else configured the
namespace is the derived default; a configured namespace replaces it; the argument
replaces both. -/
theorem extension_namespace_priority_witness :
    newConsulConfigSource (fun _ => 0) (envWorld [])
        ⟨[tableSource [("kumuluzee.name", .str "svc")]]⟩ ""
      = .ok (consulConfigSource.toSource
          ⟨none, 500, 900000, "environments/dev/services/svc/1.0.0/config"⟩) ∧
    newEtcdConfigSource (fun _ => 0) (envWorld [])
        ⟨[tableSource [("kumuluzee.name", .str "svc"),
          ("kumuluzee.config.namespace", .str "my/ns")]]⟩ ""
      = .ok (etcdConfigSource.toSource ⟨none, 500, 900000, "my/ns"⟩) ∧
    newConsulConfigSource (fun _ => 0) (envWorld [])
        ⟨[tableSource [("kumuluzee.name", .str "svc"),
          ("kumuluzee.config.namespace", .str "my/ns")]]⟩ "arg/ns"
      = .ok (consulConfigSource.toSource ⟨none, 500, 900000, "arg/ns"⟩) := by
  obtain ⟨N1, h1, _, _, _, hd⟩ := extension_namespace_priority (fun _ => 0) (envWorld [])
    ⟨[tableSource [("kumuluzee.name", .str "svc")]]⟩ "" "dev" "svc" "1.0.0" 500 900000
    ("", false) ("", false) ("", false) rfl rfl rfl rfl
  obtain ⟨N2, _, h2, _, hc, _⟩ := extension_namespace_priority (fun _ => 0) (envWorld [])
    ⟨[tableSource [("kumuluzee.name", .str "svc"),
      ("kumuluzee.config.namespace", .str "my/ns")]]⟩ "" "dev" "svc" "1.0.0" 500 900000
    ("my/ns", true) ("", false) ("", false) rfl rfl rfl rfl
  obtain ⟨N3, h3, _, ha, _, _⟩ := extension_namespace_priority (fun _ => 0) (envWorld [])
    ⟨[tableSource [("kumuluzee.name", .str "svc"),
      ("kumuluzee.config.namespace", .str "my/ns")]]⟩ "arg/ns" "dev" "svc" "1.0.0" 500
    900000 ("my/ns", true) ("", false) ("", false) rfl rfl rfl rfl
  rw [hd rfl (Or.inl rfl)] at h1
  rw [hc rfl rfl (by decide)] at h2
  rw [ha (by decide)] at h3
  exact ⟨h1, h2, h3⟩

/-- C18: for every bootstrap registry whose lookups return, `loadServiceConfiguration`
returns the five values of the keys `kumuluzee.env.name`, `kumuluzee.name`,
`kumuluzee.version`, `kumuluzee.config.start-retry-delay-ms` and
`kumuluzee.config.max-retry-delay-ms`, with `dev`, `1.0.0`, 500 and 900000 in the place of
the environment name, the version, the start delay and the maximum delay whose typed
lookup reports found false (the name is then the empty string). -/
theorem loadServiceConfiguration_defaults (undef : Float64 → Int) (conf : Util)
    (hsafe : conf.Safe) :
    ∃ e n v sdl mdl,
      conf.GetString "kumuluzee.env.name" = .ok e ∧
      conf.GetString "kumuluzee.name" = .ok n ∧
      conf.GetString "kumuluzee.version" = .ok v ∧
      conf.GetInt undef "kumuluzee.config.start-retry-delay-ms" = .ok sdl ∧
      conf.GetInt undef "kumuluzee.config.max-retry-delay-ms" = .ok mdl ∧
      loadServiceConfiguration undef conf =
        .ok (if e.2 then e.1 else "dev", n.1, if v.2 then v.1 else "1.0.0",
          if sdl.2 then sdl.1 else 500, if mdl.2 then mdl.1 else 900000) := by
  obtain ⟨e, he⟩ := Util.GetString_total hsafe "kumuluzee.env.name"
  obtain ⟨n, hn⟩ := Util.GetString_total hsafe "kumuluzee.name"
  obtain ⟨v, hv⟩ := Util.GetString_total hsafe "kumuluzee.version"
  obtain ⟨sdl, hsdl⟩ := Util.GetInt_total undef hsafe "kumuluzee.config.start-retry-delay-ms"
  obtain ⟨mdl, hmdl⟩ := Util.GetInt_total undef hsafe "kumuluzee.config.max-retry-delay-ms"
  refine ⟨e, n, v, sdl, mdl, he, hn, hv, hsdl, hmdl, ?_⟩
  simp only [loadServiceConfiguration, he, hn, hv, hsdl, hmdl, bind, Except.bind, pure,
    Except.pure]

/-- C18, at concrete inputs: a registry that sets the environment name, the service name
and the start delay (as a string) and leaves the version and the maximum delay out. -/
theorem loadServiceConfiguration_defaults_witness :
    loadServiceConfiguration (fun _ => 0)
      ⟨[tableSource [("kumuluzee.env.name", .str "test"), ("kumuluzee.name", .str "svc"),
        ("kumuluzee.config.start-retry-delay-ms", .str "250")]]⟩
      = .ok ("test", "svc", "1.0.0", 250, 900000) := by
  obtain ⟨e, n, v, sdl, mdl, he, hn, hv, hsdl, hmdl, h⟩ :=
    loadServiceConfiguration_defaults (fun _ => 0)
      ⟨[tableSource [("kumuluzee.env.name", .str "test"), ("kumuluzee.name", .str "svc"),
        ("kumuluzee.config.start-retry-delay-ms", .str "250")]]⟩ (tableSource_safe _)
  cases he.symm.trans (show _ = Except.ok ("test", true) from rfl)
  cases hn.symm.trans (show _ = Except.ok ("svc", true) from rfl)
  cases hv.symm.trans (show _ = Except.ok ("", false) from rfl)
  cases hsdl.symm.trans (show _ = Except.ok ((250 : Int), true) from rfl)
  cases hmdl.symm.trans (show _ = Except.ok ((0 : Int), false) from rfl)
  exact h

/-- C19, the code where the client cannot be created (and no file is read): `NewUtil`
leaves the file source out, but it registers the Consul source, and likewise the etcd
source, with a nil client, and `Get` of a key the environment does not have then panics.
Without an extension the same `Get` returns nil. -/
theorem NewUtil_registers_clientless_source :
    brokenHostsWorld.createConsulClient "ftp://consul:8500" = none ∧
    brokenHostsWorld.createEtcdClient "http://[etcd" = none ∧
    (∀ undef, (NewUtil undef brokenHostsWorld ⟨"", "consul", "", 0⟩).map
      (fun u => u.configSources.map (fun cs => (cs.Name, cs.ordinal)))
        = .ok [("env", 300), ("consul", 150)]) ∧
    (∀ undef, (NewUtil undef brokenHostsWorld ⟨"", "consul", "", 0⟩).bind
      (fun u => u.Get "some-config.port") = .error "nil pointer dereference") ∧
    (∀ undef, (NewUtil undef brokenHostsWorld ⟨"", "etcd", "", 0⟩).map
      (fun u => u.configSources.map (fun cs => (cs.Name, cs.ordinal)))
        = .ok [("env", 300), ("etcd", 150)]) ∧
    (∀ undef, (NewUtil undef brokenHostsWorld ⟨"", "etcd", "", 0⟩).bind
      (fun u => u.Get "some-config.port") = .error "nil pointer dereference") ∧
    (∀ undef, (NewUtil undef brokenHostsWorld ⟨"", "", "", 0⟩).bind
      (fun u => u.Get "some-config.port") = .ok .nil) :=
  ⟨rfl, rfl, fun _ => rfl, fun _ => rfl, fun _ => rfl, fun _ => rfl, fun _ => rfl⟩

/-! ## Keys of struct fields -/

/-- What `retrieveKey` returns in its three cases: without a `config` tag the prefix, a
dot, and the name of the field with its first character in lower case; with a tag whose
first part is not empty the prefix, a dot, and that part; with a tag whose first part is
empty the empty string. -/
theorem retrieveKey_cases (tbl : Char → Char) (prefixKey : String) (field : StructField)
    (tags : StructTag) :
    (tags.Lookup "config" = none → ∀ r rest, field.Name.toList = r :: rest →
      retrieveKey tbl prefixKey field tags
        = prefixKey ++ "." ++ String.mk (unicode.ToLower tbl r :: rest)) ∧
    (∀ tag t0 ts, tags.Lookup "config" = some tag → strings.Split tag ',' = t0 :: ts →
      t0 ≠ "" → retrieveKey tbl prefixKey field tags = prefixKey ++ "." ++ t0) ∧
    (∀ tag ts, tags.Lookup "config" = some tag → strings.Split tag ',' = "" :: ts →
      retrieveKey tbl prefixKey field tags = "") := by
  refine ⟨?_, ?_, ?_⟩
  · intro h r rest hname
    simp only [retrieveKey, h, hname]
  · intro tag t0 ts h hsplit ht
    simp only [retrieveKey, h, hsplit, ht, ne_eq, not_false_eq_true, if_true]
  · intro tag ts h hsplit
    simp only [retrieveKey, h, hsplit, ne_eq, not_true_eq_false, if_false]

/-- C20, the code at the tag `config:",watch"`: for the field `Version` with that tag and
the prefix `some-config`, `retrieveKey` returns the empty string, not
`some-config.version`; with the tag `config:"ip"` it returns `some-config.ip`, and for
the untagged field `Protocol` it returns `some-config.protocol`. -/
theorem retrieveKey_empty_tag_name :
    (∀ tbl, retrieveKey tbl "some-config" ⟨"Version", [("config", ",watch")]⟩
      [("config", ",watch")] = "") ∧
    (∀ tbl, retrieveKey tbl "some-config" ⟨"Version", []⟩ [] = "some-config.version") ∧
    (∀ tbl, retrieveKey tbl "some-config" ⟨"IP", [("config", "ip")]⟩ [("config", "ip")]
      = "some-config.ip") ∧
    (∀ tbl, retrieveKey tbl "some-config" ⟨"Protocol", []⟩ [] = "some-config.protocol") :=
  ⟨fun _ => rfl, fun _ => rfl, fun _ => rfl, fun _ => rfl⟩

/-! ## The environment names: alphabet and idempotence -/

theorem unicode.ToUpper_range (tbl : Char → Char) (c : Char)
    (h : ('a' ≤ c ∧ c ≤ 'z') ∨ ('A' ≤ c ∧ c ≤ 'Z') ∨ ('0' ≤ c ∧ c ≤ '9') ∨ c = '_') :
    ('A' ≤ unicode.ToUpper tbl c ∧ unicode.ToUpper tbl c ≤ 'Z') ∨
      ('0' ≤ unicode.ToUpper tbl c ∧ unicode.ToUpper tbl c ≤ '9') ∨
      unicode.ToUpper tbl c = '_' := by
  have h97 : 'a'.toNat = 97 := rfl
  have h122 : 'z'.toNat = 122 := rfl
  have h65 : 'A'.toNat = 65 := rfl
  have h90 : 'Z'.toNat = 90 := rfl
  have h48 : '0'.toNat = 48 := rfl
  have h57 : '9'.toNat = 57 := rfl
  rcases h with h | h | h | h
  · simp only [char_le_iff, h97, h122] at h
    have hle : c.toNat ≤ 127 := by omega
    have hlow : 'a' ≤ c ∧ c ≤ 'z' := by
      simp only [char_le_iff, h97, h122]
      exact h
    simp only [unicode.ToUpper, hle, if_true, hlow, and_self]
    refine Or.inl ?_
    simp only [char_le_iff, h65, h90]
    obtain ⟨h1, h2⟩ := h
    interval_cases c.toNat <;> decide
  · have h' := h
    simp only [char_le_iff, h65, h90] at h'
    have hle : c.toNat ≤ 127 := by omega
    have hlow : ¬ ('a' ≤ c ∧ c ≤ 'z') := by
      simp only [char_le_iff, h97, h122]
      omega
    simp only [unicode.ToUpper, hle, if_true, hlow, if_false]
    exact Or.inl h
  · have h' := h
    simp only [char_le_iff, h48, h57] at h'
    have hle : c.toNat ≤ 127 := by omega
    have hlow : ¬ ('a' ≤ c ∧ c ≤ 'z') := by
      simp only [char_le_iff, h97, h122]
      omega
    simp only [unicode.ToUpper, hle, if_true, hlow, if_false]
    exact Or.inr (Or.inl h)
  · subst h
    exact Or.inr (Or.inr rfl)

theorem normalizeKey_char (c : Char) :
    let d := if ('a' ≤ c ∧ c ≤ 'z') ∨ ('A' ≤ c ∧ c ≤ 'Z') ∨ ('0' ≤ c ∧ c ≤ '9') then c else '_'
    (('a' ≤ d ∧ d ≤ 'z') ∨ ('A' ≤ d ∧ d ≤ 'Z') ∨ ('0' ≤ d ∧ d ≤ '9') ∨ d = '_') ∧
      (if ('a' ≤ d ∧ d ≤ 'z') ∨ ('A' ≤ d ∧ d ≤ 'Z') ∨ ('0' ≤ d ∧ d ≤ '9') then d else '_') = d := by
  intro d
  by_cases h : ('a' ≤ c ∧ c ≤ 'z') ∨ ('A' ≤ c ∧ c ≤ 'Z') ∨ ('0' ≤ c ∧ c ≤ '9')
  · have hd : d = c := if_pos h
    rw [hd]
    refine ⟨?_, if_pos h⟩
    rcases h with h | h | h
    · exact Or.inl h
    · exact Or.inr (Or.inl h)
    · exact Or.inr (Or.inr (Or.inl h))
  · have hd : d = '_' := if_neg h
    rw [hd]
    exact ⟨Or.inr (Or.inr (Or.inr rfl)), by decide⟩

/-- C30: for every key, `normalizeKey` yields a string over `[a-zA-Z0-9_]` with as many
characters as the key, `normalizeKeyUpper` one over `[A-Z0-9_]` (of that length too,
whatever the case table beyond ASCII), and `normalizeKey` applied twice is `normalizeKey`
applied once. -/
theorem normalizeKey_alphabet_idempotent (tbl : Char → Char) (key : String) :
    (∀ c ∈ (normalizeKey key).toList,
      ('a' ≤ c ∧ c ≤ 'z') ∨ ('A' ≤ c ∧ c ≤ 'Z') ∨ ('0' ≤ c ∧ c ≤ '9') ∨ c = '_') ∧
    (normalizeKey key).length = key.length ∧
    (∀ c ∈ (normalizeKeyUpper tbl key).toList,
      ('A' ≤ c ∧ c ≤ 'Z') ∨ ('0' ≤ c ∧ c ≤ '9') ∨ c = '_') ∧
    (normalizeKeyUpper tbl key).length = key.length ∧
    normalizeKey (normalizeKey key) = normalizeKey key := by
  have halpha : ∀ c ∈ (normalizeKey key).toList,
      ('a' ≤ c ∧ c ≤ 'z') ∨ ('A' ≤ c ∧ c ≤ 'Z') ∨ ('0' ≤ c ∧ c ≤ '9') ∨ c = '_' := by
    intro c hc
    simp only [normalizeKey, toList_mk, List.mem_map] at hc
    obtain ⟨a, _, rfl⟩ := hc
    exact (normalizeKey_char a).1
  refine ⟨halpha, ?_, ?_, ?_, ?_⟩
  · cases key
    simp only [normalizeKey, String.length, String.toList, List.length_map]
  · intro c hc
    simp only [normalizeKeyUpper, strings.ToUpper, toList_mk, List.mem_map] at hc
    obtain ⟨a, ha, rfl⟩ := hc
    exact unicode.ToUpper_range tbl a (halpha a ha)
  · cases key
    simp only [normalizeKeyUpper, strings.ToUpper, normalizeKey, String.length, String.toList,
      List.length_map]
  · simp only [normalizeKey, toList_mk, List.map_map]
    congr 1
    apply List.map_congr_left
    intro a _
    exact (normalizeKey_char a).2

/-! ## The file source: totality -/

theorem strings.splitLoop_of_not_mem (sep : Char) (cs cur : List Char) (h : sep ∉ cs) :
    strings.splitLoop sep cs cur = [String.mk (cur.reverse ++ cs)] := by
  induction cs generalizing cur with
  | nil => simp [strings.splitLoop]
  | cons c cs ih =>
    have hc : c ≠ sep := fun e => h (e ▸ List.mem_cons_self _ _)
    have hcs : sep ∉ cs := fun e => h (List.mem_cons_of_mem _ e)
    simp only [strings.splitLoop, hc, if_false]
    rw [ih _ hcs]
    simp

theorem fileConfigSource.walk_nil_map (tree : List String) (h : tree ≠ []) :
    fileConfigSource.walk tree none = .ok .nil := by
  cases tree with
  | nil => exact absurd rfl h
  | cons part rest =>
    cases rest with
    | nil => rfl
    | cons p2 rest => rfl

theorem fileConfigSource.walk_empty_map (tree : List String) (h : tree ≠ []) :
    fileConfigSource.walk tree (some []) = .ok .nil := by
  cases tree with
  | nil => exact absurd rfl h
  | cons part rest =>
    cases rest with
    | nil => rfl
    | cons p2 rest => rfl

/-- C28: the `Get` of the file source returns for every parsed configuration and every
key, a value or nil, never a panic; on a nil and on an empty configuration it returns nil
for every key; for a key without a dot it is the index expression `config[key]` on the top
level mapping. On the document of `TestFileConfigDeep` the empty key and keys with a
leading, a trailing or a doubled dot are absent. -/
theorem fileConfigSource_Get_total (config : Option (List (String × RawValue)))
    (key : String) :
    (∃ r, fileConfigSource.Get config key = .ok r) ∧
    fileConfigSource.Get none key = .ok .nil ∧
    fileConfigSource.Get (some []) key = .ok .nil ∧
    ('.' ∉ key.toList → fileConfigSource.Get config key = .ok (mapIndex config key)) ∧
    fileConfigSource.Get config "" = .ok (mapIndex config "") ∧
    fileConfigSource.Get (some deepConfig) "integer-value"
      = .ok (.float64 (.fin false 36 0)) ∧
    fileConfigSource.Get (some deepConfig) "" = .ok .nil ∧
    fileConfigSource.Get (some deepConfig) "." = .ok .nil ∧
    fileConfigSource.Get (some deepConfig) ".integer-value" = .ok .nil ∧
    fileConfigSource.Get (some deepConfig) "integer-value." = .ok .nil ∧
    fileConfigSource.Get (some deepConfig) "deep-config..l1" = .ok .nil := by
  refine ⟨fileConfigSource.Get_returns config key,
    fileConfigSource.walk_nil_map _ (strings.splitLoop_ne_nil _ _ _),
    fileConfigSource.walk_empty_map _ (strings.splitLoop_ne_nil _ _ _),
    ?_, rfl, rfl, rfl, rfl, rfl, rfl, rfl⟩
  intro h
  simp only [fileConfigSource.Get, strings.Split, strings.splitLoop_of_not_mem _ _ _ h,
    List.reverse_nil, List.nil_append, fileConfigSource.walk]
  rfl

/-! ## The registry for an unknown extension -/

/-- C25: for every `Extension` that is neither `consul` nor `etcd`, `NewUtil` returns, and
returns the registry it returns for the empty `Extension` with the other options the same:
the environment source followed by the file source when the file loaded, and no other
source. -/
theorem NewUtil_unknown_extension (undef : Float64 → Int) (w : World) (options : Options)
    (hc : options.Extension ≠ "consul") (he : options.Extension ≠ "etcd") :
    ∃ u : Util, NewUtil undef w options = .ok u ∧
      NewUtil undef w { options with Extension := "" } = .ok u ∧
      u.configSources
        = newEnvConfigSource w :: (newFileConfigSource w options.ConfigPath).toList := by
  obtain ⟨u, ext, hu, hext, _, hshape⟩ := NewUtil_shape undef w options
  obtain ⟨u0, ext0, hu0, hext0, _, hshape0⟩ :=
    NewUtil_shape undef w { options with Extension := "" }
  have hnone : ext = none := by
    cases ext with
    | none => rfl
    | some x => exact absurd (hext.mp rfl) (by simp [hc, he])
  have hnone0 : ext0 = none := by
    cases ext0 with
    | none => rfl
    | some x => exact absurd (hext0.mp rfl) (by simp)
  rw [hnone] at hshape
  rw [hnone0] at hshape0
  simp only [Option.toList, List.nil_append] at hshape hshape0
  have hsame : u0 = u := Util.eq_of_configSources (hshape0.trans hshape.symm)
  exact ⟨u, hu, hsame ▸ hu0, hshape⟩

/-- C25, at a concrete input: the unknown extension `zookeeper`, with a configuration file
that holds one key. The registry is the environment source and the file source, as for no
extension. -/
theorem NewUtil_unknown_extension_witness :
    ∃ u : Util,
      NewUtil (fun _ => 0) (fileWorld [("port", .int .int 80)]) ⟨"", "zookeeper", "", 0⟩
        = .ok u ∧
      NewUtil (fun _ => 0) (fileWorld [("port", .int .int 80)]) ⟨"", "", "", 0⟩ = .ok u ∧
      u.configSources
        = newEnvConfigSource (fileWorld [("port", .int .int 80)]) ::
          (newFileConfigSource (fileWorld [("port", .int .int 80)]) "").toList :=
  NewUtil_unknown_extension (fun _ => 0) (fileWorld [("port", .int .int 80)])
    ⟨"", "zookeeper", "", 0⟩ (by decide) (by decide)

/-! ## Floats and integers -/

/-- C27: for every registry and key, when `GetFloat` reports found true so does `GetInt`
(whatever the conversion of a float out of the range of `int` yields); the converse fails
on a string: `0x10` and `0b101` are integers to `GetInt` and not found by `GetFloat`, while
`2.5` is found by both. -/
theorem GetFloat_found_implies_GetInt_found (undef : Float64 → Int) (c : Util)
    (key : String) :
    (∀ f, c.GetFloat key = .ok (f, true) → ∃ i, c.GetInt undef key = .ok (i, true)) ∧
    (constUtil (.str "0x10")).GetInt undef key = .ok (16, true) ∧
    (constUtil (.str "0x10")).GetFloat key = .ok (Float64.zero, false) ∧
    (constUtil (.str "0b101")).GetInt undef key = .ok (5, true) ∧
    (constUtil (.str "0b101")).GetFloat key = .ok (Float64.zero, false) ∧
    (constUtil (.str "2.5")).GetFloat key = .ok (.fin false 5629499534213120 (-51), true) ∧
    (constUtil (.str "2.5")).GetInt undef key = .ok (2, true) := by
  refine ⟨?_, ?_, ?_, ?_, ?_, ?_, ?_⟩
  · intro f h
    simp only [Util.GetFloat] at h
    simp only [Util.GetInt]
    cases hget : c.Get key with
    | error e =>
      rw [hget] at h
      cases h
    | ok rvalue =>
      rw [hget] at h
      simp only [] at h ⊢
      cases hnum : assertAsNumber rvalue with
      | mk nvalue ok =>
        rw [hnum] at h
        cases ok with
        | true => exact ⟨_, rfl⟩
        | false =>
          simp only [] at h ⊢
          cases rvalue with
          | str svalue =>
            simp only [] at h ⊢
            cases hpf : strconv.ParseFloat svalue with
            | mk fvalue64 err =>
              rw [hpf] at h
              cases err with
              | some e => cases h
              | none =>
                cases hpi : strconv.ParseInt svalue with
                | mk ivalue64 ierr =>
                  cases ierr with
                  | none => exact ⟨_, rfl⟩
                  | some e => exact ⟨_, rfl⟩
          | nil => cases h
          | bool b => cases h
          | int k v => cases h
          | float32 f => cases h
          | float64 f => cases h
          | map m => cases h
          | slice l => cases h
  · rw [GetInt_of_str undef _ key "0x10" (constUtil_Get _ _)]
    rfl
  · rw [GetFloat_of_str _ key "0x10" (constUtil_Get _ _)]
    rfl
  · rw [GetInt_of_str undef _ key "0b101" (constUtil_Get _ _)]
    rfl
  · rw [GetFloat_of_str _ key "0b101" (constUtil_Get _ _)]
    rfl
  · rw [GetFloat_of_str _ key "2.5" (constUtil_Get _ _)]
    rfl
  · rw [GetInt_of_str undef _ key "2.5" (constUtil_Get _ _)]
    rfl

/-! ## The path a distributed source reads -/

theorem toList_append (s t : String) : (s ++ t).toList = s.toList ++ t.toList := by
  cases s
  cases t
  rfl

theorem intercalate_cons_eq (sep x : List Char) (xs : List (List Char)) :
    List.intercalate sep (x :: xs) = x ++ (xs.map (fun a => sep ++ a)).flatten := by
  induction xs generalizing x with
  | nil => simp [List.intercalate]
  | cons y ys ih =>
    have h := ih y
    simp only [List.intercalate, List.intersperse, List.flatten_cons, List.map_cons,
      List.append_assoc] at h ⊢
    rw [h]

theorem intercalate_go_toList (acc s : String) (l : List String) :
    (String.intercalate.go acc s l).toList
      = acc.toList ++ (l.map (fun a => s.toList ++ a.toList)).flatten := by
  induction l generalizing acc with
  | nil => simp [String.intercalate.go]
  | cons a l ih =>
    simp only [String.intercalate.go, ih, toList_append, List.map_cons, List.flatten_cons,
      List.append_assoc]

/-- `strings.Join` with a one character separator, on the characters. -/
theorem strings.Join_toList (parts : List String) (sep : Char) :
    (strings.Join parts (String.mk [sep])).toList
      = List.intercalate [sep] (parts.map String.toList) := by
  cases parts with
  | nil => rfl
  | cons a l =>
    simp only [strings.Join, String.intercalate, intercalate_go_toList, toList_mk,
      List.map_cons, intercalate_cons_eq, List.map_map]
    rfl

/-- Splitting at a separator that stands between `a` and `b`. -/
theorem strings.splitLoop_append (sep : Char) (a b cur : List Char) :
    strings.splitLoop sep (a ++ sep :: b) cur
      = strings.splitLoop sep a cur ++ strings.splitLoop sep b [] := by
  induction a generalizing cur with
  | nil => simp [strings.splitLoop]
  | cons c a ih =>
    simp only [List.cons_append, strings.splitLoop]
    split
    · have h := ih []
      simp only [List.cons_append] at h ⊢
      exact congrArg _ h
    · exact ih _

/-- The characters of the parts are characters of the string. -/
theorem strings.splitLoop_chars (sep : Char) (cs cur : List Char) :
    ∀ seg ∈ strings.splitLoop sep cs cur, ∀ c ∈ seg.toList, c ∈ cur ∨ c ∈ cs := by
  induction cs generalizing cur with
  | nil =>
    intro seg hseg c hc
    simp only [strings.splitLoop, List.mem_singleton] at hseg
    subst hseg
    simp only [toList_mk, List.mem_reverse] at hc
    exact Or.inl hc
  | cons x cs ih =>
    intro seg hseg c hc
    simp only [strings.splitLoop] at hseg
    split at hseg
    · rcases List.mem_cons.mp hseg with rfl | hseg
      · simp only [toList_mk, List.mem_reverse] at hc
        exact Or.inl hc
      · rcases ih [] seg hseg c hc with h | h
        · simp at h
        · exact Or.inr (List.mem_cons_of_mem _ h)
    · rcases ih (x :: cur) seg hseg c hc with h | h
      · rcases List.mem_cons.mp h with rfl | h
        · exact Or.inr (List.mem_cons_self _ _)
        · exact Or.inl h
      · exact Or.inr (List.mem_cons_of_mem _ h)

theorem path.foldl_cleanStep_proper (rooted : Bool) (parts out : List String)
    (h : ∀ e ∈ parts, e ≠ "" ∧ e ≠ "." ∧ e ≠ "..") :
    parts.foldl (path.cleanStep rooted) out = parts.reverse ++ out := by
  induction parts generalizing out with
  | nil => rfl
  | cons e parts ih =>
    obtain ⟨h1, h2, h3⟩ := h e (List.mem_cons_self _ _)
    simp only [List.foldl_cons, path.cleanStep, h1, h2, h3, or_self, if_false]
    rw [ih _ (fun x hx => h x (List.mem_cons_of_mem _ hx))]
    simp

/-- `path.Clean` leaves a path alone whose elements are all proper: none empty (so no
leading, trailing or doubled slash), none `.` and none `..`. -/
theorem path.Clean_proper (p : String)
    (h : ∀ e ∈ strings.Split p '/', e ≠ "" ∧ e ≠ "." ∧ e ≠ "..") :
    path.Clean p = p := by
  have hne : p ≠ "" := by
    rintro rfl
    exact (h "" (by decide)).1 rfl
  have hroot : p.toList.head? ≠ some '/' := by
    intro hr
    cases hp : p.toList with
    | nil =>
      rw [hp] at hr
      cases hr
    | cons c cs =>
      simp only [hp, List.head?_cons, Option.some.injEq] at hr
      subst hr
      refine (h "" ?_).1 rfl
      simp only [strings.Split, hp, strings.splitLoop, if_true]
      exact List.mem_cons_self _ _
  have hparts : strings.Split p '/' ≠ [] := strings.splitLoop_ne_nil _ _ _
  simp only [path.Clean, hne, if_false, path.foldl_cleanStep_proper _ _ _ h, List.append_nil,
    List.reverse_reverse, hroot, decide_False, Bool.false_eq_true, hparts]
  have hj := strings.Join_toList (strings.Split p '/') '/'
  rw [(strings.Split_spec p '/').1] at hj
  have : ∀ a b : String, a.toList = b.toList → a = b := by
    intro a b hab
    cases a
    cases b
    exact congrArg String.mk hab
  exact this _ _ hj


theorem strings.ReplaceChar_idem (s : String) (old new : Char) (h : new ≠ old) :
    strings.ReplaceChar (strings.ReplaceChar s old new) old new = strings.ReplaceChar s old new := by
  simp only [strings.ReplaceChar, toList_mk, List.map_map]
  congr 1
  apply List.map_congr_left
  intro c _
  by_cases hc : c = old
  · simp [hc, h]
  · simp [hc]

/-- The path `path.Join` builds of a namespace and a translated key whose elements are all
proper is the namespace, a slash, and the key. -/
theorem path.Join_proper (ns key : String)
    (hns : ∀ e ∈ strings.Split ns '/', e ≠ "" ∧ e ≠ "." ∧ e ≠ "..")
    (hkey : ∀ e ∈ strings.Split (strings.ReplaceChar key '.' '/') '/', e ≠ "") :
    path.Join [ns, strings.ReplaceChar key '.' '/']
      = ns ++ "/" ++ strings.ReplaceChar key '.' '/' := by
  have hns0 : ns ≠ "" := by
    rintro rfl
    exact (hns "" (by decide)).1 rfl
  have hk0 : strings.ReplaceChar key '.' '/' ≠ "" := by
    intro h0
    rw [h0] at hkey
    exact hkey "" (by decide) rfl
  have hdot : ∀ c ∈ (strings.ReplaceChar key '.' '/').toList, c ≠ '.' := by
    intro c hc
    simp only [strings.ReplaceChar, toList_mk, List.mem_map] at hc
    obtain ⟨a, _, rfl⟩ := hc
    by_cases ha : a = '.'
    · simp [ha]
    · simp [ha]
  have hk : ∀ e ∈ strings.Split (strings.ReplaceChar key '.' '/') '/',
      e ≠ "" ∧ e ≠ "." ∧ e ≠ ".." := by
    intro e he
    refine ⟨hkey e he, ?_, ?_⟩
    · rintro rfl
      rcases strings.splitLoop_chars _ _ _ _ he '.' (by decide) with h | h
      · simp at h
      · exact hdot _ h rfl
    · rintro rfl
      rcases strings.splitLoop_chars _ _ _ _ he '.' (by decide) with h | h
      · simp at h
      · exact hdot _ h rfl
  have hjoin : strings.Join [ns, strings.ReplaceChar key '.' '/'] "/"
      = ns ++ "/" ++ strings.ReplaceChar key '.' '/' := rfl
  simp only [path.Join, List.filter, hns0, hk0, ne_eq, not_false_eq_true, decide_True, hjoin]
  apply path.Clean_proper
  intro e he
  have hsplit : strings.Split (ns ++ "/" ++ strings.ReplaceChar key '.' '/') '/'
      = strings.Split ns '/' ++ strings.Split (strings.ReplaceChar key '.' '/') '/' := by
    simp only [strings.Split, toList_append, List.append_assoc]
    exact strings.splitLoop_append '/' ns.toList _ []
  rw [hsplit] at he
  rcases List.mem_append.mp he with h | h
  · exact hns e h
  · exact hk e h


theorem eq_of_toList_eq (a b : String) (h : a.toList = b.toList) : a = b := by
  cases a
  cases b
  exact congrArg String.mk h

theorem mk_ne_empty (l : List Char) (h : l ≠ []) : String.mk l ≠ "" := by
  intro e
  exact h (congrArg String.toList e)

/-- Splitting what `Join` joined gives the parts back, when no part holds the separator. -/
theorem strings.splitLoop_intercalate_parts (sep : Char) (a : String) (o : List String)
    (h : ∀ e ∈ a :: o, sep ∉ e.toList) :
    strings.splitLoop sep (List.intercalate [sep] ((a :: o).map String.toList)) [] = a :: o := by
  induction o generalizing a with
  | nil =>
    have ha := h a (List.mem_cons_self _ _)
    simp only [List.map_cons, List.map_nil, intercalate_cons_eq, List.flatten_nil,
      List.append_nil]
    rw [strings.splitLoop_of_not_mem sep _ _ ha]
    rfl
  | cons b o ih =>
    have ha := h a (List.mem_cons_self _ _)
    have hb := ih b (fun e he => h e (List.mem_cons_of_mem _ he))
    rw [List.map_cons, intercalate_cons_eq]
    rw [List.map_cons, intercalate_cons_eq] at hb
    simp only [List.map_cons, List.flatten_cons, List.singleton_append, List.cons_append,
      List.nil_append] at hb ⊢
    rw [strings.splitLoop_append, hb, strings.splitLoop_of_not_mem sep _ _ ha]
    rfl

theorem strings.Split_Join (o : List String) (ho : o ≠ [])
    (h : ∀ e ∈ o, '/' ∉ e.toList) :
    strings.Split (strings.Join o "/") '/' = o := by
  cases o with
  | nil => exact absurd rfl ho
  | cons a o =>
    have hj := strings.Join_toList (a :: o) '/'
    simp only [strings.Split]
    rw [show (strings.Join (a :: o) "/").toList
      = List.intercalate ['/'] ((a :: o).map String.toList) from hj]
    exact strings.splitLoop_intercalate_parts '/' a o h

/-- A string that begins with the separator has an empty first part. -/
theorem strings.Split_rooted (s : String) (cs : List Char) (h : s.toList = '/' :: cs) :
    strings.Split s '/' = "" :: strings.splitLoop '/' cs [] := by
  simp only [strings.Split, h, strings.splitLoop, if_true]
  rfl

theorem strings.splitLoop_head_ne_empty (sep : Char) (cs cur : List Char) (h : cur ≠ []) :
    ∃ x xs, strings.splitLoop sep cs cur = x :: xs ∧ x ≠ "" := by
  induction cs generalizing cur with
  | nil =>
    exact ⟨_, [], rfl, mk_ne_empty _ (by simpa using h)⟩
  | cons c cs ih =>
    simp only [strings.splitLoop]
    split
    · exact ⟨_, _, rfl, mk_ne_empty _ (by simpa using h)⟩
    · exact ih (c :: cur) (by simp)

/-- A string that begins with another character has a first part that is not empty. -/
theorem strings.Split_unrooted (s : String) (c : Char) (cs : List Char)
    (h : s.toList = c :: cs) (hc : c ≠ '/') :
    ∃ x xs, strings.Split s '/' = x :: xs ∧ x ≠ "" := by
  simp only [strings.Split, h, strings.splitLoop, hc, if_false]
  exact strings.splitLoop_head_ne_empty '/' cs [c] (by simp)

theorem strings.Split_eq_singleton_empty (s : String) (h : strings.Split s '/' = [""]) :
    s = "" := by
  have h1 := (strings.Split_spec s '/').1
  rw [h] at h1
  exact eq_of_toList_eq _ _ h1.symm


/-- What `Clean` keeps on its stack is an element it met. -/
theorem path.cleanStep_mem (rooted : Bool) (st : List String) (elem e : String)
    (h : e ∈ path.cleanStep rooted st elem) : e = elem ∨ e ∈ st := by
  by_cases h1 : elem = "" ∨ elem = "."
  · rw [path.cleanStep.eq_def, if_pos h1] at h
    exact Or.inr h
  · by_cases h2 : elem = ".."
    · rw [path.cleanStep.eq_def, if_neg h1, if_pos h2] at h
      cases st with
      | nil =>
        cases rooted with
        | true => simp at h
        | false =>
          simp only [Bool.false_eq_true, if_false, List.mem_singleton] at h
          exact Or.inl (h.trans h2.symm)
      | cons top rest =>
        simp only [] at h
        split at h
        · rcases List.mem_cons.mp h with h | h
          · exact Or.inl (h.trans h2.symm)
          · exact Or.inr h
        · exact Or.inr (List.mem_cons_of_mem _ h)
    · rw [path.cleanStep.eq_def, if_neg h1, if_neg h2] at h
      rcases List.mem_cons.mp h with h | h
      · exact Or.inl h
      · exact Or.inr h

theorem path.foldl_cleanStep_mem (rooted : Bool) (parts st : List String) :
    ∀ e ∈ parts.foldl (path.cleanStep rooted) st, e ∈ parts ∨ e ∈ st := by
  induction parts generalizing st with
  | nil =>
    intro e he
    exact Or.inr he
  | cons x parts ih =>
    intro e he
    rcases ih _ e he with h | h
    · exact Or.inl (List.mem_cons_of_mem _ h)
    · rcases path.cleanStep_mem rooted st x e h with h | h
      · exact Or.inl (h ▸ List.mem_cons_self _ _)
      · exact Or.inr h

/-- The stack of `Clean`, last element first, is proper elements above `..` elements, and
holds no `..` for a rooted path. -/
theorem path.cleanStep_shape (rooted : Bool) (st : List String) (elem : String)
    (h : ∃ ps us, st = ps ++ us ∧ (∀ e ∈ us, e = "..") ∧
      (∀ e ∈ ps, e ≠ "" ∧ e ≠ "." ∧ e ≠ "..") ∧ (rooted = true → us = [])) :
    ∃ ps us, path.cleanStep rooted st elem = ps ++ us ∧ (∀ e ∈ us, e = "..") ∧
      (∀ e ∈ ps, e ≠ "" ∧ e ≠ "." ∧ e ≠ "..") ∧ (rooted = true → us = []) := by
  obtain ⟨ps, us, hst, hus, hps, hroot⟩ := h
  by_cases h1 : elem = "" ∨ elem = "."
  · rw [path.cleanStep.eq_def, if_pos h1]
    exact ⟨ps, us, hst, hus, hps, hroot⟩
  · by_cases h2 : elem = ".."
    · rw [path.cleanStep.eq_def, if_neg h1, if_pos h2]
      cases ps with
      | nil =>
        rw [List.nil_append] at hst
        subst hst
        cases st with
        | nil =>
          cases rooted with
          | true => exact ⟨[], [], rfl, by simp, by simp, fun _ => rfl⟩
          | false =>
            refine ⟨[], [".."], rfl, by simp, by simp, ?_⟩
            intro h
            cases h
        | cons top rest =>
          have htop : top = ".." := hus top (List.mem_cons_self _ _)
          simp only [htop, if_true]
          refine ⟨[], ".." :: ".." :: rest, rfl, ?_, by simp, ?_⟩
          · intro e he
            rcases List.mem_cons.mp he with h | h
            · exact h
            · rw [← htop] at h
              exact hus e h
          · intro hr
            have := hroot hr
            cases this
      | cons p ps' =>
        have hp := hps p (List.mem_cons_self _ _)
        subst hst
        simp only [List.cons_append, hp.2.2, if_false]
        exact ⟨ps', us, rfl, hus, fun e he => hps e (List.mem_cons_of_mem _ he), hroot⟩
    · rw [path.cleanStep.eq_def, if_neg h1, if_neg h2]
      refine ⟨elem :: ps, us, by rw [hst]; rfl, hus, ?_, hroot⟩
      intro e he
      rcases List.mem_cons.mp he with h | h
      · subst h
        exact ⟨fun e0 => h1 (Or.inl e0), fun e0 => h1 (Or.inr e0), h2⟩
      · exact hps e h

theorem path.foldl_cleanStep_shape (rooted : Bool) (parts st : List String)
    (h : ∃ ps us, st = ps ++ us ∧ (∀ e ∈ us, e = "..") ∧
      (∀ e ∈ ps, e ≠ "" ∧ e ≠ "." ∧ e ≠ "..") ∧ (rooted = true → us = [])) :
    ∃ ps us, parts.foldl (path.cleanStep rooted) st = ps ++ us ∧ (∀ e ∈ us, e = "..") ∧
      (∀ e ∈ ps, e ≠ "" ∧ e ≠ "." ∧ e ≠ "..") ∧ (rooted = true → us = []) := by
  induction parts generalizing st with
  | nil => exact h
  | cons x parts ih => exact ih _ (path.cleanStep_shape rooted st x h)

/-- `..` elements met on a stack of `..` elements of a path that is not rooted are kept. -/
theorem path.foldl_cleanStep_ups (ups st : List String) (hups : ∀ e ∈ ups, e = "..")
    (hst : ∀ e ∈ st, e = "..") :
    ups.foldl (path.cleanStep false) st = ups.reverse ++ st := by
  induction ups generalizing st with
  | nil => rfl
  | cons x ups ih =>
    have hx : x = ".." := hups x (List.mem_cons_self _ _)
    have hstep : path.cleanStep false st x = x :: st := by
      subst hx
      cases st with
      | nil => rfl
      | cons top rest =>
        have htop : top = ".." := hst top (List.mem_cons_self _ _)
        subst htop
        rfl
    rw [List.foldl_cons, hstep, ih (x :: st) (fun e he => hups e (List.mem_cons_of_mem _ he))]
    · simp
    · intro e he
      rcases List.mem_cons.mp he with h | h
      · exact h.trans hx
      · exact hst e h


/-- The parts of a cleaned rooted path: an empty first part, then proper elements only. -/
theorem path.Split_Clean_rooted (p : String) (hr : p.toList.head? = some '/') :
    ∃ props : List String, (∀ e ∈ props, e ≠ "" ∧ e ≠ "." ∧ e ≠ "..") ∧
      (strings.Split (path.Clean p) '/' = ["", ""] ∨
        (props ≠ [] ∧ strings.Split (path.Clean p) '/' = "" :: props)) := by
  have hne : p ≠ "" := by
    rintro rfl
    cases hr
  obtain ⟨ps, us, hst, _, hps, hroot⟩ :=
    path.foldl_cleanStep_shape true (strings.Split p '/') []
      ⟨[], [], rfl, by simp, by simp, fun _ => rfl⟩
  have hus : us = [] := hroot rfl
  subst hus
  rw [List.append_nil] at hst
  have hclean : path.Clean p = "/" ++ strings.Join ps.reverse "/" := by
    simp only [path.Clean, hne, if_false, hr, decide_True, if_true, hst]
  have hslash : ∀ e ∈ ps.reverse, '/' ∉ e.toList := by
    intro e he
    have he' : e ∈ (strings.Split p '/').foldl (path.cleanStep true) [] := by
      rw [hst]
      exact List.mem_reverse.mp he
    rcases path.foldl_cleanStep_mem true _ _ e he' with h | h
    · exact (strings.Split_spec p '/').2 e h
    · cases h
  refine ⟨ps.reverse, fun e he => hps e (List.mem_reverse.mp he), ?_⟩
  have hsplit : strings.Split (path.Clean p) '/'
      = "" :: strings.Split (strings.Join ps.reverse "/") '/' := by
    rw [hclean]
    exact strings.Split_rooted _ _ (by rw [toList_append]; rfl)
  by_cases hnil : ps.reverse = []
  · left
    rw [hsplit, hnil]
    rfl
  · right
    exact ⟨hnil, by rw [hsplit, strings.Split_Join _ hnil hslash]⟩

/-- The parts of a cleaned path that is not rooted: `.` alone, or `..` elements followed
by proper elements. -/
theorem path.Split_Clean_unrooted (p : String) (hne : p ≠ "")
    (hr : p.toList.head? ≠ some '/') :
    ∃ ups props : List String, (∀ e ∈ ups, e = "..") ∧
      (∀ e ∈ props, e ≠ "" ∧ e ≠ "." ∧ e ≠ "..") ∧
      (strings.Split (path.Clean p) '/' = ["."] ∨
        (ups ++ props ≠ [] ∧ strings.Split (path.Clean p) '/' = ups ++ props)) := by
  obtain ⟨ps, us, hst, hus, hps, _⟩ :=
    path.foldl_cleanStep_shape false (strings.Split p '/') []
      ⟨[], [], rfl, by simp, by simp, fun h => by cases h⟩
  have hslash : ∀ e ∈ us.reverse ++ ps.reverse, '/' ∉ e.toList := by
    intro e he
    have he' : e ∈ (strings.Split p '/').foldl (path.cleanStep false) [] := by
      rw [hst]
      rcases List.mem_append.mp he with h | h
      · exact List.mem_append_right _ (List.mem_reverse.mp h)
      · exact List.mem_append_left _ (List.mem_reverse.mp h)
    rcases path.foldl_cleanStep_mem false _ _ e he' with h | h
    · exact (strings.Split_spec p '/').2 e h
    · cases h
  refine ⟨us.reverse, ps.reverse, fun e he => hus e (List.mem_reverse.mp he),
    fun e he => hps e (List.mem_reverse.mp he), ?_⟩
  by_cases hnil : us.reverse ++ ps.reverse = []
  · left
    have hclean : path.Clean p = "." := by
      simp only [path.Clean, hne, if_false, hr, decide_False, Bool.false_eq_true, hst,
        List.reverse_append, hnil, if_true]
    rw [hclean]
    rfl
  · right
    have hclean : path.Clean p = strings.Join (us.reverse ++ ps.reverse) "/" := by
      simp only [path.Clean, hne, if_false, hr, decide_False, Bool.false_eq_true, hst,
        List.reverse_append, hnil]
    exact ⟨hnil, by rw [hclean, strings.Split_Join _ hnil hslash]⟩

/-- `Clean` leaves a path as it is whose parts are `..` elements followed by proper
elements. -/
theorem path.Clean_ups_proper (p : String) (ups props : List String)
    (hsplit : strings.Split p '/' = ups ++ props) (hups : ∀ e ∈ ups, e = "..")
    (hprops : ∀ e ∈ props, e ≠ "" ∧ e ≠ "." ∧ e ≠ "..") :
    path.Clean p = p := by
  have hnonempty : ∀ e ∈ strings.Split p '/', e ≠ "" := by
    intro e he
    rw [hsplit] at he
    rcases List.mem_append.mp he with h | h
    · rw [hups e h]
      decide
    · exact (hprops e h).1
  have hne : p ≠ "" := by
    rintro rfl
    exact hnonempty "" (by decide) rfl
  have hroot : p.toList.head? ≠ some '/' := by
    intro hr
    cases hp : p.toList with
    | nil =>
      rw [hp] at hr
      cases hr
    | cons c cs =>
      simp only [hp, List.head?_cons, Option.some.injEq] at hr
      subst hr
      refine hnonempty "" ?_ rfl
      rw [strings.Split_rooted p cs hp]
      exact List.mem_cons_self _ _
  have hparts : strings.Split p '/' ≠ [] := strings.splitLoop_ne_nil _ _ _
  have hfold : (strings.Split p '/').foldl (path.cleanStep false) []
      = (strings.Split p '/').reverse := by
    rw [hsplit, List.foldl_append, path.foldl_cleanStep_ups ups [] hups (by simp),
      path.foldl_cleanStep_proper false props _ hprops]
    simp
  simp only [path.Clean, hne, if_false, hroot, decide_False, Bool.false_eq_true, hfold,
    List.reverse_reverse, hparts]
  have hj := strings.Join_toList (strings.Split p '/') '/'
  rw [(strings.Split_spec p '/').1] at hj
  exact eq_of_toList_eq _ _ hj

/-- `Clean` leaves a rooted path as it is whose parts after the leading slash are proper
elements, one at least. -/
theorem path.Clean_rooted_proper (p : String) (props : List String)
    (hsplit : strings.Split p '/' = "" :: props) (hne0 : props ≠ [])
    (hprops : ∀ e ∈ props, e ≠ "" ∧ e ≠ "." ∧ e ≠ "..") :
    path.Clean p = p := by
  have hne : p ≠ "" := by
    rintro rfl
    have : strings.Split "" '/' = [""] := rfl
    rw [this] at hsplit
    cases hsplit
    exact hne0 rfl
  have hroot : p.toList.head? = some '/' := by
    cases hp : p.toList with
    | nil =>
      exact absurd (eq_of_toList_eq p "" hp) hne
    | cons c cs =>
      by_cases hc : c = '/'
      · rw [hc]
        rfl
      · obtain ⟨x, xs, hx, hxne⟩ := strings.Split_unrooted p c cs hp hc
        rw [hsplit] at hx
        cases hx
        exact absurd rfl hxne
  have hfold : (strings.Split p '/').foldl (path.cleanStep true) [] = props.reverse := by
    rw [hsplit, List.foldl_cons]
    have h0 : path.cleanStep true [] "" = [] := rfl
    rw [h0, path.foldl_cleanStep_proper true props _ hprops]
    simp
  simp only [path.Clean, hne, if_false, hroot, decide_True, if_true, hfold,
    List.reverse_reverse]
  apply eq_of_toList_eq
  have hj := strings.Join_toList props '/'
  have hp := (strings.Split_spec p '/').1
  rw [hsplit] at hp
  rw [toList_append, show (strings.Join props "/").toList
    = List.intercalate ['/'] (props.map String.toList) from hj, ← hp]
  cases props with
  | nil => exact absurd rfl hne0
  | cons y ys =>
    simp only [List.map_cons, intercalate_cons_eq, List.flatten_cons]
    rfl


/-- `path.Join` of two elements, by which of them are empty. -/
theorem path.Join_pair (ns k : String) :
    path.Join [ns, k] =
      if ns = "" then (if k = "" then "" else path.Clean k)
      else if k = "" then path.Clean ns else path.Clean (ns ++ "/" ++ k) := by
  by_cases hn : ns = "" <;> by_cases hk : k = "" <;>
    simp only [path.Join, List.filter, hn, hk, ne_eq, not_true_eq_false, not_false_eq_true,
      decide_True, decide_False, if_true, if_false] <;> rfl

theorem strings.Split_slash_append (ns k : String) :
    strings.Split (ns ++ "/" ++ k) '/' = strings.Split ns '/' ++ strings.Split k '/' := by
  simp only [strings.Split, toList_append, List.append_assoc]
  exact strings.splitLoop_append '/' ns.toList _ []

/-- A common prefix of `..` elements: what follows them in one list follows them in the
other. -/
theorem ups_prefix (ups props A B : List String) (h : A ++ B = ups ++ props)
    (hups : ∀ e ∈ ups, e = "..") (hB : ∀ e ∈ B, e ≠ "..") :
    ∃ props', A = ups ++ props' ∧ props = props' ++ B := by
  induction ups generalizing A with
  | nil => exact ⟨A, rfl, h.symm⟩
  | cons u ups ih =>
    have hu : u = ".." := hups u (List.mem_cons_self _ _)
    cases A with
    | nil =>
      rw [List.nil_append] at h
      exact absurd hu (hB u (h ▸ List.mem_cons_self _ _))
    | cons a A' =>
      simp only [List.cons_append, List.cons.injEq] at h
      obtain ⟨props', hA, hp⟩ := ih A' h.2 (fun e he => hups e (List.mem_cons_of_mem _ he))
      exact ⟨props', by rw [h.1, hA]; rfl, hp⟩

/-- The parts of a string without a dot are neither `.` nor `..`. -/
theorem strings.Split_no_dot (k : String) (hdot : '.' ∉ k.toList) :
    ∀ e ∈ strings.Split k '/', e ≠ "." ∧ e ≠ ".." := by
  intro e he
  constructor
  · rintro rfl
    rcases strings.splitLoop_chars _ _ _ _ he '.' (by decide) with h | h
    · simp at h
    · exact hdot h
  · rintro rfl
    rcases strings.splitLoop_chars _ _ _ _ he '.' (by decide) with h | h
    · simp at h
    · exact hdot h


/-- A cleaned path is never the path it was made of with a slash before it. -/
theorem path.Clean_ne_slash_append (k : String) (hk : k ≠ "") :
    path.Clean k ≠ "" ++ "/" ++ k := by
  intro h
  have hs : strings.Split (path.Clean k) '/' = "" :: strings.Split k '/' := by
    rw [h]
    exact strings.Split_rooted _ k.toList (by rw [toList_append, toList_append]; rfl)
  by_cases hr : k.toList.head? = some '/'
  · obtain ⟨props, hprops, hX⟩ := path.Split_Clean_rooted k hr
    cases hkl : k.toList with
    | nil =>
      rw [hkl] at hr
      cases hr
    | cons c cs =>
      rw [hkl] at hr
      simp only [List.head?_cons, Option.some.injEq] at hr
      subst hr
      have hk2 := strings.Split_rooted k cs hkl
      rw [hs, hk2] at hX
      rcases hX with hX | ⟨_, hX⟩
      · simp only [List.cons.injEq, true_and] at hX
        exact strings.splitLoop_ne_nil _ _ _ hX
      · simp only [List.cons.injEq, true_and] at hX
        exact (hprops "" (hX ▸ List.mem_cons_self _ _)).1 rfl
  · obtain ⟨ups, props, hups, hprops, hX⟩ := path.Split_Clean_unrooted k hk hr
    rw [hs] at hX
    rcases hX with hX | ⟨_, hX⟩
    · simp only [List.cons.injEq] at hX
      exact absurd hX.1 (by decide)
    · have hmem : "" ∈ ups ++ props := hX ▸ List.mem_cons_self _ _
      rcases List.mem_append.mp hmem with h1 | h1
      · exact absurd (hups "" h1) (by decide)
      · exact (hprops "" h1).1 rfl

/-- A cleaned path is never the path it was made of with a slash after it. -/
theorem path.Clean_ne_append_slash (ns : String) (hns : ns ≠ "") :
    path.Clean ns ≠ ns ++ "/" ++ "" := by
  intro h
  have hs : strings.Split (path.Clean ns) '/' = strings.Split ns '/' ++ [""] := by
    rw [h, strings.Split_slash_append]
    rfl
  have hA : strings.Split ns '/' ≠ [] := strings.splitLoop_ne_nil _ _ _
  have hlast : ∀ (ups props : List String), (∀ e ∈ ups, e = "..") →
      (∀ e ∈ props, e ≠ "" ∧ e ≠ "." ∧ e ≠ "..") →
      strings.Split ns '/' ++ [""] ≠ ups ++ props := by
    intro ups props hups hprops hX
    have hmem : "" ∈ ups ++ props := hX ▸ List.mem_append_right _ (List.mem_singleton.mpr rfl)
    rcases List.mem_append.mp hmem with h1 | h1
    · exact absurd (hups "" h1) (by decide)
    · exact (hprops "" h1).1 rfl
  by_cases hr : ns.toList.head? = some '/'
  · obtain ⟨props, hprops, hX⟩ := path.Split_Clean_rooted ns hr
    rw [hs] at hX
    cases hA' : strings.Split ns '/' with
    | nil => exact hA hA'
    | cons a A' =>
      rw [hA'] at hX
      rcases hX with hX | ⟨_, hX⟩
      · simp only [List.cons_append, List.cons.injEq] at hX
        have hnil : A' = [] := by
          cases A' with
          | nil => rfl
          | cons b B' =>
            have := hX.2
            simp at this
        rw [hnil, hX.1] at hA'
        exact hns (strings.Split_eq_singleton_empty ns hA')
      · simp only [List.cons_append, List.cons.injEq] at hX
        have hmem : "" ∈ props := hX.2 ▸ List.mem_append_right _ (List.mem_singleton.mpr rfl)
        exact (hprops "" hmem).1 rfl
  · obtain ⟨ups, props, hups, hprops, hX⟩ := path.Split_Clean_unrooted ns hns hr
    rw [hs] at hX
    rcases hX with hX | ⟨_, hX⟩
    · cases hA' : strings.Split ns '/' with
      | nil => exact hA hA'
      | cons a A' =>
        rw [hA'] at hX
        simp only [List.cons_append, List.cons.injEq] at hX
        have := hX.2
        simp at this
    · exact hlast ups props hups hprops hX

/-- When `Clean` leaves `ns/k` as it is, for a `k` without a dot, the namespace is clean
and no part of `k` is empty. -/
theorem path.Clean_fixed_shape (ns k : String) (hns : ns ≠ "")
    (hdot : '.' ∉ k.toList) (h : path.Clean (ns ++ "/" ++ k) = ns ++ "/" ++ k) :
    cleanNamespace ns ∧ ∀ e ∈ strings.Split k '/', e ≠ "" := by
  have hA : strings.Split ns '/' ≠ [] := strings.splitLoop_ne_nil _ _ _
  have hB : strings.Split k '/' ≠ [] := strings.splitLoop_ne_nil _ _ _
  have hpne : ns ++ "/" ++ k ≠ "" := by
    intro e
    have := congrArg String.toList e
    rw [toList_append, toList_append] at this
    simp at this
  by_cases hr : (ns ++ "/" ++ k).toList.head? = some '/'
  · obtain ⟨props, hprops, hX⟩ := path.Split_Clean_rooted _ hr
    rw [h, strings.Split_slash_append] at hX
    cases hA' : strings.Split ns '/' with
    | nil => exact absurd hA' hA
    | cons a A' =>
      rw [hA'] at hX
      rcases hX with hX | ⟨_, hX⟩
      · exfalso
        simp only [List.cons_append, List.cons.injEq] at hX
        cases A' with
        | nil =>
          rw [hX.1] at hA'
          exact hns (strings.Split_eq_singleton_empty ns hA')
        | cons b B' =>
          have h2 := hX.2
          simp only [List.cons_append, List.cons.injEq, List.append_eq_nil] at h2
          exact hB h2.2.2
      · simp only [List.cons_append, List.cons.injEq] at hX
        obtain ⟨ha, hrest⟩ := hX
        subst ha
        have hA'ne : A' ≠ [] := by
          rintro rfl
          exact hns (strings.Split_eq_singleton_empty ns hA')
        refine ⟨⟨[], A', by simp, ?_, Or.inr ⟨hA'ne, hA'⟩⟩, ?_⟩
        · intro e he
          exact hprops e (hrest ▸ List.mem_append_left _ he)
        · intro e he
          exact (hprops e (hrest ▸ List.mem_append_right _ he)).1
  · obtain ⟨ups, props, hups, hprops, hX⟩ := path.Split_Clean_unrooted _ hpne hr
    rw [h, strings.Split_slash_append] at hX
    rcases hX with hX | ⟨_, hX⟩
    · exfalso
      cases hA' : strings.Split ns '/' with
      | nil => exact hA hA'
      | cons a A' =>
        rw [hA'] at hX
        simp only [List.cons_append, List.cons.injEq, List.append_eq_nil] at hX
        exact hB hX.2.2
    · obtain ⟨props', hA', hp⟩ := ups_prefix ups props _ _ hX hups
        (fun e he => (strings.Split_no_dot k hdot e he).2)
      refine ⟨⟨ups, props', hups, ?_, Or.inl hA'⟩, ?_⟩
      · intro e he
        exact hprops e (hp ▸ List.mem_append_left _ he)
      · intro e he
        exact (hprops e (hp ▸ List.mem_append_right _ he)).1

/-- `path.Join` of a namespace and a key without a dot is the namespace, a slash, and the
key exactly when the namespace is clean and no part of the key is empty. -/
theorem path.Join_eq_iff (ns k : String) (hdot : '.' ∉ k.toList) :
    path.Join [ns, k] = ns ++ "/" ++ k
      ↔ cleanNamespace ns ∧ ∀ e ∈ strings.Split k '/', e ≠ "" := by
  rw [path.Join_pair]
  constructor
  · intro h
    by_cases hn : ns = ""
    · by_cases hk : k = ""
      · subst hn
        subst hk
        simp only [if_true] at h
        exact absurd h (by decide)
      · subst hn
        simp only [if_true, hk, if_false] at h
        exact absurd h (path.Clean_ne_slash_append k hk)
    · by_cases hk : k = ""
      · subst hk
        simp only [hn, if_false, if_true] at h
        exact absurd h (path.Clean_ne_append_slash ns hn)
      · simp only [hn, hk, if_false] at h
        exact path.Clean_fixed_shape ns k hn hdot h
  · rintro ⟨⟨ups, props, hups, hprops, hcase⟩, hkparts⟩
    have hk : k ≠ "" := by
      rintro rfl
      exact hkparts "" (by decide) rfl
    have hn : ns ≠ "" := by
      rintro rfl
      have h0 : strings.Split "" '/' = [""] := rfl
      rw [h0] at hcase
      rcases hcase with hc | ⟨hne, hc⟩
      · have hmem : "" ∈ ups ++ props := hc ▸ List.mem_singleton.mpr rfl
        rcases List.mem_append.mp hmem with h1 | h1
        · exact absurd (hups "" h1) (by decide)
        · exact (hprops "" h1).1 rfl
      · simp only [List.cons.injEq, true_and] at hc
        exact hne hc.symm
    simp only [hn, hk, if_false]
    have hB : ∀ e ∈ strings.Split k '/', e ≠ "" ∧ e ≠ "." ∧ e ≠ ".." := fun e he =>
      ⟨hkparts e he, (strings.Split_no_dot k hdot e he).1,
        (strings.Split_no_dot k hdot e he).2⟩
    rcases hcase with hc | ⟨hne, hc⟩
    · refine path.Clean_ups_proper _ ups (props ++ strings.Split k '/') ?_ hups ?_
      · rw [strings.Split_slash_append, hc, List.append_assoc]
      · intro e he
        rcases List.mem_append.mp he with h1 | h1
        · exact hprops e h1
        · exact hB e h1
    · refine path.Clean_rooted_proper _ (props ++ strings.Split k '/') ?_ ?_ ?_
      · rw [strings.Split_slash_append, hc]
        rfl
      · simp [hne]
      · intro e he
        rcases List.mem_append.mp he with h1 | h1
        · exact hprops e h1
        · exact hB e h1


theorem strings.ReplaceChar_not_mem (s : String) (old new : Char) (h : new ≠ old) :
    old ∉ (strings.ReplaceChar s old new).toList := by
  intro hc
  simp only [strings.ReplaceChar, toList_mk, List.mem_map] at hc
  obtain ⟨a, _, ha⟩ := hc
  by_cases hao : a = old
  · rw [if_pos hao] at ha
    exact h ha
  · rw [if_neg hao] at ha
    exact hao ha

/-- One iteration of the Consul watch names the store path and the callback key by the
translated key, and hands the translated key on. -/
theorem consul_watch_keys (c : consulConfigSource) (a : WatchCall) (o : ConsulOutcome) :
    (∀ e ∈ (c.watch a o).1,
      (∀ p i, e = .query p i →
        p = path.Join [c.nspace, strings.ReplaceChar a.key '.' '/']) ∧
      (∀ k v, e = .callback k v → k = strings.ReplaceChar a.key '.' '/')) ∧
    (∀ a', (c.watch a o).2 = .ok a' → a'.key = strings.ReplaceChar a.key '.' '/') := by
  cases hc : c.client with
  | none => simp [consulConfigSource.watch, hc]
  | some cl =>
    cases o with
    | err =>
      rw [consul_watch_err c cl hc]
      refine ⟨?_, ?_⟩
      · intro e he
        simp only [List.mem_cons, List.mem_singleton, List.not_mem_nil, or_false] at he
        rcases he with rfl | rfl
        · exact ⟨fun p i h => (by cases h; rfl), fun k v h => (by cases h)⟩
        · exact ⟨fun p i h => (by cases h), fun k v h => (by cases h)⟩
      · intro a' h
        cases h
        rfl
    | ok pair meta =>
      cases pair with
      | none =>
        simp only [consulConfigSource.watch, hc]
        refine ⟨?_, ?_⟩
        · intro e he
          rcases List.mem_cons.mp he with rfl | he
          · exact ⟨fun p i h => (by cases h; rfl), fun k v h => (by cases h)⟩
          · split at he
            · rw [List.mem_singleton] at he
              subst he
              exact ⟨fun p i h => (by cases h), fun k v h => (by cases h; rfl)⟩
            · cases he
        · intro a' h
          cases h
          rfl
      | some value =>
        cases meta with
        | none =>
          simp only [consulConfigSource.watch, hc]
          refine ⟨?_, fun a' h => by cases h⟩
          intro e he
          rcases List.mem_cons.mp he with rfl | he
          · exact ⟨fun p i h => (by cases h; rfl), fun k v h => (by cases h)⟩
          · split at he
            · rw [List.mem_singleton] at he
              subst he
              exact ⟨fun p i h => (by cases h), fun k v h => (by cases h; rfl)⟩
            · cases he
        | some li =>
          simp only [consulConfigSource.watch, hc]
          refine ⟨?_, ?_⟩
          · intro e he
            rcases List.mem_cons.mp he with rfl | he
            · exact ⟨fun p i h => (by cases h; rfl), fun k v h => (by cases h)⟩
            · split at he
              · rw [List.mem_singleton] at he
                subst he
                exact ⟨fun p i h => (by cases h), fun k v h => (by cases h; rfl)⟩
              · cases he
          · intro a' h
            cases h
            rfl

/-- Over a whole run of the Consul watch every read names the path of the translated key
and every callback is called with the translated key. -/
theorem consul_trace_keys (c : consulConfigSource) (key : String) (os : List ConsulOutcome)
    (a : WatchCall)
    (ha : strings.ReplaceChar a.key '.' '/' = strings.ReplaceChar key '.' '/') :
    ∀ e ∈ (c.watchLoop a os).1,
      (∀ p i, e = .query p i → p = path.Join [c.nspace, strings.ReplaceChar key '.' '/']) ∧
      (∀ k v, e = .callback k v → k = strings.ReplaceChar key '.' '/') := by
  induction os generalizing a with
  | nil =>
    intro e he
    simp [consulConfigSource.watchLoop] at he
  | cons o os ih =>
    obtain ⟨heff, hnext⟩ := consul_watch_keys c a o
    rw [ha] at heff hnext
    intro e he
    simp only [consulConfigSource.watchLoop] at he
    cases hw : c.watch a o with
    | mk eff r =>
      rw [hw] at he heff hnext
      cases r with
      | error msg => exact heff e he
      | ok a' =>
        simp only [List.mem_append] at he
        rcases he with he | he
        · exact heff e he
        · refine ih a' ?_ e he
          rw [hnext a' rfl]
          exact strings.ReplaceChar_idem _ _ _ (by decide)


/-- One iteration of the etcd watch names the store path and the callback key by the
translated key, and hands the translated key on. -/
theorem etcd_watch_keys (c : etcdConfigSource) (a : WatchCall) (o : EtcdOutcome) :
    (∀ e ∈ (c.watch a o).1,
      (∀ p i, e = .query p i →
        p = path.Join [c.nspace, strings.ReplaceChar a.key '.' '/']) ∧
      (∀ k v, e = .callback k v → k = strings.ReplaceChar a.key '.' '/')) ∧
    (∀ a', (c.watch a o).2 = .ok a' → a'.key = strings.ReplaceChar a.key '.' '/') := by
  cases hc : c.client with
  | none => simp [etcdConfigSource.watch, hc]
  | some cl =>
    cases o with
    | err =>
      rw [etcd_watch_err c cl hc]
      refine ⟨?_, ?_⟩
      · intro e he
        simp only [List.mem_cons, List.mem_singleton, List.not_mem_nil, or_false] at he
        rcases he with rfl | rfl
        · exact ⟨fun p i h => (by cases h; rfl), fun k v h => (by cases h)⟩
        · exact ⟨fun p i h => (by cases h), fun k v h => (by cases h)⟩
      · intro a' h
        cases h
        rfl
    | ok value =>
      rw [etcd_watch_ok c cl hc]
      refine ⟨?_, ?_⟩
      · intro e he
        rcases List.mem_cons.mp he with rfl | he
        · exact ⟨fun p i h => (by cases h; rfl), fun k v h => (by cases h)⟩
        · split at he
          · rw [List.mem_singleton] at he
            subst he
            exact ⟨fun p i h => (by cases h), fun k v h => (by cases h; rfl)⟩
          · cases he
      · intro a' h
        cases h
        rfl

/-- Over a whole run of the etcd watch every wait names the path of the translated key and
every callback is called with the translated key. -/
theorem etcd_trace_keys (c : etcdConfigSource) (key : String) (os : List EtcdOutcome)
    (a : WatchCall)
    (ha : strings.ReplaceChar a.key '.' '/' = strings.ReplaceChar key '.' '/') :
    ∀ e ∈ (c.watchLoop a os).1,
      (∀ p i, e = .query p i → p = path.Join [c.nspace, strings.ReplaceChar key '.' '/']) ∧
      (∀ k v, e = .callback k v → k = strings.ReplaceChar key '.' '/') := by
  induction os generalizing a with
  | nil =>
    intro e he
    simp [etcdConfigSource.watchLoop] at he
  | cons o os ih =>
    obtain ⟨heff, hnext⟩ := etcd_watch_keys c a o
    rw [ha] at heff hnext
    intro e he
    simp only [etcdConfigSource.watchLoop] at he
    cases hw : c.watch a o with
    | mk eff r =>
      rw [hw] at he heff hnext
      cases r with
      | error msg => exact heff e he
      | ok a' =>
        simp only [List.mem_append] at he
        rcases he with he | he
        · exact heff e he
        · refine ih a' ?_ e he
          rw [hnext a' rfl]
          exact strings.ReplaceChar_idem _ _ _ (by decide)

/-- Every iteration of the Consul watch begins with the blocking read. -/
theorem consul_watchLoop_head (c : consulConfigSource) (cl : ConsulClient)
    (hc : c.client = some cl) (a : WatchCall) (o : ConsulOutcome) (os : List ConsulOutcome) :
    (c.watchLoop a (o :: os)).1.head?
      = some (.query (path.Join [c.nspace, strings.ReplaceChar a.key '.' '/']) a.waitIndex) := by
  have h1 : ∃ rest r, c.watch a o
      = (.query (path.Join [c.nspace, strings.ReplaceChar a.key '.' '/']) a.waitIndex :: rest,
        r) := by
    cases o with
    | err => exact ⟨_, _, consul_watch_err c cl hc a⟩
    | ok pair meta =>
      cases pair <;> cases meta <;> simp only [consulConfigSource.watch, hc] <;>
        exact ⟨_, _, rfl⟩
  obtain ⟨rest, r, h⟩ := h1
  simp only [consulConfigSource.watchLoop, h]
  cases r <;> rfl

/-- Every iteration of the etcd watch begins with the wait. -/
theorem etcd_watchLoop_head (c : etcdConfigSource) (cl : EtcdClient)
    (hc : c.client = some cl) (a : WatchCall) (o : EtcdOutcome) (os : List EtcdOutcome) :
    (c.watchLoop a (o :: os)).1.head?
      = some (.query (path.Join [c.nspace, strings.ReplaceChar a.key '.' '/']) 0) := by
  have h1 : ∃ rest r, c.watch a o
      = (.query (path.Join [c.nspace, strings.ReplaceChar a.key '.' '/']) 0 :: rest, r) := by
    cases o with
    | err => exact ⟨_, _, etcd_watch_err c cl hc a⟩
    | ok value => exact ⟨_, _, etcd_watch_ok c cl hc a value⟩
  obtain ⟨rest, r, h⟩ := h1
  simp only [etcdConfigSource.watchLoop, h]
  cases r <;> rfl

/-- C23 (as amended): the path both distributed sources read, in `Get` and in every
iteration of the watch started by `Subscribe`, is `path.Join` of the namespace and the key
with every `.` replaced by `/`; and that is the namespace, then `/`, then the translated
key, exactly when the namespace is written clean (after an optional leading `/` only
proper elements, one at least, none empty, none `.`, none `..`; or, without a leading
`/`, `..` elements followed by proper elements) and the translated key has no empty
element (the key is not empty and has no leading, trailing or doubled `.`). For such a
namespace and key `Get` and the watch read namespace `/` translated key. -/
theorem distributed_path_namespace_slash_key (ns key : String) :
    (path.Join [ns, strings.ReplaceChar key '.' '/']
        = ns ++ "/" ++ strings.ReplaceChar key '.' '/'
      ↔ cleanNamespace ns ∧
        ∀ e ∈ strings.Split (strings.ReplaceChar key '.' '/') '/', e ≠ "") ∧
    (∀ (kv : ConsulClient) (s m : Int),
      (⟨some kv, s, m, ns⟩ : consulConfigSource).Get key =
        match kv (path.Join [ns, strings.ReplaceChar key '.' '/']) with
        | .error _ => .ok .nil
        | .ok none => .ok .nil
        | .ok (some value) => .ok (.str value)) ∧
    (∀ (kv : EtcdClient) (s m : Int),
      (⟨some kv, s, m, ns⟩ : etcdConfigSource).Get key =
        match kv (path.Join [ns, strings.ReplaceChar key '.' '/']) with
        | .error _ => .ok .nil
        | .ok value => .ok (.str value)) ∧
    (∀ (kv : ConsulClient) (s m : Int) (os : List ConsulOutcome),
      ∀ a ∈ (⟨some kv, s, m, ns⟩ : consulConfigSource).Subscribe key,
        (∀ o, ((⟨some kv, s, m, ns⟩ : consulConfigSource).watchLoop a (o :: os)).1.head?
          = some (.query (path.Join [ns, strings.ReplaceChar key '.' '/']) 0)) ∧
        ∀ p i, WatchEffect.query p i
            ∈ ((⟨some kv, s, m, ns⟩ : consulConfigSource).watchLoop a os).1 →
          p = path.Join [ns, strings.ReplaceChar key '.' '/']) ∧
    (∀ (kv : EtcdClient) (s m : Int) (os : List EtcdOutcome),
      ∀ a ∈ (⟨some kv, s, m, ns⟩ : etcdConfigSource).Subscribe key,
        (∀ o, ((⟨some kv, s, m, ns⟩ : etcdConfigSource).watchLoop a (o :: os)).1.head?
          = some (.query (path.Join [ns, strings.ReplaceChar key '.' '/']) 0)) ∧
        ∀ p i, WatchEffect.query p i
            ∈ ((⟨some kv, s, m, ns⟩ : etcdConfigSource).watchLoop a os).1 →
          p = path.Join [ns, strings.ReplaceChar key '.' '/']) ∧
    (cleanNamespace ns →
      (∀ e ∈ strings.Split (strings.ReplaceChar key '.' '/') '/', e ≠ "") →
      (∀ (kv : ConsulClient) (s m : Int),
        (⟨some kv, s, m, ns⟩ : consulConfigSource).Get key =
          match kv (ns ++ "/" ++ strings.ReplaceChar key '.' '/') with
          | .error _ => .ok .nil
          | .ok none => .ok .nil
          | .ok (some value) => .ok (.str value)) ∧
      (∀ (kv : EtcdClient) (s m : Int),
        (⟨some kv, s, m, ns⟩ : etcdConfigSource).Get key =
          match kv (ns ++ "/" ++ strings.ReplaceChar key '.' '/') with
          | .error _ => .ok .nil
          | .ok value => .ok (.str value)) ∧
      (∀ (kv : ConsulClient) (s m : Int) (os : List ConsulOutcome),
        ∀ a ∈ (⟨some kv, s, m, ns⟩ : consulConfigSource).Subscribe key,
          (∀ o, ((⟨some kv, s, m, ns⟩ : consulConfigSource).watchLoop a (o :: os)).1.head?
            = some (.query (ns ++ "/" ++ strings.ReplaceChar key '.' '/') 0)) ∧
          ∀ p i, WatchEffect.query p i
              ∈ ((⟨some kv, s, m, ns⟩ : consulConfigSource).watchLoop a os).1 →
            p = ns ++ "/" ++ strings.ReplaceChar key '.' '/') ∧
      (∀ (kv : EtcdClient) (s m : Int) (os : List EtcdOutcome),
        ∀ a ∈ (⟨some kv, s, m, ns⟩ : etcdConfigSource).Subscribe key,
          (∀ o, ((⟨some kv, s, m, ns⟩ : etcdConfigSource).watchLoop a (o :: os)).1.head?
            = some (.query (ns ++ "/" ++ strings.ReplaceChar key '.' '/') 0)) ∧
          ∀ p i, WatchEffect.query p i
              ∈ ((⟨some kv, s, m, ns⟩ : etcdConfigSource).watchLoop a os).1 →
            p = ns ++ "/" ++ strings.ReplaceChar key '.' '/')) := by
  have hiff := path.Join_eq_iff ns (strings.ReplaceChar key '.' '/')
    (strings.ReplaceChar_not_mem key '.' '/' (by decide))
  have hget1 : ∀ (kv : ConsulClient) (s m : Int),
      (⟨some kv, s, m, ns⟩ : consulConfigSource).Get key =
        match kv (path.Join [ns, strings.ReplaceChar key '.' '/']) with
        | .error _ => .ok .nil
        | .ok none => .ok .nil
        | .ok (some value) => .ok (.str value) := fun _ _ _ => rfl
  have hget2 : ∀ (kv : EtcdClient) (s m : Int),
      (⟨some kv, s, m, ns⟩ : etcdConfigSource).Get key =
        match kv (path.Join [ns, strings.ReplaceChar key '.' '/']) with
        | .error _ => .ok .nil
        | .ok value => .ok (.str value) := fun _ _ _ => rfl
  have hw1 : ∀ (kv : ConsulClient) (s m : Int) (os : List ConsulOutcome),
      ∀ a ∈ (⟨some kv, s, m, ns⟩ : consulConfigSource).Subscribe key,
        (∀ o, ((⟨some kv, s, m, ns⟩ : consulConfigSource).watchLoop a (o :: os)).1.head?
          = some (.query (path.Join [ns, strings.ReplaceChar key '.' '/']) 0)) ∧
        ∀ p i, WatchEffect.query p i
            ∈ ((⟨some kv, s, m, ns⟩ : consulConfigSource).watchLoop a os).1 →
          p = path.Join [ns, strings.ReplaceChar key '.' '/'] := by
    intro kv s m os a ha
    simp only [consulConfigSource.Subscribe, List.mem_singleton] at ha
    subst ha
    refine ⟨fun o => consul_watchLoop_head _ kv rfl _ o os, ?_⟩
    intro p i hmem
    exact ((consul_trace_keys ⟨some kv, s, m, ns⟩ key os _ rfl) _ hmem).1 p i rfl
  have hw2 : ∀ (kv : EtcdClient) (s m : Int) (os : List EtcdOutcome),
      ∀ a ∈ (⟨some kv, s, m, ns⟩ : etcdConfigSource).Subscribe key,
        (∀ o, ((⟨some kv, s, m, ns⟩ : etcdConfigSource).watchLoop a (o :: os)).1.head?
          = some (.query (path.Join [ns, strings.ReplaceChar key '.' '/']) 0)) ∧
        ∀ p i, WatchEffect.query p i
            ∈ ((⟨some kv, s, m, ns⟩ : etcdConfigSource).watchLoop a os).1 →
          p = path.Join [ns, strings.ReplaceChar key '.' '/'] := by
    intro kv s m os a ha
    simp only [etcdConfigSource.Subscribe, List.mem_singleton] at ha
    subst ha
    refine ⟨fun o => etcd_watchLoop_head _ kv rfl _ o os, ?_⟩
    intro p i hmem
    exact ((etcd_trace_keys ⟨some kv, s, m, ns⟩ key os _ rfl) _ hmem).1 p i rfl
  refine ⟨hiff, hget1, hget2, hw1, hw2, ?_⟩
  intro hns hkey
  have hp := hiff.mpr ⟨hns, hkey⟩
  rw [hp] at hget1 hget2 hw1 hw2
  exact ⟨hget1, hget2, hw1, hw2⟩


/-- C23, at concrete inputs, read from a store that answers every path with the path: the
derived namespace of environment `dev`, service `svc`, version `1.0.0`; the rooted
namespace `/abs/ns`; the namespace `../ns`; each with the key `some-config.port`. The
namespace `ns/` is not clean. -/
theorem distributed_path_namespace_slash_key_witness :
    extensionNamespace ⟨[tableSource []]⟩ "dev" "svc" "1.0.0" ""
      = .ok "environments/dev/services/svc/1.0.0/config" ∧
    (⟨some (fun p => .ok (some p)), 500, 900000,
        "environments/dev/services/svc/1.0.0/config"⟩ : consulConfigSource).Get
        "some-config.port"
      = .ok (.str "environments/dev/services/svc/1.0.0/config/some-config/port") ∧
    (⟨some (fun p => .ok p), 500, 900000,
        "environments/dev/services/svc/1.0.0/config"⟩ : etcdConfigSource).Get
        "some-config.port"
      = .ok (.str "environments/dev/services/svc/1.0.0/config/some-config/port") ∧
    (⟨some (fun p => .ok (some p)), 500, 900000, "/abs/ns"⟩ : consulConfigSource).Get
        "some-config.port"
      = .ok (.str "/abs/ns/some-config/port") ∧
    (⟨some (fun p => .ok p), 500, 900000, "../ns"⟩ : etcdConfigSource).Get
        "some-config.port"
      = .ok (.str "../ns/some-config/port") ∧
    ¬ cleanNamespace "ns/" := by
  have hkey : ∀ e ∈ strings.Split (strings.ReplaceChar "some-config.port" '.' '/') '/',
      e ≠ "" := by
    show ∀ e ∈ ["some-config", "port"], _
    decide
  have h1 := (distributed_path_namespace_slash_key
    "environments/dev/services/svc/1.0.0/config" "some-config.port").2.2.2.2.2
    ⟨[], ["environments", "dev", "services", "svc", "1.0.0", "config"], by simp, by decide,
      Or.inl rfl⟩ hkey
  have h2 := (distributed_path_namespace_slash_key "/abs/ns" "some-config.port").2.2.2.2.2
    ⟨[], ["abs", "ns"], by simp, by decide, Or.inr ⟨by simp, rfl⟩⟩ hkey
  have h3 := (distributed_path_namespace_slash_key "../ns" "some-config.port").2.2.2.2.2
    ⟨[".."], ["ns"], by simp, by decide, Or.inl rfl⟩ hkey
  have h4 := (distributed_path_namespace_slash_key "ns/" "a").1
  refine ⟨rfl, h1.1 (fun p => .ok (some p)) 500 900000, h1.2.1 (fun p => .ok p) 500 900000,
    h2.1 (fun p => .ok (some p)) 500 900000, h3.2.1 (fun p => .ok p) 500 900000, ?_⟩
  intro hclean
  have hk : ∀ e ∈ strings.Split (strings.ReplaceChar "a" '.' '/') '/', e ≠ "" := by
    show ∀ e ∈ ["a"], _
    decide
  have := h4.mpr ⟨hclean, hk⟩
  exact absurd this (by decide)

/-- C23 as stated fails where `path.Join` cleans the path. With no `kumuluzee.name` set the
derived namespace is `environments/dev/services//1.0.0/config`, and the path read for the
key `some-config.port` is `environments/dev/services/1.0.0/config/some-config/port`, not
the namespace followed by `/` and the translated key; a namespace `ns/` and the key `a..b`
read `ns/a/b`, not `ns//a//b`. -/
theorem distributed_path_counterexample :
    ((NewUtil (fun _ => 0) echoWorld ⟨"", "consul", "", 0⟩).bind
        (fun u => u.Get "some-config.port"))
      = .ok (.str "environments/dev/services/1.0.0/config/some-config/port") ∧
    ((NewUtil (fun _ => 0) echoWorld ⟨"", "etcd", "", 0⟩).bind
        (fun u => u.Get "some-config.port"))
      = .ok (.str "environments/dev/services/1.0.0/config/some-config/port") ∧
    extensionNamespace ⟨[newEnvConfigSource echoWorld]⟩ "dev" "" "1.0.0" ""
      = .ok "environments/dev/services//1.0.0/config" ∧
    "environments/dev/services//1.0.0/config" ++ "/" ++
        strings.ReplaceChar "some-config.port" '.' '/'
      ≠ "environments/dev/services/1.0.0/config/some-config/port" ∧
    ((NewUtil (fun _ => 0) echoWorld ⟨"", "consul", "ns/", 0⟩).bind (fun u => u.Get "a..b"))
      = .ok (.str "ns/a/b") ∧
    ((⟨some (fun p => .ok (some p)), 500, 900000, "ns/"⟩ : consulConfigSource).watchLoop
        ⟨"consul", "a..b", "", 500, 0⟩ [.err]).1
      = [.query "ns/a/b" 0, .sleep 500000000] ∧
    "ns/" ++ "/" ++ strings.ReplaceChar "a..b" '.' '/' = "ns//a//b" := by
  refine ⟨rfl, rfl, rfl, by decide, rfl, rfl, rfl⟩

/-! ## The key the callback receives -/

/-- C24, the code: over every run of the watch that `Subscribe` starts for a key, in both
distributed sources, every call of the callback has as its first argument the key with
every `.` replaced by `/`, not the key that was passed to `Subscribe`. For the key
`some-config.port`, subscribed through the registry `NewUtil` builds, a change of the value
to `8081` calls the callback with `some-config/port`. -/
theorem watch_callback_key_translated :
    (∀ (c : consulConfigSource) (key : String) (os : List ConsulOutcome),
      ∀ a ∈ c.Subscribe key, ∀ k v, WatchEffect.callback k v ∈ (c.watchLoop a os).1 →
        k = strings.ReplaceChar key '.' '/') ∧
    (∀ (c : etcdConfigSource) (key : String) (os : List EtcdOutcome),
      ∀ a ∈ c.Subscribe key, ∀ k v, WatchEffect.callback k v ∈ (c.watchLoop a os).1 →
        k = strings.ReplaceChar key '.' '/') ∧
    (NewUtil (fun _ => 0) echoWorld ⟨"", "consul", "ns", 0⟩).map
        (fun u => u.Subscribe "some-config.port")
      = .ok [⟨"consul", "some-config.port", "", 500, 0⟩] ∧
    ((⟨some (fun p => .ok (some p)), 500, 900000, "ns"⟩ : consulConfigSource).watchLoop
        ⟨"consul", "some-config.port", "", 500, 0⟩ [.ok (some "8081") (some 7)]).1
      = [.query "ns/some-config/port" 0, .callback "some-config/port" "8081"] ∧
    (NewUtil (fun _ => 0) echoWorld ⟨"", "etcd", "ns", 0⟩).map
        (fun u => u.Subscribe "some-config.port")
      = .ok [⟨"etcd", "some-config.port", "", 500, 0⟩] ∧
    ((⟨some (fun p => .ok p), 500, 900000, "ns"⟩ : etcdConfigSource).watchLoop
        ⟨"etcd", "some-config.port", "", 500, 0⟩ [.ok "8081"]).1
      = [.query "ns/some-config/port" 0, .callback "some-config/port" "8081"] ∧
    "some-config/port" ≠ "some-config.port" := by
  refine ⟨?_, ?_, rfl, rfl, rfl, rfl, by decide⟩
  · intro c key os a ha k v hmem
    simp only [consulConfigSource.Subscribe, List.mem_singleton] at ha
    subst ha
    exact ((consul_trace_keys c key os _ rfl) _ hmem).2 k v rfl
  · intro c key os a ha k v hmem
    simp only [etcdConfigSource.Subscribe, List.mem_singleton] at ha
    subst ha
    exact ((etcd_trace_keys c key os _ rfl) _ hmem).2 k v rfl

/-! ## The retry delay in closed form -/

theorem backoffDelay_eq_cappedDelay (start max : Int) (h0 : 0 ≤ start) (hsm : start ≤ max)
    (k : Nat) : backoffDelay start max k = cappedDelay start max k := by
  induction k with
  | zero => simp [backoffDelay, cappedDelay, hsm]
  | succ k ih =>
    have hpow : start * 2 ^ (k + 1) = 2 * (start * 2 ^ k) := by ring
    have hmono : start ≤ start * 2 ^ k := by
      have h1 : (1 : Int) ≤ 2 ^ k := one_le_pow₀ (by norm_num)
      nlinarith
    simp only [backoffDelay, ih]
    simp only [cappedDelay, hpow]
    rcases le_total (start * 2 ^ k) max with h | h
    · rw [min_eq_left h]
      split
      · rename_i h2
        rw [min_eq_left h2]
      · rename_i h2
        rw [min_eq_right (le_of_lt (not_le.mp h2))]
    · rw [min_eq_right h]
      have h2 : max ≤ 2 * (start * 2 ^ k) := by omega
      rw [min_eq_right h2]
      split
      · omega
      · rfl

theorem cappedDelay_mono (start max : Int) (h0 : 0 ≤ start) {i j : Nat} (hij : i ≤ j) :
    cappedDelay start max i ≤ cappedDelay start max j := by
  have h : start * 2 ^ i ≤ start * 2 ^ j :=
    mul_le_mul_of_nonneg_left (pow_le_pow_right₀ (by norm_num) hij) h0
  exact min_le_min h (le_refl _)

theorem cappedDelay_bounds (start max : Int) (h0 : 0 ≤ start) (hsm : start ≤ max) (k : Nat) :
    start ≤ cappedDelay start max k ∧ cappedDelay start max k ≤ max := by
  refine ⟨le_min ?_ hsm, min_le_right _ _⟩
  have h1 : (1 : Int) ≤ 2 ^ k := one_le_pow₀ (by norm_num)
  nlinarith

/-- The list of the first `k` delays in nanoseconds is non-decreasing, lies between start
and maximum, and stays at the maximum from the first time it is there. -/
theorem cappedDelay_list (start max : Int) (h0 : 0 ≤ start) (hsm : start ≤ max) (k : Nat) :
    let l := (List.range k).map (fun i => cappedDelay start max i * 1000000)
    l.Pairwise (fun x y => x ≤ y) ∧
    (∀ d ∈ l, start * 1000000 ≤ d ∧ d ≤ max * 1000000) ∧
    (∀ i j, i ≤ j → j < k → l[i]? = some (max * 1000000) → l[j]? = some (max * 1000000)) := by
  intro l
  refine ⟨?_, ?_, ?_⟩
  · rw [List.pairwise_map]
    refine List.Pairwise.imp_of_mem ?_ (List.pairwise_lt_range k)
    intro a b _ _ hab
    have := cappedDelay_mono start max h0 (le_of_lt hab)
    omega
  · intro d hd
    simp only [l, List.mem_map, List.mem_range] at hd
    obtain ⟨i, _, rfl⟩ := hd
    have := cappedDelay_bounds start max h0 hsm i
    omega
  · intro i j hij hjk hi
    have hik : i < k := lt_of_le_of_lt hij hjk
    simp only [l, List.getElem?_map, List.getElem?_range hik, List.getElem?_range hjk,
      Option.map_some', Option.some.injEq] at hi ⊢
    have h1 := cappedDelay_mono start max h0 hij
    have h2 := (cappedDelay_bounds start max h0 hsm j).2
    omega


/-- C26 (as amended): if `0 < start ≤ max ≤ 9223372036854` milliseconds (so that the delay
in nanoseconds fits a 64-bit signed integer), then in both watch loops, from a call with the
start delay (the call `Subscribe` makes, and the call after every iteration that is not
a failure), `k` consecutive failures sleep `min (start * 2^i) max` milliseconds before
retry `i`, for `i` from 0 to `k - 1`, and leave the delay `min (start * 2^k) max` for the
next one; the delays slept are non-decreasing, lie between start and maximum, and stay at
the maximum from the first time it is reached. -/
theorem retry_delay_closed_form (start max : Int) (h0 : 0 < start) (hsm : start ≤ max)
    (hmax : max ≤ 9223372036854) :
    (∀ (cl : ConsulClient) (ns : String),
      (∀ key, ∀ a ∈ (⟨some cl, start, max, ns⟩ : consulConfigSource).Subscribe key,
        a.retryDelay = start) ∧
      (∀ a a' pair meta,
        ((⟨some cl, start, max, ns⟩ : consulConfigSource).watch a (.ok pair meta)).2 = .ok a' →
        a'.retryDelay = start) ∧
      ∀ a k, a.retryDelay = start →
        sleepsOf ((⟨some cl, start, max, ns⟩ : consulConfigSource).watchLoop a
            (List.replicate k .err)).1
          = (List.range k).map (fun i => cappedDelay start max i * 1000000) ∧
        ((⟨some cl, start, max, ns⟩ : consulConfigSource).watchLoop a
            (List.replicate k .err)).2.map (fun a' => a'.retryDelay)
          = .ok (cappedDelay start max k)) ∧
    (∀ (cl : EtcdClient) (ns : String),
      (∀ key, ∀ a ∈ (⟨some cl, start, max, ns⟩ : etcdConfigSource).Subscribe key,
        a.retryDelay = start) ∧
      (∀ a a' value,
        ((⟨some cl, start, max, ns⟩ : etcdConfigSource).watch a (.ok value)).2 = .ok a' →
        a'.retryDelay = start) ∧
      ∀ a k, a.retryDelay = start →
        sleepsOf ((⟨some cl, start, max, ns⟩ : etcdConfigSource).watchLoop a
            (List.replicate k .err)).1
          = (List.range k).map (fun i => cappedDelay start max i * 1000000) ∧
        ((⟨some cl, start, max, ns⟩ : etcdConfigSource).watchLoop a
            (List.replicate k .err)).2.map (fun a' => a'.retryDelay)
          = .ok (cappedDelay start max k)) ∧
    (∀ k,
      ((List.range k).map (fun i => cappedDelay start max i * 1000000)).Pairwise
        (fun x y => x ≤ y) ∧
      (∀ d ∈ (List.range k).map (fun i => cappedDelay start max i * 1000000),
        start * 1000000 ≤ d ∧ d ≤ max * 1000000) ∧
      (∀ i j, i ≤ j → j < k →
        ((List.range k).map (fun i => cappedDelay start max i * 1000000))[i]?
          = some (max * 1000000) →
        ((List.range k).map (fun i => cappedDelay start max i * 1000000))[j]?
          = some (max * 1000000))) := by
  have h0' : 0 ≤ start := le_of_lt h0
  have hfun : (fun i => backoffDelay start max (0 + i) * 1000000)
      = (fun i => cappedDelay start max i * 1000000) := by
    funext i
    rw [Nat.zero_add, backoffDelay_eq_cappedDelay start max h0' hsm]
  refine ⟨?_, ?_, fun k => cappedDelay_list start max h0' hsm k⟩
  · intro cl ns
    refine ⟨?_, ?_, ?_⟩
    · intro key a ha
      simp only [consulConfigSource.Subscribe, List.mem_singleton] at ha
      subst ha
      rfl
    · intro a a' pair meta h
      exact consul_watch_ok_delay ⟨some cl, start, max, ns⟩ a a' pair meta h
    · intro a k ha
      obtain ⟨hs, a', ha', hd⟩ :=
        consul_failures_backoff ⟨some cl, start, max, ns⟩ cl rfl h0' hsm hmax k 0 a ha
      refine ⟨?_, ?_⟩
      · rw [hs]
        exact congrArg (fun f => List.map f (List.range k)) hfun
      · rw [ha']
        simp only [Except.map, hd, Nat.zero_add,
          backoffDelay_eq_cappedDelay start max h0' hsm]
  · intro cl ns
    refine ⟨?_, ?_, ?_⟩
    · intro key a ha
      simp only [etcdConfigSource.Subscribe, List.mem_singleton] at ha
      subst ha
      rfl
    · intro a a' value h
      exact etcd_watch_ok_delay ⟨some cl, start, max, ns⟩ a a' value h
    · intro a k ha
      obtain ⟨hs, a', ha', hd⟩ :=
        etcd_failures_backoff ⟨some cl, start, max, ns⟩ cl rfl h0' hsm hmax k 0 a ha
      refine ⟨?_, ?_⟩
      · rw [hs]
        exact congrArg (fun f => List.map f (List.range k)) hfun
      · rw [ha']
        simp only [Except.map, hd, Nat.zero_add,
          backoffDelay_eq_cappedDelay start max h0' hsm]

/-- C26, at start 500 ms and maximum 3000 ms: five failures in a row after `Subscribe`
sleep 500 ms, 1 s, 2 s, 3 s and 3 s, and the delay left for the sixth is 3 s. -/
theorem retry_delay_closed_form_witness :
    sleepsOf ((⟨some (fun _ => .ok none), 500, 3000, "ns"⟩ : consulConfigSource).watchLoop
        ⟨"consul", "k", "", 500, 0⟩ (List.replicate 5 .err)).1
      = [500000000, 1000000000, 2000000000, 3000000000, 3000000000] ∧
    ((⟨some (fun _ => .ok none), 500, 3000, "ns"⟩ : consulConfigSource).watchLoop
        ⟨"consul", "k", "", 500, 0⟩ (List.replicate 5 .err)).2.map (fun a' => a'.retryDelay)
      = .ok 3000 := by
  have h := ((retry_delay_closed_form 500 3000 (by decide) (by decide) (by decide)).1
    (fun _ => .ok none) "ns").2.2 ⟨"consul", "k", "", 500, 0⟩ 5 rfl
  refine ⟨h.1.trans ?_, h.2.trans ?_⟩
  · decide
  · exact congrArg Except.ok (by decide)

/-- C26 as stated fails for a maximum whose double fits a 64-bit signed integer while the
delay in nanoseconds does not: with start and maximum 9223372036855 ms the duration
slept at the first failure is negative (no sleep at all), not 9223372036855 ms. -/
theorem retry_delay_nanoseconds_counterexample :
    (0 : Int) < 9223372036855 ∧ (2 : Int) * 9223372036855 ≤ maxInt64 ∧
    ((⟨some (fun _ => .ok none), 9223372036855, 9223372036855, "ns"⟩ :
        consulConfigSource).Subscribe "k").map
      (fun a => sleepsOf ((⟨some (fun _ => .ok none), 9223372036855, 9223372036855, "ns"⟩ :
        consulConfigSource).watchLoop a [.err]).1)
      = [[-9223372036854551616]] ∧
    ((⟨some (fun _ => .ok ""), 9223372036855, 9223372036855, "ns"⟩ :
        etcdConfigSource).Subscribe "k").map
      (fun a => sleepsOf ((⟨some (fun _ => .ok ""), 9223372036855, 9223372036855, "ns"⟩ :
        etcdConfigSource).watchLoop a [.err]).1)
      = [[-9223372036854551616]] ∧
    min ((9223372036855 : Int) * 2 ^ 0) 9223372036855 * 1000000 ≠ -9223372036854551616 := by
  refine ⟨by decide, by decide, rfl, rfl, by decide⟩

/-! ## The struct binder: the calls of the field processor -/

/-- The calls of the loop below the struct at `ref` are the calls of the loop below the
struct passed, with `ref` before every field reference. -/
theorem traverseStruct.loop_ref (tbl : Char → Char) (s : Fields) (ref : List Nat) (i : Nat)
    (prefixKey : String) :
    traverseStruct.loop tbl s ref i prefixKey
      = (traverseStruct.loop tbl s [] i prefixKey).map
          (fun c => { c with value := ref ++ c.value }) := by
  induction s generalizing ref i prefixKey with
  | nil => rfl
  | leaf field value rest ih =>
    simp only [traverseStruct.loop, List.map_cons, List.nil_append]
    rw [ih ref]
  | struct field inner rest ihi ihr =>
    simp only [traverseStruct.loop, List.map_append, List.nil_append]
    rw [ihi (ref ++ [i]), ihi [i], ihr ref, List.map_map]
    congr 1
    apply List.map_congr_left
    intro c _
    simp

theorem traverseStruct.loop_struct (tbl : Char → Char) (field : StructField)
    (inner rest : Fields) (i : Nat) (prefixKey : String) :
    traverseStruct.loop tbl (.struct field inner rest) [] i prefixKey
      = (traverseStruct.loop tbl inner [] 0 (retrieveKey tbl prefixKey field field.Tag)).map
          (fun c => { c with value := i :: c.value }) ++
        traverseStruct.loop tbl rest [] (i + 1) prefixKey := by
  simp only [traverseStruct.loop, List.nil_append]
  rw [traverseStruct.loop_ref tbl inner [i]]
  rfl

/-- Every call of the loop is for a leaf, with the `StructField`, the tag and the key of
that leaf. -/
theorem traverseStruct.loop_sound (tbl : Char → Char) (s : Fields) (i : Nat)
    (prefixKey : String) :
    ∀ c ∈ traverseStruct.loop tbl s [] i prefixKey, ∃ j tail,
      c.value = (i + j) :: tail ∧ (s.leafAt (j :: tail)).isSome = true ∧
      s.fieldAt (j :: tail) = some c.field ∧ c.tags = c.field.Tag ∧
      s.keyAt tbl prefixKey (j :: tail) = some c.key := by
  induction s generalizing i prefixKey with
  | nil =>
    intro c hc
    simp [traverseStruct.loop] at hc
  | leaf field value rest ih =>
    intro c hc
    simp only [traverseStruct.loop, List.nil_append, List.mem_cons] at hc
    rcases hc with rfl | hc
    · exact ⟨0, [], rfl, rfl, rfl, rfl, rfl⟩
    · obtain ⟨j, tail, hv, hl, hf, ht, hk⟩ := ih (i + 1) prefixKey c hc
      refine ⟨j + 1, tail, ?_, hl, hf, ht, hk⟩
      rw [hv]
      congr 1
      omega
  | struct field inner rest ihi ihr =>
    intro c hc
    rw [traverseStruct.loop_struct, List.mem_append, List.mem_map] at hc
    rcases hc with ⟨c0, hc0, rfl⟩ | hc
    · obtain ⟨j, tail, hv, hl, hf, ht, hk⟩ := ihi 0 _ c0 hc0
      rw [Nat.zero_add] at hv
      refine ⟨0, j :: tail, ?_, hl, hf, ht, hk⟩
      simp only [hv, Nat.add_zero]
    · obtain ⟨j, tail, hv, hl, hf, ht, hk⟩ := ihr (i + 1) prefixKey c hc
      refine ⟨j + 1, tail, ?_, hl, hf, ht, hk⟩
      rw [hv]
      congr 1
      omega

/-- Every leaf gets a call. -/
theorem traverseStruct.loop_complete (tbl : Char → Char) (s : Fields) (i : Nat)
    (prefixKey : String) (j : Nat) (tail : List Nat)
    (h : (s.leafAt (j :: tail)).isSome = true) :
    ∃ c ∈ traverseStruct.loop tbl s [] i prefixKey, c.value = (i + j) :: tail := by
  induction s generalizing i prefixKey j tail with
  | nil => simp [Fields.leafAt] at h
  | leaf field value rest ih =>
    cases j with
    | zero =>
      cases tail with
      | nil => exact ⟨_, List.mem_cons_self _ _, rfl⟩
      | cons t ts => simp [Fields.leafAt] at h
    | succ j =>
      obtain ⟨c, hc, hv⟩ := ih (i + 1) prefixKey j tail h
      refine ⟨c, List.mem_cons_of_mem _ hc, ?_⟩
      rw [hv]
      congr 1
      omega
  | struct field inner rest ihi ihr =>
    rw [traverseStruct.loop_struct]
    cases j with
    | zero =>
      cases tail with
      | nil => simp [Fields.leafAt] at h
      | cons t ts =>
        obtain ⟨c, hc, hv⟩ := ihi 0 (retrieveKey tbl prefixKey field field.Tag) t ts h
        refine ⟨{ c with value := i :: c.value },
          List.mem_append_left _ (List.mem_map.mpr ⟨c, hc, rfl⟩), ?_⟩
        simp only [hv, Nat.zero_add, Nat.add_zero]
    | succ j =>
      obtain ⟨c, hc, hv⟩ := ihr (i + 1) prefixKey j tail h
      refine ⟨c, List.mem_append_right _ hc, ?_⟩
      rw [hv]
      congr 1
      omega

/-- The calls come in the lexicographic order of the field references, which is the
depth-first order of the declarations. -/
theorem traverseStruct.loop_sorted (tbl : Char → Char) (s : Fields) (i : Nat)
    (prefixKey : String) :
    ((traverseStruct.loop tbl s [] i prefixKey).map FieldCall.value).Pairwise
      (List.Lex (fun a b => a < b)) := by
  induction s generalizing i prefixKey with
  | nil => simp [traverseStruct.loop]
  | leaf field value rest ih =>
    simp only [traverseStruct.loop, List.nil_append, List.map_cons, List.pairwise_cons]
    refine ⟨?_, ih (i + 1) prefixKey⟩
    intro p hp
    obtain ⟨c, hc, rfl⟩ := List.mem_map.mp hp
    obtain ⟨j, tail, hv, _⟩ := traverseStruct.loop_sound tbl rest (i + 1) prefixKey c hc
    rw [hv]
    exact List.Lex.rel (by omega)
  | struct field inner rest ihi ihr =>
    rw [traverseStruct.loop_struct, List.map_append, List.pairwise_append]
    refine ⟨?_, ihr (i + 1) prefixKey, ?_⟩
    · rw [List.map_map]
      have h := ihi 0 (retrieveKey tbl prefixKey field field.Tag)
      rw [List.pairwise_map] at h ⊢
      exact h.imp (fun hab => List.Lex.cons hab)
    · intro p hp q hq
      obtain ⟨c, hc, rfl⟩ := List.mem_map.mp hp
      obtain ⟨c0, _, rfl⟩ := List.mem_map.mp hc
      obtain ⟨d, hd, rfl⟩ := List.mem_map.mp hq
      obtain ⟨j, tail, hv, _⟩ := traverseStruct.loop_sound tbl rest (i + 1) prefixKey d hd
      rw [hv]
      exact List.Lex.rel (by omega)


/-- The key of a field of the struct passed is `retrieveKey` with the prefix passed. -/
theorem Fields.keyAt_single (tbl : Char → Char) (s : Fields) (prefixKey : String) (i : Nat) :
    s.keyAt tbl prefixKey [i]
      = (s.fieldAt [i]).map (fun f => retrieveKey tbl prefixKey f f.Tag) := by
  induction s generalizing i with
  | nil => rfl
  | leaf field value rest ih =>
    cases i with
    | zero => rfl
    | succ i => exact ih i
  | struct field inner rest _ ihr =>
    cases i with
    | zero => rfl
    | succ i => exact ihr i

/-- The key of a field of a nested struct is `retrieveKey` with the key of that struct as
the prefix. -/
theorem Fields.keyAt_snoc (tbl : Char → Char) (s : Fields) (prefixKey : String) (j : Nat)
    (tail : List Nat) (i : Nat) :
    s.keyAt tbl prefixKey (j :: tail ++ [i])
      = (s.keyAt tbl prefixKey (j :: tail)).bind (fun k =>
          (s.fieldAt (j :: tail ++ [i])).map (fun f => retrieveKey tbl k f f.Tag)) := by
  induction s generalizing prefixKey j tail with
  | nil => rfl
  | leaf field value rest ih =>
    cases j with
    | zero =>
      cases tail with
      | nil => rfl
      | cons t ts => rfl
    | succ j => exact ih prefixKey j tail
  | struct field inner rest ihi ihr =>
    cases j with
    | zero =>
      cases tail with
      | nil => exact Fields.keyAt_single tbl inner _ i
      | cons t ts => exact ihi _ t ts
    | succ j => exact ihr prefixKey j tail

/-- C21: for every struct, nested or not, and every prefix, the calls `traverseStruct`
makes of the field processor are one for each leaf and none for anything else (a path
of field indices is the reference of a call if and only if it leads to a leaf, and no
two calls have the same reference), in the depth-first order of the declarations (the
lexicographic order of the paths); a call carries the `StructField` and the tag of its leaf
and the key of the leaf, which is `retrieveKey` with the prefix passed for a field of the
struct itself and with the key of the enclosing nested struct as prefix otherwise. For the
struct of `TestFileConfigBundle` the keys are `p.protocol`, `p.address.ip`,
`p.address.port`, `p.version` and `p.some-boolean`. -/
theorem traverseStruct_calls_each_leaf_once (tbl : Char → Char) (s : Fields)
    (prefixKey : String) :
    ((traverseStruct tbl s prefixKey).map FieldCall.value).Pairwise
      (List.Lex (fun a b => a < b)) ∧
    ((traverseStruct tbl s prefixKey).map FieldCall.value).Nodup ∧
    (∀ p, p ∈ (traverseStruct tbl s prefixKey).map FieldCall.value
      ↔ (s.leafAt p).isSome = true) ∧
    (∀ c ∈ traverseStruct tbl s prefixKey,
      s.fieldAt c.value = some c.field ∧ c.tags = c.field.Tag ∧
      s.keyAt tbl prefixKey c.value = some c.key) ∧
    (∀ i, s.keyAt tbl prefixKey [i]
      = (s.fieldAt [i]).map (fun f => retrieveKey tbl prefixKey f f.Tag)) ∧
    (∀ j tail i, s.keyAt tbl prefixKey (j :: tail ++ [i])
      = (s.keyAt tbl prefixKey (j :: tail)).bind (fun k =>
          (s.fieldAt (j :: tail ++ [i])).map (fun f => retrieveKey tbl k f f.Tag))) ∧
    (traverseStruct tbl someConfig prefixKey).map (fun c => (c.key, c.value))
      = [(prefixKey ++ "." ++ "protocol", [0]),
        (prefixKey ++ "." ++ "address" ++ "." ++ "ip", [1, 0]),
        (prefixKey ++ "." ++ "address" ++ "." ++ "port", [1, 1]),
        (prefixKey ++ "." ++ "version", [2]),
        (prefixKey ++ "." ++ "some-boolean", [3])] ∧
    (traverseStruct tbl someConfig "some-config").map (fun c => c.key)
      = ["some-config.protocol", "some-config.address.ip", "some-config.address.port",
        "some-config.version", "some-config.some-boolean"] := by
  have hsorted := traverseStruct.loop_sorted tbl s 0 prefixKey
  refine ⟨hsorted, ?_, ?_, ?_, Fields.keyAt_single tbl s prefixKey,
    Fields.keyAt_snoc tbl s prefixKey, rfl, rfl⟩
  · refine hsorted.imp ?_
    intro a b hab
    exact (List.Lex.imp (fun x y hxy => ne_of_lt hxy) _ _ hab).to_ne
  · intro p
    constructor
    · intro hp
      obtain ⟨c, hc, rfl⟩ := List.mem_map.mp hp
      obtain ⟨j, tail, hv, hl, _⟩ := traverseStruct.loop_sound tbl s 0 prefixKey c hc
      rw [hv, Nat.zero_add]
      exact hl
    · intro hp
      cases p with
      | nil =>
        cases s <;> simp [Fields.leafAt] at hp
      | cons j tail =>
        obtain ⟨c, hc, hv⟩ := traverseStruct.loop_complete tbl s 0 prefixKey j tail hp
        rw [Nat.zero_add] at hv
        exact List.mem_map.mpr ⟨c, hc, hv⟩
  · intro c hc
    obtain ⟨j, tail, hv, _, hf, ht, hk⟩ := traverseStruct.loop_sound tbl s 0 prefixKey c hc
    rw [Nat.zero_add] at hv
    rw [hv]
    exact ⟨hf, ht, hk⟩

/-! ## The struct binder: filling the fields -/

theorem Except.map_eq_ok {ε α β : Type} (g : α → β) (x : Except ε α) (y : β)
    (h : x.map g = .ok y) : ∃ a, x = .ok a ∧ g a = y := by
  cases x with
  | error e => cases h
  | ok a =>
    cases h
    exact ⟨a, rfl, rfl⟩

/-- An update through a field reference that returns: the reference leads to a leaf, the
leaf holds what `f` returns for it, every other leaf is as before, and so is the
`StructField` of every field. -/
theorem Fields.modifyAt_ok (f : Leaf → Except String Leaf) (s : Fields) (p : List Nat)
    (s' : Fields) (h : s.modifyAt f p = .ok s') :
    ∃ v v', s.leafAt p = some v ∧ f v = .ok v' ∧ s'.leafAt p = some v' ∧
      (∀ q, q ≠ p → s'.leafAt q = s.leafAt q) ∧ (∀ q, s'.fieldAt q = s.fieldAt q) := by
  induction s generalizing p s' with
  | nil =>
    cases p with
    | nil => cases h
    | cons j tail => cases h
  | leaf field value rest ih =>
    cases p with
    | nil => cases h
    | cons j tail =>
      cases j with
      | zero =>
        cases tail with
        | nil =>
          obtain ⟨v', hv', rfl⟩ := Except.map_eq_ok _ _ _ h
          refine ⟨value, v', rfl, hv', rfl, ?_, ?_⟩
          · intro q hq
            cases q with
            | nil => rfl
            | cons k qs =>
              cases k with
              | zero =>
                cases qs with
                | nil => exact absurd rfl hq
                | cons t ts => rfl
              | succ k => rfl
          · intro q
            cases q with
            | nil => rfl
            | cons k qs =>
              cases k with
              | zero => cases qs <;> rfl
              | succ k => rfl
        | cons t ts => cases h
      | succ j =>
        obtain ⟨r, hr, rfl⟩ := Except.map_eq_ok _ _ _ h
        obtain ⟨v, v', hv, hf, hv', hframe, hfield⟩ := ih (j :: tail) r hr
        refine ⟨v, v', hv, hf, hv', ?_, ?_⟩
        · intro q hq
          cases q with
          | nil => rfl
          | cons k qs =>
            cases k with
            | zero => cases qs <;> rfl
            | succ k =>
              exact hframe (k :: qs) (fun e => hq (by
                cases e
                rfl))
        · intro q
          cases q with
          | nil => rfl
          | cons k qs =>
            cases k with
            | zero => cases qs <;> rfl
            | succ k => exact hfield (k :: qs)
  | struct field inner rest ihi ihr =>
    cases p with
    | nil => cases h
    | cons j tail =>
      cases j with
      | zero =>
        obtain ⟨r, hr, rfl⟩ := Except.map_eq_ok _ _ _ h
        obtain ⟨v, v', hv, hf, hv', hframe, hfield⟩ := ihi tail r hr
        refine ⟨v, v', hv, hf, hv', ?_, ?_⟩
        · intro q hq
          cases q with
          | nil => rfl
          | cons k qs =>
            cases k with
            | zero =>
              exact hframe qs (fun e => hq (by
                cases e
                rfl))
            | succ k => rfl
        · intro q
          cases q with
          | nil => rfl
          | cons k qs =>
            cases k with
            | zero =>
              cases qs with
              | nil => rfl
              | cons t ts => exact hfield (t :: ts)
            | succ k => rfl
      | succ j =>
        obtain ⟨r, hr, rfl⟩ := Except.map_eq_ok _ _ _ h
        obtain ⟨v, v', hv, hf, hv', hframe, hfield⟩ := ihr (j :: tail) r hr
        refine ⟨v, v', hv, hf, hv', ?_, ?_⟩
        · intro q hq
          cases q with
          | nil => rfl
          | cons k qs =>
            cases k with
            | zero => rfl
            | succ k =>
              exact hframe (k :: qs) (fun e => hq (by
                cases e
                rfl))
        · intro q
          cases q with
          | nil => rfl
          | cons k qs =>
            cases k with
            | zero =>
              cases qs with
              | nil => rfl
              | cons t ts => rfl
            | succ k => exact hfield (k :: qs)

/-- An update through a reference to a leaf is what `f` returns for the leaf: a panic of
`f` is the panic of the update, and a leaf returned as it was leaves the struct as it
was. -/
theorem Fields.modifyAt_leaf (f : Leaf → Except String Leaf) (s : Fields) (p : List Nat)
    (v : Leaf) (h : s.leafAt p = some v) :
    (∀ e, f v = .error e → s.modifyAt f p = .error e) ∧
    (f v = .ok v → s.modifyAt f p = .ok s) ∧
    (∀ v', f v = .ok v' → ∃ s', s.modifyAt f p = .ok s') := by
  induction s generalizing p with
  | nil =>
    cases p <;> cases h
  | leaf field value rest ih =>
    cases p with
    | nil => cases h
    | cons j tail =>
      cases j with
      | zero =>
        cases tail with
        | nil =>
          cases h
          simp only [Fields.modifyAt]
          refine ⟨?_, ?_, ?_⟩
          · intro e he
            rw [he]
            rfl
          · intro he
            rw [he]
            rfl
          · intro v' he
            rw [he]
            exact ⟨_, rfl⟩
        | cons t ts => cases h
      | succ j =>
        obtain ⟨h1, h2, h3⟩ := ih (j :: tail) h
        simp only [Fields.modifyAt]
        refine ⟨?_, ?_, ?_⟩
        · intro e he
          rw [h1 e he]
          rfl
        · intro he
          rw [h2 he]
          rfl
        · intro v' he
          obtain ⟨s', hs'⟩ := h3 v' he
          rw [hs']
          exact ⟨_, rfl⟩
  | struct field inner rest ihi ihr =>
    cases p with
    | nil => cases h
    | cons j tail =>
      cases j with
      | zero =>
        obtain ⟨h1, h2, h3⟩ := ihi tail h
        simp only [Fields.modifyAt]
        refine ⟨?_, ?_, ?_⟩
        · intro e he
          rw [h1 e he]
          rfl
        · intro he
          rw [h2 he]
          rfl
        · intro v' he
          obtain ⟨s', hs'⟩ := h3 v' he
          rw [hs']
          exact ⟨_, rfl⟩
      | succ j =>
        obtain ⟨h1, h2, h3⟩ := ihr (j :: tail) h
        simp only [Fields.modifyAt]
        refine ⟨?_, ?_, ?_⟩
        · intro e he
          rw [h1 e he]
          rfl
        · intro he
          rw [h2 he]
          rfl
        · intro v' he
          obtain ⟨s', hs'⟩ := h3 v' he
          rw [hs']
          exact ⟨_, rfl⟩


/-- `setValueWithReflect` on a field whose accessor reports found false, and on a field of
a kind outside the `switch`: the field as it was. -/
theorem setValueWithReflect_unchanged (undef : Float64 → Int) (conf : Util) (key : String)
    (value : Leaf) :
    (accessorNotFound undef conf key value.kind →
      setValueWithReflect undef conf key value = .ok value) ∧
    (value.kind ∉ [Kind.Bool, .String, .Int, .Int8, .Int16, .Int32, .Int64, .Float32,
        .Float64] →
      setValueWithReflect undef conf key value = .ok value) := by
  obtain ⟨kind, pre, cs, cur⟩ := value
  constructor
  · intro h
    cases kind <;> simp only [accessorNotFound] at h <;>
      first
      | exact h.elim
      | (obtain ⟨val, hval⟩ := h
         simp only [setValueWithReflect, hval, Bool.false_eq_true, if_false])
  · intro h
    cases kind <;> first | rfl | (exact absurd (by simp) h)

/-- `setValueWithReflect` on a field whose accessor reports found true is
`value.Set(reflect.ValueOf(val))` with the `bool`, `string`, `int` or `float64` the
accessor returns. -/
theorem setValueWithReflect_found (undef : Float64 → Int) (conf : Util) (key : String)
    (value : Leaf) :
    (∀ val, value.kind = .Bool → conf.GetBool key = .ok (val, true) →
      setValueWithReflect undef conf key value = value.Set .Bool (.bool val)) ∧
    (∀ val, value.kind = .String → conf.GetString key = .ok (val, true) →
      setValueWithReflect undef conf key value = value.Set .String (.str val)) ∧
    (∀ val, value.kind ∈ [Kind.Int, .Int8, .Int16, .Int32, .Int64] →
      conf.GetInt undef key = .ok (val, true) →
      setValueWithReflect undef conf key value = value.Set .Int (.int .int val)) ∧
    (∀ val, value.kind ∈ [Kind.Float32, .Float64] → conf.GetFloat key = .ok (val, true) →
      setValueWithReflect undef conf key value = value.Set .Float64 (.float64 val)) := by
  obtain ⟨kind, pre, cs, cur⟩ := value
  refine ⟨?_, ?_, ?_, ?_⟩
  · intro val hk h
    cases hk
    simp only [setValueWithReflect, h, if_true]
  · intro val hk h
    cases hk
    simp only [setValueWithReflect, h, if_true]
  · intro val hk h
    simp only [List.mem_cons, List.mem_singleton, List.not_mem_nil, or_false] at hk
    rcases hk with hk | hk | hk | hk | hk <;> cases hk <;>
      simp only [setValueWithReflect, h, if_true]
  · intro val hk h
    simp only [List.mem_cons, List.mem_singleton, List.not_mem_nil, or_false] at hk
    rcases hk with hk | hk <;> cases hk <;> simp only [setValueWithReflect, h, if_true]


/-- One call of the field processor of `NewBundle` that returns has run
`setValueWithReflect` on the struct. -/
theorem NewBundle.fieldProcess_ok (undef : Float64 → Int) (util : Util) (c : FieldCall)
    (s s' : Fields) (ws : List WatchCall)
    (h : NewBundle.fieldProcess undef util c s = .ok (s', ws)) :
    s.modifyAt (setValueWithReflect undef util c.key) c.value = .ok s' := by
  simp only [NewBundle.fieldProcess] at h
  cases hm : s.modifyAt (setValueWithReflect undef util c.key) c.value with
  | error e =>
    rw [hm] at h
    cases h
  | ok s1 =>
    rw [hm] at h
    simp only [] at h
    split at h
    · split at h <;> cases h <;> rfl
    · cases h
      rfl

/-- The fill of `NewBundle` leaves alone every leaf for which no call finds a value. -/
theorem NewBundle.fill_frame (undef : Float64 → Int) (util : Util) (cs : List FieldCall)
    (s s' : Fields) (ws : List WatchCall)
    (h : NewBundle.fill undef util cs s = .ok (s', ws)) :
    (∀ q, (∀ c ∈ cs, c.value = q →
        ∃ v, s.leafAt q = some v ∧ accessorNotFound undef util c.key v.kind) →
      s'.leafAt q = s.leafAt q) ∧
    ∀ q, s'.fieldAt q = s.fieldAt q := by
  induction cs generalizing s s' ws with
  | nil =>
    cases h
    exact ⟨fun _ _ => rfl, fun _ => rfl⟩
  | cons c cs ih =>
    simp only [NewBundle.fill] at h
    cases hp : NewBundle.fieldProcess undef util c s with
    | error e =>
      rw [hp] at h
      cases h
    | ok r =>
      obtain ⟨s1, ws1⟩ := r
      rw [hp] at h
      simp only [] at h
      cases hf : NewBundle.fill undef util cs s1 with
      | error e =>
        rw [hf] at h
        cases h
      | ok r2 =>
        obtain ⟨s2, ws2⟩ := r2
        rw [hf] at h
        cases h
        have hm := NewBundle.fieldProcess_ok undef util c s s1 ws1 hp
        obtain ⟨v, v', hv, hfv, _, hframe, hfield⟩ := Fields.modifyAt_ok _ s c.value s1 hm
        obtain ⟨ih1, ih2⟩ := ih s1 s' ws2 hf
        have hstep : ∀ q, (∀ c' ∈ c :: cs, c'.value = q →
            ∃ v, s.leafAt q = some v ∧ accessorNotFound undef util c'.key v.kind) →
            s1.leafAt q = s.leafAt q := by
          intro q hq
          by_cases hcq : c.value = q
          · obtain ⟨w, hw, hnf⟩ := hq c (List.mem_cons_self _ _) hcq
            subst hcq
            rw [hv] at hw
            cases hw
            have := (setValueWithReflect_unchanged undef util c.key v).1 hnf
            rw [((Fields.modifyAt_leaf _ s c.value v hv).2.1 this)] at hm
            cases hm
            rfl
          · exact hframe q (fun e => hcq e.symm)
        refine ⟨?_, fun q => (ih2 q).trans (hfield q)⟩
        intro q hq
        have h1 := hstep q hq
        rw [← h1]
        apply ih1
        intro c' hc' hval
        obtain ⟨w, hw, hnf⟩ := hq c' (List.mem_cons_of_mem _ hc') hval
        exact ⟨w, h1.trans hw, hnf⟩

/-- C29: for every registry, key and leaf field, when the typed accessor that the kind of
the field selects reports found false, `setValueWithReflect` returns the field as it is;
so does the call through a field reference, in the fill of `NewBundle` and in the callback
of a watch (whatever the registry answers by then); a call that returns changes no leaf but
the one it refers to and no `StructField`; and after the whole fill every leaf for which
no call found a value is as before. In the struct of `TestFileConfigBundle` with `Version`
set to `0.0.1` beforehand, filled from a document without a version, `Version` is still
`0.0.1`. -/
theorem binder_not_found_unchanged (undef : Float64 → Int) (conf : Util) :
    (∀ key value, accessorNotFound undef conf key value.kind →
      setValueWithReflect undef conf key value = .ok value) ∧
    (∀ c s value, s.leafAt c.value = some value →
      accessorNotFound undef conf c.key value.kind →
      NewBundle.watchCallback undef conf c s = .ok s ∧
      ∃ ws, NewBundle.fieldProcess undef conf c s = .ok (s, ws)) ∧
    (∀ c s s', NewBundle.watchCallback undef conf c s = .ok s' →
      (∀ q, q ≠ c.value → s'.leafAt q = s.leafAt q) ∧ ∀ q, s'.fieldAt q = s.fieldAt q) ∧
    (∀ c s s' ws, NewBundle.fieldProcess undef conf c s = .ok (s', ws) →
      (∀ q, q ≠ c.value → s'.leafAt q = s.leafAt q) ∧ ∀ q, s'.fieldAt q = s.fieldAt q) ∧
    (∀ cs s s' ws, NewBundle.fill undef conf cs s = .ok (s', ws) →
      (∀ q, (∀ c ∈ cs, c.value = q →
          ∃ v, s.leafAt q = some v ∧ accessorNotFound undef conf c.key v.kind) →
        s'.leafAt q = s.leafAt q) ∧
      ∀ q, s'.fieldAt q = s.fieldAt q) ∧
    (NewBundle undef (fileWorld someConfigDoc) (fun c => c) "some-config"
        (.leaf ⟨"Protocol", []⟩ ⟨.String, true, true, .str "udp"⟩
          (.leaf ⟨"Version", []⟩ ⟨.String, true, true, .str "0.0.1"⟩ .nil))
        ⟨"", "", "", 0⟩).map (fun r => (r.2.1.leafAt [0], r.2.1.leafAt [1]))
      = .ok (some ⟨.String, true, true, .str "tcp"⟩,
          some ⟨.String, true, true, .str "0.0.1"⟩) := by
  refine ⟨?_, ?_, ?_, ?_, ?_, rfl⟩
  · intro key value h
    exact (setValueWithReflect_unchanged undef conf key value).1 h
  · intro c s value hv h
    have hset := (setValueWithReflect_unchanged undef conf c.key value).1 h
    have hm := (Fields.modifyAt_leaf _ s c.value value hv).2.1 hset
    refine ⟨hm, ?_⟩
    simp only [NewBundle.fieldProcess, hm]
    split
    · split
      · exact ⟨_, rfl⟩
      · exact ⟨_, rfl⟩
    · exact ⟨_, rfl⟩
  · intro c s s' h
    obtain ⟨_, _, _, _, _, hframe, hfield⟩ := Fields.modifyAt_ok _ s c.value s' h
    exact ⟨hframe, hfield⟩
  · intro c s s' ws h
    obtain ⟨_, _, _, _, _, hframe, hfield⟩ :=
      Fields.modifyAt_ok _ s c.value s' (NewBundle.fieldProcess_ok undef conf c s s' ws h)
    exact ⟨hframe, hfield⟩
  · intro cs s s' ws h
    exact NewBundle.fill_frame undef conf cs s s' ws h


/-- C22, the code: for a field of kind `int8`, `int16`, `int32` or `int64` whose key
`GetInt` finds, and for a field of kind `float32` whose key `GetFloat` finds,
`setValueWithReflect` panics in `value.Set`, since the `int` (the `float64`) the accessor
returns is not assignable to the type of the field; `NewBundle` for a struct with a field
`Port int32` and a configuration file that holds the port panics. For a field that can be
set, of type `bool`, `string`, `int` or `float64`, the value found is stored, a field of a
kind outside the `switch` is left as it is, and the struct of `TestFileConfigBundle` is
filled. -/
theorem setValueWithReflect_sized_kinds_panic :
    (∀ undef conf key (value : Leaf) val,
      value.kind ∈ [Kind.Int8, .Int16, .Int32, .Int64] → value.CanSet = true →
      conf.GetInt undef key = .ok (val, true) →
      setValueWithReflect undef conf key value
        = .error "reflect.Set: value is not assignable to the type of the field") ∧
    (∀ undef conf key (value : Leaf) val, value.kind = .Float32 → value.CanSet = true →
      conf.GetFloat key = .ok (val, true) →
      setValueWithReflect undef conf key value
        = .error "reflect.Set: value is not assignable to the type of the field") ∧
    (∀ undef tbl,
      NewBundle undef (fileWorld someConfigDoc) tbl "some-config.address"
        (.leaf ⟨"Port", []⟩ ⟨.Int32, true, true, .int .int32 0⟩ .nil) ⟨"", "", "", 0⟩
        = .error "reflect.Set: value is not assignable to the type of the field") ∧
    (∀ undef tbl,
      (NewBundle undef (fileWorld someConfigDoc) tbl "some-config.address"
        (.leaf ⟨"Port", []⟩ ⟨.Int, true, true, .int .int 0⟩ .nil) ⟨"", "", "", 0⟩).map
          (fun r => r.2.1.leafAt [0])
        = .ok (some ⟨.Int, true, true, .int .int 3000⟩)) ∧
    (∀ undef conf key (value : Leaf), value.predeclared = true → value.CanSet = true →
      (∀ val, value.kind = .Bool → conf.GetBool key = .ok (val, true) →
        setValueWithReflect undef conf key value = .ok { value with cur := .bool val }) ∧
      (∀ val, value.kind = .String → conf.GetString key = .ok (val, true) →
        setValueWithReflect undef conf key value = .ok { value with cur := .str val }) ∧
      (∀ val, value.kind = .Int → conf.GetInt undef key = .ok (val, true) →
        setValueWithReflect undef conf key value = .ok { value with cur := .int .int val }) ∧
      (∀ val, value.kind = .Float64 → conf.GetFloat key = .ok (val, true) →
        setValueWithReflect undef conf key value
          = .ok { value with cur := .float64 val })) ∧
    (∀ undef conf key (value : Leaf),
      value.kind ∉ [Kind.Bool, .String, .Int, .Int8, .Int16, .Int32, .Int64, .Float32,
        .Float64] →
      setValueWithReflect undef conf key value = .ok value) ∧
    (∀ undef tbl,
      (NewBundle undef (fileWorld someConfigDoc) tbl "some-config" someConfig
        ⟨"", "", "", 0⟩).map
          (fun r => (r.2.1.leafAt [0], r.2.1.leafAt [1, 0], r.2.1.leafAt [1, 1],
            r.2.1.leafAt [3]))
        = .ok (some ⟨.String, true, true, .str "tcp"⟩,
            some ⟨.String, true, true, .str "127.0.0.2"⟩,
            some ⟨.Int, true, true, .int .int 3000⟩,
            some ⟨.Bool, true, true, .bool true⟩)) := by
  refine ⟨?_, ?_, fun _ _ => rfl, fun _ _ => rfl, ?_, ?_, fun _ _ => rfl⟩
  · intro undef conf key value val hk hcs h
    have hk' : value.kind ∈ [Kind.Int, .Int8, .Int16, .Int32, .Int64] :=
      List.mem_cons_of_mem _ hk
    rw [(setValueWithReflect_found undef conf key value).2.2.1 val hk' h]
    have hne : value.kind ≠ .Int := by
      intro e
      rw [e] at hk
      exact absurd hk (by decide)
    simp only [Leaf.Set, hcs, Bool.true_eq_false, if_false, hne, false_and]
  · intro undef conf key value val hk hcs h
    rw [(setValueWithReflect_found undef conf key value).2.2.2 val (by simp [hk]) h]
    simp only [Leaf.Set, hcs, Bool.true_eq_false, if_false, hk, false_and]
    rfl
  · intro undef conf key value hpre hcs
    have hf := setValueWithReflect_found undef conf key value
    refine ⟨?_, ?_, ?_, ?_⟩
    · intro val hk h
      rw [hf.1 val hk h]
      simp only [Leaf.Set, hcs, Bool.true_eq_false, if_false, hk, hpre, and_self, if_true]
    · intro val hk h
      rw [hf.2.1 val hk h]
      simp only [Leaf.Set, hcs, Bool.true_eq_false, if_false, hk, hpre, and_self, if_true]
    · intro val hk h
      rw [hf.2.2.1 val (by simp [hk]) h]
      simp only [Leaf.Set, hcs, Bool.true_eq_false, if_false, hk, hpre, and_self, if_true]
    · intro val hk h
      rw [hf.2.2.2 val (by simp [hk]) h]
      simp only [Leaf.Set, hcs, Bool.true_eq_false, if_false, hk, hpre, and_self, if_true]
  · intro undef conf key value h
    exact (setValueWithReflect_unchanged undef conf key value).2 h

/-! ## The environment names: where the upper case names coincide -/

/-- On a key of ASCII letters, ASCII digits and dots `normalizeKey` only replaces the
dots. -/
theorem normalizeKey_of_alnum_dots (key : String)
    (h : ∀ c ∈ key.toList,
      ('a' ≤ c ∧ c ≤ 'z') ∨ ('A' ≤ c ∧ c ≤ 'Z') ∨ ('0' ≤ c ∧ c ≤ '9') ∨ c = '.') :
    normalizeKey key = strings.ReplaceChar key '.' '_' := by
  simp only [normalizeKey, strings.ReplaceChar]
  congr 1
  apply List.map_congr_left
  intro c hc
  by_cases hdot : c = '.'
  · subst hdot
    decide
  · have hal : ('a' ≤ c ∧ c ≤ 'z') ∨ ('A' ≤ c ∧ c ≤ 'Z') ∨ ('0' ≤ c ∧ c ≤ '9') := by
      rcases h c hc with h1 | h1 | h1 | h1
      · exact Or.inl h1
      · exact Or.inr (Or.inl h1)
      · exact Or.inr (Or.inr h1)
      · exact absurd h1 hdot
    rw [if_pos hal, if_neg hdot]

/-- Removing a character that does not occur changes nothing. -/
theorem strings.RemoveChar_of_not_mem (s : String) (old : Char) (h : old ∉ s.toList) :
    strings.RemoveChar s old = s := by
  cases s with
  | mk l =>
    simp only [strings.RemoveChar, String.toList] at h ⊢
    congr 1
    apply List.filter_eq_self.mpr
    intro c hc
    have : c ≠ old := fun e => h (e ▸ hc)
    simpa using this

/-- C31: for every key that consists of ASCII letters, ASCII digits and dots only, the
three upper case names are the same string, `normalizeKeyUpper` = `parseKeyLegacy1` =
`parseKeyLegacy2`; and for every key `parseKeyLegacy1` is `parseKeyLegacy2` of the key
without its `[`, `]` and `-`. For `lev1.lev2.LEV3` the three names are
`LEV1_LEV2_LEV3`; for `lev1.lev2[5].LEV3`, which is outside the first part, they are three
different strings. -/
theorem upper_names_coincide (tbl : Char → Char) (key : String) :
    ((∀ c ∈ key.toList,
        ('a' ≤ c ∧ c ≤ 'z') ∨ ('A' ≤ c ∧ c ≤ 'Z') ∨ ('0' ≤ c ∧ c ≤ '9') ∨ c = '.') →
      normalizeKeyUpper tbl key = parseKeyLegacy1 tbl key ∧
      parseKeyLegacy1 tbl key = parseKeyLegacy2 tbl key) ∧
    parseKeyLegacy1 tbl key
      = parseKeyLegacy2 tbl
          (String.mk (key.toList.filter (fun c => c ≠ '[' ∧ c ≠ ']' ∧ c ≠ '-'))) ∧
    [normalizeKeyUpper tbl "lev1.lev2.LEV3", parseKeyLegacy1 tbl "lev1.lev2.LEV3",
        parseKeyLegacy2 tbl "lev1.lev2.LEV3"]
      = ["LEV1_LEV2_LEV3", "LEV1_LEV2_LEV3", "LEV1_LEV2_LEV3"] ∧
    [normalizeKeyUpper tbl "lev1.lev2[5].LEV3", parseKeyLegacy1 tbl "lev1.lev2[5].LEV3",
        parseKeyLegacy2 tbl "lev1.lev2[5].LEV3"]
      = ["LEV1_LEV2_5__LEV3", "LEV1_LEV25_LEV3", "LEV1_LEV2[5]_LEV3"] := by
  refine ⟨?_, ?_, rfl, rfl⟩
  · intro h
    have hno : ∀ x : Char, x = '[' ∨ x = ']' ∨ x = '-' → x ∉ key.toList := by
      intro x hx hmem
      have hc := h x hmem
      rcases hx with rfl | rfl | rfl <;> exact absurd hc (by decide)
    have h1 : strings.RemoveChar key '[' = key :=
      strings.RemoveChar_of_not_mem key _ (hno _ (Or.inl rfl))
    have h2 : strings.RemoveChar key ']' = key :=
      strings.RemoveChar_of_not_mem key _ (hno _ (Or.inr (Or.inl rfl)))
    have h3 : strings.RemoveChar key '-' = key :=
      strings.RemoveChar_of_not_mem key _ (hno _ (Or.inr (Or.inr rfl)))
    have h12 : parseKeyLegacy1 tbl key = parseKeyLegacy2 tbl key := by
      simp only [parseKeyLegacy1, parseKeyLegacy2, h1, h2, h3]
    refine ⟨?_, h12⟩
    rw [h12]
    simp only [normalizeKeyUpper, parseKeyLegacy2, normalizeKey_of_alnum_dots key h]
  · rw [parseKeyLegacy1_eq]
    rfl

end Config
